import Mathlib

/-!
# memory-heap: a fixed-arena allocator (`src/heap.c`)

Shallow embedding of the allocator engine of `heap.c` and proofs about it.

Modelling conventions.

* `size_t` is 64 bits wide.  Values of type `size_t` are naturals; every
  arithmetic operation the C code performs on them is written with an
  explicit reduction modulo `2 ^ 64` (`size_add`, `size_sub`).
* The layout of `struct bloc` is the LP64 one that the code itself relies on
  (`bloc_from_data_ptr` subtracts the literal `16u`): `size` at byte 0,
  `available` at byte 8, the union `u` at byte 16, `sizeof(bloc) = 24`.
* `M_SIZE` is a compile-time macro of `heap.c`; it is a parameter here.
* A pointer is a pair (memory region, byte offset).  There are two regions:
  the `malloc`ed false head of the free list and the `malloc`ed reserve.
  A nullable pointer is an `Option Ptr`.
* Memory is header-granular: it maps every pointer to the `struct bloc`
  value read through it, and a store through one pointer leaves the values
  read through the other pointers unchanged.  The bytes of the data of a
  block are not modelled.
* Every `while` loop is a recursive function with a fuel argument which
  returns `none` when the fuel runs out.  `Ret f v` says that the fuelled
  computation `f` returns `v`.
* The output of `printf` is not modelled.
-/

namespace MemoryHeap

/-! ## Machine constants and `size_t` arithmetic -/

/-- Largest value of `size_t`. -/
def SIZE_MAX : Nat := 2 ^ 64 - 1

/-- Value of `sizeof(size_t)`. -/
def sizeof_size_t : Nat := 8

/-- Value of `sizeof(bool)`. -/
def sizeof_bool : Nat := 1

/-- Byte offset of the union `u` inside `struct bloc` (the `16u` of `MAGIC #1`). -/
def offsetof_u : Nat := 16

/-- Value of `sizeof(bloc)`. -/
def sizeof_bloc : Nat := 24

/-- Macro `BLOC_INFOS_SIZE`, that is `sizeof(size_t) + sizeof(bool)`. -/
def BLOC_INFOS_SIZE : Nat := sizeof_size_t + sizeof_bool

/-- Macro `BLOC_DATAS_SIZE_MIN`, that is `sizeof(bloc) - BLOC_INFOS_SIZE`. -/
def BLOC_DATAS_SIZE_MIN : Nat := sizeof_bloc - BLOC_INFOS_SIZE

/-- Addition of two `size_t` values. -/
def size_add (a b : Nat) : Nat := (a + b) % 2 ^ 64

/-- Subtraction of two `size_t` values (wraps around below zero). -/
def size_sub (a b : Nat) : Nat := (a + (2 ^ 64 - b % 2 ^ 64)) % 2 ^ 64

/-! ## Pointers, blocks, memory -/

/-- The two `malloc`ed regions of the program. -/
inductive Region where
  | head
  | reserve
deriving DecidableEq, Repr

/-- A non-null pointer: a region and a byte offset inside it. -/
structure Ptr where
  region : Region
  off : Nat
deriving DecidableEq, Repr

/-- The type `struct bloc`; `next` is the member `u.next`. -/
structure bloc where
  size : Nat
  available : Bool
  next : Option Ptr
deriving DecidableEq, Repr

/-- Header-granular memory: the header read at each address. The headers at
two addresses are independent cells, which is what the bytes of the reserve
give when the headers do not overlap, that is when each block of the reserve
is at least `sizeof(bloc)` bytes long. -/
abbrev Mem := Ptr → bloc

/-- Store of a whole header; the header at every other address is kept (see
`Mem` for the memories on which this is what the code does). -/
def Mem.write (m : Mem) (p : Ptr) (b : bloc) : Mem :=
  fun q => if q = p then b else m q

/-- The global `freeblocs`: address of the false head. -/
def freeblocs : Ptr := ⟨Region.head, 0⟩

/-- The global `memory_reserve`: address of the reserve. -/
def memory_reserve : Ptr := ⟨Region.reserve, 0⟩

/-- Pointer to the byte at offset `o` of the reserve. -/
def blk (o : Nat) : Ptr := ⟨Region.reserve, o⟩

/-! ## Local functions on blocks (`heap.c`, lines 89-162) -/

/-- The function `bloc_get_next`. -/
def bloc_get_next (m : Mem) (p : Ptr) : Option Ptr :=
  if (m p).available then (m p).next else none

/-- The function `bloc_set_next`. -/
def bloc_set_next (m : Mem) (p : Ptr) (x : Option Ptr) : Mem :=
  if (m p).available then m.write p { m p with next := x } else m

/-- The function `bloc_get_size`. -/
def bloc_get_size (m : Mem) (p : Ptr) : Nat := (m p).size

/-- The function `bloc_set_size`. -/
def bloc_set_size (m : Mem) (p : Ptr) (size : Nat) : Mem :=
  m.write p { m p with size := size }

/-- The function `bloc_is_available`. -/
def bloc_is_available (m : Mem) (p : Ptr) : Bool := (m p).available

/-- The function `bloc_set_available`. -/
def bloc_set_available (m : Mem) (p : Ptr) (b : Bool) : Mem :=
  m.write p { m p with available := b }

/-- The function `bloc_empty`: the false head is `malloc`ed at `freeblocs`,
its fields `available` and `size` are set, `u.next` keeps its indeterminate
content. -/
def bloc_empty (m : Mem) : Mem × Ptr :=
  let p := freeblocs
  let m := m.write p { m p with available := true }
  let m := m.write p { m p with size := 0 }
  (m, p)

/-- The function `bloc_insert_head`. -/
def bloc_insert_head (m : Mem) (s p : Ptr) : Mem :=
  let m := m.write p { m p with next := (m s).next }
  m.write s { m s with next := some p }

/-- The loop of `bloc_remove_occ`. -/
def bloc_remove_occ_loop (x : Ptr) : Nat → Mem → Ptr → Ptr → Option Mem
  | 0, _, _, _ => none
  | fuel + 1, m, p, q =>
    match bloc_get_next m q with
    | none => some m
    | some q =>
      if q = x then
        some (m.write p { m p with next := (m q).next })
      else
        bloc_remove_occ_loop x fuel m q q

/-- The function `bloc_remove_occ`. -/
def bloc_remove_occ (fuel : Nat) (m : Mem) (s x : Ptr) : Option Mem :=
  bloc_remove_occ_loop x fuel m s s

/-- The function `bloc_next_memory_bloc`. -/
def bloc_next_memory_bloc (m : Mem) (p : Ptr) : Ptr :=
  ⟨p.region, p.off + (m p).size⟩

/-- The function `bloc_get_data_ptr`: address of the member `u.data`. -/
def bloc_get_data_ptr (p : Ptr) : Ptr :=
  ⟨p.region, p.off + offsetof_u⟩

/-- The function `bloc_from_data_ptr`. -/
def bloc_from_data_ptr (ptr : Ptr) : Ptr :=
  ⟨ptr.region, ptr.off - 16⟩

/-! ## The heap (`heap.c`, lines 169-368) -/

/-- Macro `FUN_FAILURE`. -/
def FUN_FAILURE : Nat := 1

/-- Macro `FUN_SUCCESS`. -/
def FUN_SUCCESS : Nat := 0

/-- Macro `M_SIZE_DEFAUT`. -/
def M_SIZE_DEFAUT : Nat := 80

/-- The two values the function pointer `get_offer` takes. -/
inductive Offer where
  | m_get_best_fit
  | m_get_first_fit
deriving DecidableEq, Repr

/-- The global state: the memory and the variable `get_offer`. -/
structure Heap where
  mem : Mem
  get_offer : Offer

/-- The loop of `m_get_first_fit`. -/
def m_get_first_fit_loop (m : Mem) (size : Nat) : Nat → Ptr → Option (Option Ptr)
  | 0, _ => none
  | fuel + 1, p =>
    match bloc_get_next m p with
    | none => some none
    | some p =>
      if bloc_get_size m p < size then m_get_first_fit_loop m size fuel p
      else some (some p)

/-- The function `m_get_first_fit`. -/
def m_get_first_fit (fuel : Nat) (m : Mem) (size : Nat) : Option (Option Ptr) :=
  m_get_first_fit_loop m size fuel freeblocs

/-- The loop of `m_get_best_fit`. -/
def m_get_best_fit_loop (m : Mem) (size : Nat) :
    Nat → Nat → Ptr → Option Ptr → Option (Option Ptr)
  | 0, _, _, _ => none
  | fuel + 1, d, p, q =>
    match bloc_get_next m p with
    | none => some q
    | some p =>
      let p_size := bloc_get_size m p
      if p_size ≥ size ∧ size_sub p_size size < d then
        m_get_best_fit_loop m size fuel (size_sub p_size size) p (some p)
      else
        m_get_best_fit_loop m size fuel d p q

/-- The function `m_get_best_fit`. -/
def m_get_best_fit (fuel : Nat) (m : Mem) (size : Nat) : Option (Option Ptr) :=
  m_get_best_fit_loop m size fuel SIZE_MAX freeblocs none

/-- Call through the function pointer `get_offer`. -/
def call_get_offer (o : Offer) (fuel : Nat) (m : Mem) (size : Nat) : Option (Option Ptr) :=
  match o with
  | Offer.m_get_best_fit => m_get_best_fit fuel m size
  | Offer.m_get_first_fit => m_get_first_fit fuel m size

/-- The inner loop of `m_aggregate` (lines 255-258); returns the memory and `q`. -/
def m_aggregate_inner (M_SIZE : Nat) : Nat → Mem → Ptr → Ptr → Option (Mem × Ptr)
  | 0, _, _, _ => none
  | fuel + 1, m, p, q =>
    if q.off < M_SIZE ∧ bloc_is_available m q = true then
      let m := bloc_set_size m p (size_add (bloc_get_size m p) (bloc_get_size m q))
      m_aggregate_inner M_SIZE fuel m p (bloc_next_memory_bloc m q)
    else
      some (m, q)

/-- The outer loop of `m_aggregate` (lines 247-262). -/
def m_aggregate_outer (M_SIZE : Nat) : Nat → Mem → Ptr → Option Mem
  | 0, _, _ => none
  | fuel + 1, m, p =>
    if p.off < M_SIZE then
      if bloc_is_available m p = false then
        m_aggregate_outer M_SIZE fuel m (bloc_next_memory_bloc m p)
      else
        match m_aggregate_inner M_SIZE fuel m p (bloc_next_memory_bloc m p) with
        | none => none
        | some (m, q) => m_aggregate_outer M_SIZE fuel (bloc_insert_head m freeblocs p) q
    else
      some m

/-- The function `m_aggregate`. -/
def m_aggregate (M_SIZE fuel : Nat) (m : Mem) : Option Mem :=
  let m := bloc_set_next m freeblocs none
  m_aggregate_outer M_SIZE fuel m memory_reserve

/-- The function `m_reserve`.  The argument is `none` when `malloc(M_SIZE)`
fails and otherwise the indeterminate content of the fresh regions. -/
def m_reserve (M_SIZE : Nat) (fresh : Option Mem) : Nat × Option Heap :=
  match fresh with
  | none => (FUN_FAILURE, none)
  | some m =>
    let p := memory_reserve
    let m := m.write p { m p with size := M_SIZE % 2 ^ 64 }
    let m := m.write p { m p with available := true }
    let m := m.write p { m p with next := none }
    let (m, s) := bloc_empty m
    let m := bloc_set_next m s (some p)
    (FUN_SUCCESS, some { mem := m, get_offer := Offer.m_get_best_fit })

/-- The function `m_toggle_offer`. -/
def m_toggle_offer (h : Heap) : Heap :=
  if h.get_offer = Offer.m_get_best_fit then
    { h with get_offer := Offer.m_get_first_fit }
  else
    { h with get_offer := Offer.m_get_best_fit }

/-- Lines 326-331 of `m_alloc`: the size of the block to carve for a request `s`. -/
def m_alloc_size (s : Nat) : Nat :=
  let size := if s < BLOC_DATAS_SIZE_MIN then BLOC_DATAS_SIZE_MIN else s
  size_add size BLOC_INFOS_SIZE

/-- Lines 335-339 of `m_alloc`: the offer, asked a second time after
`m_aggregate` when the first answer is null.  Returns the memory and `p`. -/
def m_alloc_offer (M_SIZE fuel : Nat) (size : Nat) (h : Heap) : Option (Mem × Option Ptr) :=
  match call_get_offer h.get_offer fuel h.mem size with
  | none => none
  | some (some p) => some (h.mem, some p)
  | some none =>
    match m_aggregate M_SIZE fuel h.mem with
    | none => none
    | some m =>
      match call_get_offer h.get_offer fuel m size with
      | none => none
      | some p => some (m, p)

/-- Lines 343-357 of `m_alloc`: the block is carved out of the offer `p`.
Returns the memory and the address of the new block's data. -/
def m_alloc_carve (fuel : Nat) (size : Nat) (m : Mem) (p : Ptr) : Option (Mem × Ptr) :=
  let r : Option (Mem × Nat) :=
    if size_sub (bloc_get_size m p) size < sizeof_bloc then
      match bloc_remove_occ fuel m freeblocs p with
      | none => none
      | some m' => some (m', bloc_get_size m p)
    else
      some (m, size)
  match r with
  | none => none
  | some (m, size) =>
    let m := bloc_set_size m p (size_sub (bloc_get_size m p) size)
    let x := bloc_next_memory_bloc m p
    let m := bloc_set_size m x size
    let m := bloc_set_available m x false
    some (m, bloc_get_data_ptr x)

/-- The function `m_alloc`.  The outer `Option` is `none` when a loop runs out
of fuel; the returned pointer is `none` for `NULL`. -/
def m_alloc (M_SIZE fuel : Nat) (s : Nat) (h : Heap) : Option (Option Ptr × Heap) :=
  if s > SIZE_MAX - BLOC_INFOS_SIZE then some (none, h)
  else if s > size_sub M_SIZE BLOC_INFOS_SIZE then some (none, h)
  else
    let size := m_alloc_size s
    match m_alloc_offer M_SIZE fuel size h with
    | none => none
    | some (m, none) => some (none, { h with mem := m })
    | some (m, some p) =>
      match m_alloc_carve fuel size m p with
      | none => none
      | some (m, a) => some (some a, { h with mem := m })

/-- The function `m_free`. -/
def m_free (ptr : Option Ptr) (h : Heap) : Heap :=
  match ptr with
  | none => h
  | some ptr =>
    let p := bloc_from_data_ptr ptr
    let m := bloc_set_available h.mem p true
    { h with mem := bloc_insert_head m freeblocs p }

/-! ## Observations -/

/-- What `m_print_bloc` shows of a block, together with the block's offset. -/
structure Blk where
  off : Nat
  size : Nat
  avail : Bool
deriving DecidableEq, Repr

/-- The loop of `m_print` (lines 393-396): the blocks met when the reserve is
walked from `p` by successive sizes. -/
def m_print_loop (M_SIZE : Nat) (m : Mem) : Nat → Ptr → Option (List Blk)
  | 0, _ => none
  | fuel + 1, p =>
    if p.off < M_SIZE then
      match m_print_loop M_SIZE m fuel (bloc_next_memory_bloc m p) with
      | none => none
      | some l => some (⟨p.off, bloc_get_size m p, bloc_is_available m p⟩ :: l)
    else
      some []

/-- The function `m_print`, returning the blocks instead of printing them. -/
def m_print (M_SIZE fuel : Nat) (m : Mem) : Option (List Blk) :=
  m_print_loop M_SIZE m fuel memory_reserve

/-- The traversal `while ((p = bloc_get_next(p)) != NULL)` common to the
list functions: the pointers met after `p`. -/
def free_list_loop (m : Mem) : Nat → Ptr → Option (List Ptr)
  | 0, _ => none
  | fuel + 1, p =>
    match bloc_get_next m p with
    | none => some []
    | some p =>
      match free_list_loop m fuel p with
      | none => none
      | some l => some (p :: l)

/-- The elements of the list `freeblocs`, in list order. -/
def free_list (fuel : Nat) (m : Mem) : Option (List Ptr) :=
  free_list_loop m fuel freeblocs

/-! ## Specification predicates -/


/-- The fuelled computation `f` returns `v`: it does so with every amount of
fuel above some bound and runs out of fuel below it. -/
def Ret {α : Type} (f : Nat → Option α) (v : α) : Prop :=
  ∃ k, ∀ fuel, f fuel = if k ≤ fuel then some v else none

/-- The header stored at offset `o` of the reserve, as `m_print_bloc` shows it. -/
def hdr (m : Mem) (o : Nat) : Blk := ⟨o, (m (blk o)).size, (m (blk o)).available⟩

/-- The list `l` is exactly the sequence of blocks met when the reserve is
walked from offset `o` by successive sizes, every size is non-zero, and the
walk ends exactly at offset `e`. -/
def Walk (m : Mem) (e : Nat) : Nat → List Blk → Prop
  | o, [] => o = e
  | o, b :: l => b = hdr m o ∧ 0 < b.size ∧ Walk m e (o + b.size) l

instance (m : Mem) (e : Nat) : (o : Nat) → (l : List Blk) → Decidable (Walk m e o l)
  | o, [] => by unfold Walk; infer_instance
  | o, b :: l => by
    unfold Walk
    have := instDecidableWalk m e (o + b.size) l
    infer_instance

/-- The pointers of `l` are chained from `p` by `bloc_get_next` and the chain
ends with a null pointer. -/
def Chain (m : Mem) : Option Ptr → List Ptr → Prop
  | p, [] => p = none
  | p, x :: l => p = some x ∧ Chain m (bloc_get_next m x) l

/-- The scan of `m_get_best_fit` over the pointers `l` still to visit, from
the current values of `d` and `q`. -/
def best_fit_scan (m : Mem) (size : Nat) : List Ptr → Nat → Option Ptr → Option Ptr
  | [], _, q => q
  | p :: l, d, q =>
    if (m p).size ≥ size ∧ size_sub (m p).size size < d then
      best_fit_scan m size l (size_sub (m p).size size) (some p)
    else
      best_fit_scan m size l d q

/-- Specification of the coalescing pass on the sequence of blocks of the
reserve: every maximal run of adjacent available blocks becomes one available
block which starts where the run starts and whose size is the sum of the
sizes of the run; unavailable blocks are kept as they are. -/
def spec_coalesce : List Blk → List Blk
  | [] => []
  | b :: l =>
    match spec_coalesce l with
    | [] => [b]
    | c :: r =>
      if b.avail = true ∧ c.avail = true then ⟨b.off, b.size + c.size, true⟩ :: r
      else b :: c :: r

/-- Addresses of the available blocks of a sequence of blocks, in address order. -/
def avail_ptrs (l : List Blk) : List Ptr :=
  (l.filter (fun b => b.avail)).map (fun b => blk b.off)

/-- The state of the allocator is well formed: `bs` is the partition of the
reserve into blocks, `fl` is the list chained from the false head, it has no
repetition and its elements are exactly the available blocks of `bs`. -/
structure Good (M_SIZE : Nat) (m : Mem) (bs : List Blk) (fl : List Ptr) : Prop where
  walk : Walk m M_SIZE 0 bs
  head : (m freeblocs).available = true
  chain : Chain m (bloc_get_next m freeblocs) fl
  nodup : fl.Nodup
  mem_iff : ∀ p, p ∈ fl ↔ ∃ b ∈ bs, b.avail = true ∧ p = blk b.off

/-- The addresses in `live` are distinct and each is the data address of an
unavailable block of `bs`. -/
def LiveOK (bs : List Blk) (live : List Ptr) : Prop :=
  live.Nodup ∧ ∀ a ∈ live, ∃ b ∈ bs, b.avail = false ∧ a = bloc_get_data_ptr (blk b.off)

/-- The calls a client can make.  `aggregate` is the local function
`m_aggregate`, which `m_alloc` calls. -/
inductive Op where
  | alloc (fuel s : Nat)
  | free (ptr : Option Ptr)
  | toggle
  | aggregate (fuel : Nat)

/-- A configuration: the global state and the addresses which `m_alloc` has
returned and which have not been passed to `m_free` since. -/
abbrev Config := Heap × List Ptr

/-- One call.  The result is `none` when a loop runs out of fuel and when
`m_free` is given an address which is neither null nor live (the behaviour is
then undefined). -/
def exec (M_SIZE : Nat) : Op → Config → Option Config
  | Op.alloc fuel s, (h, live) =>
    match m_alloc M_SIZE fuel s h with
    | none => none
    | some (none, h') => some (h', live)
    | some (some a, h') => some (h', a :: live)
  | Op.free none, (h, live) => some (m_free none h, live)
  | Op.free (some a), (h, live) =>
    if a ∈ live then some (m_free (some a) h, live.erase a) else none
  | Op.toggle, (h, live) => some (m_toggle_offer h, live)
  | Op.aggregate fuel, (h, live) =>
    match m_aggregate M_SIZE fuel h.mem with
    | none => none
    | some m => some ({ h with mem := m }, live)

/-- The configurations reachable from a successful `m_reserve`. -/
inductive Reach (M_SIZE : Nat) : Config → Prop where
  | reserve (fresh : Mem) (h : Heap) :
      (m_reserve M_SIZE (some fresh)).2 = some h → Reach M_SIZE (h, [])
  | step (op : Op) (c c' : Config) :
      Reach M_SIZE c → exec M_SIZE op c = some c' → Reach M_SIZE c'

/-- The invariant of the reachable configurations. -/
def Inv (M_SIZE : Nat) (c : Config) : Prop :=
  ∃ bs fl, Good M_SIZE c.1.mem bs fl ∧ LiveOK bs c.2

/-- The invariant of the reachable configurations when `M_SIZE` is zero: no
address is live and the free list is empty or holds only the block written by
`m_reserve` at offset zero, whose size is zero. -/
def Inv0 (c : Config) : Prop :=
  c.2 = [] ∧ (c.1.mem freeblocs).available = true ∧ bloc_get_next c.1.mem (blk 0) = none ∧
    (c.1.mem (blk 0)).size = 0 ∧
    (bloc_get_next c.1.mem freeblocs = some (blk 0) ∨ bloc_get_next c.1.mem freeblocs = none)

/-- A content of fresh memory: every header reads as zero. -/
def fresh_zero : Mem := fun _ => ⟨0, false, none⟩

/-- The configuration after a successful `m_reserve` on `fresh_zero`. -/
def reserved (M_SIZE : Nat) : Config :=
  match (m_reserve M_SIZE (some fresh_zero)).2 with
  | some h => (h, [])
  | none => (⟨fresh_zero, Offer.m_get_best_fit⟩, [])

/-- A sequence of calls. -/
def run (M_SIZE : Nat) : List Op → Config → Option Config
  | [], c => some c
  | op :: ops, c =>
    match exec M_SIZE op c with
    | none => none
    | some c' => run M_SIZE ops c'

/-- The configuration after a sequence of calls which all return. -/
def after (M_SIZE : Nat) (ops : List Op) (c : Config) : Config :=
  match run M_SIZE ops c with
  | some c' => c'
  | none => c

/-- A memory whose reserve of size 72 holds three adjacent blocks of size
`sizeof(bloc) = 24`, the first two available and the third not; the free list
holds the second block only. -/
def three_blocks : Mem := fun p =>
  if p = blk 0 then ⟨24, true, some (blk 48)⟩
  else if p = blk 24 then ⟨24, true, none⟩
  else if p = blk 48 then ⟨24, false, none⟩
  else if p = freeblocs then ⟨0, true, some (blk 24)⟩
  else ⟨0, false, none⟩

/-- The partition of the reserve in the memory `three_blocks`. -/
def three_blocks_partition : List Blk :=
  [⟨0, 24, true⟩, ⟨24, 24, true⟩, ⟨48, 24, false⟩]

/-- Specification of a maximal run: `run` is a non-empty sequence of adjacent
available blocks of `bs` which is preceded by no available block and followed
by no available block. -/
def spec_maximal_run (bs run : List Blk) : Prop :=
  ∃ pre post, bs = pre ++ run ++ post ∧ run ≠ [] ∧ (∀ b ∈ run, b.avail = true) ∧
    (∀ u ∈ pre.getLast?, u.avail = false) ∧ (∀ u ∈ post.head?, u.avail = false)

/-- Specification of the block a run is merged into: an available block at
the start of the run whose size is the sum of the sizes of the run. -/
def spec_merged (run : List Blk) : Option Blk :=
  run.head?.map (fun r => ⟨r.off, (run.map Blk.size).sum, true⟩)

/-- The same call with another amount of fuel. -/
def Op.with_fuel : Op → Nat → Op
  | Op.alloc _ s, fuel => Op.alloc fuel s
  | Op.aggregate _, fuel => Op.aggregate fuel
  | Op.free ptr, _ => Op.free ptr
  | Op.toggle, _ => Op.toggle

/-- A memory whose free list holds, in list order, blocks of sizes 20, 50 and
12; their headers, at offsets 0, 32 and 64, do not overlap. -/
def fit_20_50_12 : Mem := fun p =>
  if p = freeblocs then ⟨0, true, some (blk 0)⟩
  else if p = blk 0 then ⟨20, true, some (blk 32)⟩
  else if p = blk 32 then ⟨50, true, some (blk 64)⟩
  else if p = blk 64 then ⟨12, true, none⟩
  else ⟨0, false, none⟩

/-- A memory whose free list holds, in list order, blocks of sizes 50, 12 and
20 (at offsets 0, 50 and 62 of a reserve of size 82). -/
def fit_50_12_20 : Mem := fun p =>
  if p = freeblocs then ⟨0, true, some (blk 0)⟩
  else if p = blk 0 then ⟨50, true, some (blk 50)⟩
  else if p = blk 50 then ⟨12, true, some (blk 62)⟩
  else if p = blk 62 then ⟨20, true, none⟩
  else ⟨0, false, none⟩

/-- Value of `sizeof(bloc *)`, the size of the member `u.next`. -/
def sizeof_bloc_ptr : Nat := 8

/-- The inner loop of `m_aggregate` (lines 255-258) together with its
accesses: returns the memory, `q` and the list, in order, of the values of `p`
and `q` through which a header is read or written. -/
def m_aggregate_inner_trace (M_SIZE : Nat) :
    Nat → Mem → Ptr → Ptr → Option (Mem × Ptr × List Ptr)
  | 0, _, _, _ => none
  | fuel + 1, m, p, q =>
    if q.off < M_SIZE then
      if bloc_is_available m q = true then
        let m := bloc_set_size m p (size_add (bloc_get_size m p) (bloc_get_size m q))
        match m_aggregate_inner_trace M_SIZE fuel m p (bloc_next_memory_bloc m q) with
        | none => none
        | some (m, q', t) => some (m, q', q :: p :: q :: p :: q :: t)
      else
        some (m, q, [q])
    else
      some (m, q, [])

/-- The outer loop of `m_aggregate` (lines 247-262) together with its
accesses: returns the memory, the final value of `p` and the list, in order,
of the values of `p` and `q` through which a header is read or written. -/
def m_aggregate_outer_trace (M_SIZE : Nat) : Nat → Mem → Ptr → Option (Mem × Ptr × List Ptr)
  | 0, _, _ => none
  | fuel + 1, m, p =>
    if p.off < M_SIZE then
      if bloc_is_available m p = false then
        match m_aggregate_outer_trace M_SIZE fuel m (bloc_next_memory_bloc m p) with
        | none => none
        | some (m, e, t) => some (m, e, p :: p :: t)
      else
        match m_aggregate_inner_trace M_SIZE fuel m p (bloc_next_memory_bloc m p) with
        | none => none
        | some (m, q, t₁) =>
          match m_aggregate_outer_trace M_SIZE fuel (bloc_insert_head m freeblocs p) q with
          | none => none
          | some (m, e, t₂) => some (m, e, p :: p :: t₁ ++ p :: t₂)
    else
      some (m, p, [])

/-- The function `m_aggregate` together with the accesses of its loops. -/
def m_aggregate_trace (M_SIZE fuel : Nat) (m : Mem) : Option (Mem × Ptr × List Ptr) :=
  let m := bloc_set_next m freeblocs none
  m_aggregate_outer_trace M_SIZE fuel m memory_reserve

/-- What the call through `get_offer` returns on a free list whose elements
are, in list order, `fl`. -/
def get_offer_scan (o : Offer) (m : Mem) (fl : List Ptr) (size : Nat) : Option Ptr :=
  match o with
  | Offer.m_get_best_fit => best_fit_scan m size fl SIZE_MAX none
  | Offer.m_get_first_fit => fl.find? (fun x => decide (size ≤ (m x).size))

/-! ## Basic lemmas -/

theorem Ret.unique {α : Type} {f : Nat → Option α} {v w : α} (h : Ret f v) {fuel : Nat}
    (hw : f fuel = some w) : w = v := by
  obtain ⟨k, hk⟩ := h
  rw [hk fuel] at hw
  split_ifs at hw
  exact (Option.some.inj hw).symm

theorem Ret.exists_fuel {α : Type} {f : Nat → Option α} {v : α} (h : Ret f v) :
    ∃ n, ∀ fuel, n ≤ fuel → f fuel = some v := by
  obtain ⟨k, hk⟩ := h
  exact ⟨k, fun fuel hf => by rw [hk fuel, if_pos hf]⟩

theorem Ret.pure {α : Type} (v : α) : Ret (fun _ => some v) v :=
  ⟨0, fun fuel => by simp⟩

/-! ## Memory stores -/

@[simp] theorem write_same (m : Mem) (p : Ptr) (b : bloc) : (m.write p b) p = b := by
  simp [Mem.write]

theorem write_other (m : Mem) {p q : Ptr} (b : bloc) (h : q ≠ p) : (m.write p b) q = m q := by
  simp [Mem.write, h]

theorem blk_ne_freeblocs (o : Nat) : blk o ≠ freeblocs := by
  simp [blk, freeblocs]

theorem blk_inj {a b : Nat} : blk a = blk b ↔ a = b := by
  simp [blk]

theorem Walk.le {m : Mem} {e : Nat} : ∀ {l : List Blk} {o : Nat}, Walk m e o l → o ≤ e
  | [], o, h => by simp [Walk] at h; omega
  | b :: l, o, h => by
    obtain ⟨_, _, h3⟩ := h
    have := Walk.le h3
    omega

theorem Walk.bounds {m : Mem} {e : Nat} : ∀ {l : List Blk} {o : Nat}, Walk m e o l →
    ∀ c ∈ l, o ≤ c.off ∧ c.off + c.size ≤ e ∧ 0 < c.size ∧ c = hdr m c.off
  | [], _, _, c, hc => by simp at hc
  | b :: l, o, h, c, hc => by
    obtain ⟨h1, h2, h3⟩ := h
    rcases List.mem_cons.1 hc with rfl | hc
    · have := Walk.le h3
      have ho : c.off = o := by rw [h1]; rfl
      refine ⟨by omega, by omega, h2, ?_⟩
      rw [ho]; exact h1
    · obtain ⟨q1, q2, q3, q4⟩ := Walk.bounds h3 c hc
      exact ⟨by omega, q2, q3, q4⟩

theorem Walk.frame {m m' : Mem} {e : Nat} : ∀ {l : List Blk} {o : Nat}, Walk m e o l →
    (∀ c ∈ l, hdr m' c.off = hdr m c.off) → Walk m' e o l
  | [], _, h, _ => h
  | b :: l, o, h, hf => by
    obtain ⟨h1, h2, h3⟩ := h
    have ho : b.off = o := by rw [h1]; rfl
    refine ⟨?_, h2, Walk.frame h3 (fun c hc => hf c (List.mem_cons_of_mem _ hc))⟩
    have := hf b (List.mem_cons_self _ _)
    rw [ho] at this
    rw [this]; exact h1

theorem Walk.append {m : Mem} {e : Nat} : ∀ {l₁ l₂ : List Blk} {o : Nat},
    Walk m e o (l₁ ++ l₂) ↔ ∃ mid, Walk m mid o l₁ ∧ Walk m e mid l₂
  | [], l₂, o => by simp [Walk]
  | b :: l₁, l₂, o => by
    constructor
    · rintro ⟨h1, h2, h3⟩
      obtain ⟨mid, h4, h5⟩ := Walk.append.1 h3
      exact ⟨mid, ⟨h1, h2, h4⟩, h5⟩
    · rintro ⟨mid, ⟨h1, h2, h3⟩, h4⟩
      exact ⟨h1, h2, Walk.append.2 ⟨mid, h3, h4⟩⟩

theorem Walk.sum {m : Mem} {e : Nat} : ∀ {l : List Blk} {o : Nat}, Walk m e o l →
    o + (l.map Blk.size).sum = e
  | [], _, h => by simpa [Walk] using h
  | b :: l, o, h => by
    obtain ⟨_, _, h3⟩ := h
    have := Walk.sum h3
    simp only [List.map_cons, List.sum_cons]
    omega

theorem Walk.print {m : Mem} {e : Nat} : ∀ {l : List Blk} {o : Nat}, Walk m e o l →
    ∀ fuel, m_print_loop e m fuel (blk o) = if l.length + 1 ≤ fuel then some l else none
  | [], o, h, fuel => by
    cases fuel with
    | zero => simp [MemoryHeap.m_print_loop]
    | succ n =>
      have : o = e := h
      simp [MemoryHeap.m_print_loop, blk, this]
  | b :: l, o, h, fuel => by
    cases fuel with
    | zero => simp [MemoryHeap.m_print_loop]
    | succ n =>
      obtain ⟨h1, h2, h3⟩ := h
      have hlt : o < e := by have := Walk.le h3; omega
      have hs : (m (blk o)).size = b.size := by rw [h1]; rfl
      have hnext : bloc_next_memory_bloc m (blk o) = blk (o + b.size) := by
        show Ptr.mk _ (o + (m (blk o)).size) = _
        rw [hs]; rfl
      have ih := Walk.print h3 n
      simp only [MemoryHeap.m_print_loop, blk] at ih ⊢
      simp only [hlt, if_true]
      rw [show bloc_next_memory_bloc m ⟨Region.reserve, o⟩ = ⟨Region.reserve, o + b.size⟩ from hnext, ih]
      by_cases hl : l.length + 1 ≤ n
      · simp [hl, h1, hdr, bloc_get_size, bloc_is_available, blk]
      · simp [hl]

theorem Walk.of_print {m : Mem} {e : Nat} : ∀ {fuel : Nat} {l : List Blk} {o : Nat},
    m_print_loop e m fuel (blk o) = some l → (∀ b ∈ l, b.size ≠ 0) →
    o + (l.map Blk.size).sum = e → Walk m e o l
  | 0, _, _, h, _, _ => by simp [MemoryHeap.m_print_loop] at h
  | fuel + 1, l, o, h, hz, hsum => by
    simp only [MemoryHeap.m_print_loop, blk] at h
    by_cases hlt : o < e
    · simp only [hlt, if_true] at h
      cases hrec : MemoryHeap.m_print_loop e m fuel (bloc_next_memory_bloc m ⟨Region.reserve, o⟩) with
      | none => simp [hrec] at h
      | some l' =>
        simp only [hrec, Option.some.injEq] at h
        subst h
        have hb : 0 < (m (blk o)).size := by
          have := hz _ (List.mem_cons_self _ _)
          simp only [bloc_get_size] at this
          exact Nat.pos_of_ne_zero this
        refine ⟨rfl, hb, ?_⟩
        apply @Walk.of_print m e fuel
        · exact hrec
        · exact fun b hb => hz b (List.mem_cons_of_mem _ hb)
        · simp only [List.map_cons, List.sum_cons, bloc_get_size] at hsum
          show o + (m ⟨Region.reserve, o⟩).size + _ = e
          omega
    · simp only [hlt, if_false, Option.some.injEq] at h
      subst h
      simp at hsum
      simp only [Walk]; omega

/-! ## The free list -/

theorem Chain.frame_chain {m m' : Mem} : ∀ {l : List Ptr} {p : Option Ptr}, Chain m p l →
    (∀ x ∈ l, bloc_get_next m' x = bloc_get_next m x) → Chain m' p l
  | [], _, h, _ => h
  | x :: l, _, h, hf => by
    obtain ⟨h1, h2⟩ := h
    refine ⟨h1, ?_⟩
    rw [hf x (List.mem_cons_self _ _)]
    exact Chain.frame_chain h2 (fun y hy => hf y (List.mem_cons_of_mem _ hy))

theorem Chain.unique_chain {m : Mem} : ∀ {l l' : List Ptr} {p : Option Ptr}, Chain m p l →
    Chain m p l' → l = l'
  | [], [], _, _, _ => rfl
  | [], _ :: _, _, h, h' => by
    have h1 : _ = none := h
    rw [h1] at h'
    exact absurd h'.1 (by simp)
  | _ :: _, [], _, h, h' => by
    have h1 : _ = none := h'
    rw [h1] at h
    exact absurd h.1 (by simp)
  | x :: l, y :: l', _, h, h' => by
    obtain ⟨h1, h2⟩ := h
    obtain ⟨h3, h4⟩ := h'
    rw [h1] at h3
    have hxy : x = y := Option.some.inj h3
    subst hxy
    rw [Chain.unique_chain h2 h4]

theorem Chain.traverse {m : Mem} : ∀ {l : List Ptr} {p : Ptr},
    Chain m (bloc_get_next m p) l →
    ∀ fuel, MemoryHeap.free_list_loop m fuel p = if l.length + 1 ≤ fuel then some l else none
  | [], p, h, fuel => by
    have h1 : bloc_get_next m p = none := h
    cases fuel with
    | zero => simp [MemoryHeap.free_list_loop]
    | succ n => simp [MemoryHeap.free_list_loop, h1]
  | x :: l, p, h, fuel => by
    obtain ⟨h1, h2⟩ := h
    cases fuel with
    | zero => simp [MemoryHeap.free_list_loop]
    | succ n =>
      simp only [MemoryHeap.free_list_loop, h1, Chain.traverse h2 n]
      by_cases hl : l.length + 1 ≤ n
      · simp [hl]
      · simp [hl]

theorem Chain.first_fit {m : Mem} (size : Nat) : ∀ {l : List Ptr} {p : Ptr},
    Chain m (bloc_get_next m p) l →
    Ret (fun fuel => m_get_first_fit_loop m size fuel p)
      (l.find? (fun x => decide (size ≤ (m x).size)))
  | [], p, h => by
    have h1 : bloc_get_next m p = none := h
    refine ⟨1, fun fuel => ?_⟩
    cases fuel with
    | zero => simp [m_get_first_fit_loop]
    | succ n => simp [m_get_first_fit_loop, h1]
  | x :: l, p, h => by
    obtain ⟨h1, h2⟩ := h
    by_cases hx : (m x).size < size
    · obtain ⟨k, hk⟩ := Chain.first_fit size h2
      refine ⟨k + 1, fun fuel => ?_⟩
      cases fuel with
      | zero => simp [m_get_first_fit_loop]
      | succ n =>
        have hk' := hk n
        simp only at hk'
        simp only [m_get_first_fit_loop, h1, bloc_get_size, hx, if_true, hk']
        have : ¬ size ≤ (m x).size := by omega
        simp [List.find?, this]
    · refine ⟨1, fun fuel => ?_⟩
      cases fuel with
      | zero => simp [m_get_first_fit_loop]
      | succ n =>
        have : size ≤ (m x).size := by omega
        simp [m_get_first_fit_loop, h1, bloc_get_size, hx, List.find?, this]

theorem Chain.best_fit {m : Mem} (size : Nat) : ∀ {l : List Ptr} {p : Ptr} (d : Nat)
    (q : Option Ptr), Chain m (bloc_get_next m p) l →
    Ret (fun fuel => m_get_best_fit_loop m size fuel d p q) (best_fit_scan m size l d q)
  | [], p, d, q, h => by
    have h1 : bloc_get_next m p = none := h
    refine ⟨1, fun fuel => ?_⟩
    cases fuel with
    | zero => simp [m_get_best_fit_loop]
    | succ n => simp [m_get_best_fit_loop, h1, best_fit_scan]
  | x :: l, p, d, q, h => by
    obtain ⟨h1, h2⟩ := h
    by_cases hx : (m x).size ≥ size ∧ size_sub (m x).size size < d
    · obtain ⟨k, hk⟩ := Chain.best_fit size (size_sub (m x).size size) (some x) h2
      refine ⟨k + 1, fun fuel => ?_⟩
      cases fuel with
      | zero => simp [m_get_best_fit_loop]
      | succ n =>
        have hk' := hk n
        simp only at hk'
        simp only [m_get_best_fit_loop, h1, bloc_get_size, hx, best_fit_scan]
        simp [hk']
    · obtain ⟨k, hk⟩ := Chain.best_fit size d q h2
      refine ⟨k + 1, fun fuel => ?_⟩
      cases fuel with
      | zero => simp [m_get_best_fit_loop]
      | succ n =>
        have hk' := hk n
        simp only at hk'
        simp only [m_get_best_fit_loop, h1, bloc_get_size, hx, best_fit_scan]
        simp [hk']

theorem best_fit_scan_some {m : Mem} {size : Nat} : ∀ (l : List Ptr) (d : Nat) (q : Ptr),
    ∃ x, best_fit_scan m size l d (some q) = some x
  | [], _, q => ⟨q, rfl⟩
  | p :: l, d, q => by
    unfold best_fit_scan
    split_ifs
    · exact best_fit_scan_some l _ p
    · exact best_fit_scan_some l d q

theorem best_fit_scan_none {m : Mem} {size : Nat} : ∀ (l : List Ptr) (d : Nat),
    best_fit_scan m size l d none = none ↔
      ∀ p ∈ l, ¬ ((m p).size ≥ size ∧ size_sub (m p).size size < d)
  | [], _ => by simp [best_fit_scan]
  | p :: l, d => by
    unfold best_fit_scan
    by_cases hp : (m p).size ≥ size ∧ size_sub (m p).size size < d
    · rw [if_pos hp]
      obtain ⟨x, hx⟩ := @best_fit_scan_some m size l (size_sub (m p).size size) p
      rw [hx]
      simp only [reduceCtorEq, false_iff]
      intro h
      exact h p (List.mem_cons_self _ _) hp
    · rw [if_neg hp, best_fit_scan_none l d]
      constructor
      · intro h x hx
        rcases List.mem_cons.1 hx with rfl | hx
        · exact hp
        · exact h x hx
      · intro h x hx
        exact h x (List.mem_cons_of_mem _ hx)

theorem best_fit_scan_mem {m : Mem} {size : Nat} : ∀ (l : List Ptr) (d : Nat) (q : Option Ptr)
    (x : Ptr), best_fit_scan m size l d q = some x →
    q = some x ∨ (x ∈ l ∧ size ≤ (m x).size)
  | [], _, q, x, h => Or.inl h
  | p :: l, d, q, x, h => by
    unfold best_fit_scan at h
    split_ifs at h with hp
    · rcases best_fit_scan_mem l _ _ x h with h1 | h1
      · have : p = x := Option.some.inj h1
        subst this
        exact Or.inr ⟨List.mem_cons_self _ _, hp.1⟩
      · exact Or.inr ⟨List.mem_cons_of_mem _ h1.1, h1.2⟩
    · rcases best_fit_scan_mem l _ _ x h with h1 | h1
      · exact Or.inl h1
      · exact Or.inr ⟨List.mem_cons_of_mem _ h1.1, h1.2⟩

theorem bloc_get_next_write_other (m : Mem) {p q : Ptr} (b : bloc) (h : q ≠ p) :
    bloc_get_next (m.write p b) q = bloc_get_next m q := by
  simp [bloc_get_next, write_other m b h]

theorem Chain.remove_occ {m : Mem} (x : Ptr) : ∀ {l : List Ptr} {s : Ptr},
    Chain m (bloc_get_next m s) l → x ∈ l → (s :: l).Nodup → (m s).available = true →
    (∀ y ∈ l, (m y).available = true) →
    ∃ m', Ret (fun fuel => bloc_remove_occ_loop x fuel m s s) m' ∧
      Chain m' (bloc_get_next m' s) (l.erase x) ∧
      (∀ q, q ∉ s :: l → m' q = m q) ∧
      (∀ q, (m' q).size = (m q).size ∧ (m' q).available = (m q).available)
  | [], _, _, hx, _, _, _ => by simp at hx
  | y :: l, s, h, hx, hnd, hs, hav => by
    obtain ⟨h1, h2⟩ := h
    have hys : y ≠ s := by
      intro e; subst e
      exact (List.nodup_cons.1 hnd).1 (List.mem_cons_self _ _)
    by_cases hyx : y = x
    · subst hyx
      refine ⟨m.write s { m s with next := (m y).next }, ⟨1, fun fuel => ?_⟩, ?_, ?_, ?_⟩
      · cases fuel with
        | zero => simp [bloc_remove_occ_loop]
        | succ n => simp [bloc_remove_occ_loop, h1]
      · simp only [List.erase_cons_head]
        have hy : (m y).available = true := hav y (List.mem_cons_self _ _)
        have e1 : bloc_get_next (m.write s { m s with next := (m y).next }) s
            = bloc_get_next m y := by
          simp [bloc_get_next, hs, hy]
        rw [e1]
        refine Chain.frame_chain h2 (fun z hz => bloc_get_next_write_other m _ ?_)
        intro e; subst e
        exact (List.nodup_cons.1 hnd).1 (List.mem_cons_of_mem _ hz)
      · intro q hq
        exact write_other m _ (fun e => hq (e ▸ List.mem_cons_self _ _))
      · intro q
        by_cases hq : q = s
        · subst hq; simp
        · simp [write_other m _ hq]
    · have hxl : x ∈ l := by
        rcases List.mem_cons.1 hx with e | e
        · exact absurd e.symm hyx
        · exact e
      have hnd' : (y :: l).Nodup := (List.nodup_cons.1 hnd).2
      obtain ⟨m', ⟨k, hk⟩, hc, hf1, hf2⟩ := Chain.remove_occ x h2 hxl hnd'
        (hav y (List.mem_cons_self _ _)) (fun z hz => hav z (List.mem_cons_of_mem _ hz))
      refine ⟨m', ⟨k + 1, fun fuel => ?_⟩, ?_, ?_, hf2⟩
      · cases fuel with
        | zero => simp [bloc_remove_occ_loop]
        | succ n =>
          have := hk n
          simp only at this
          simp [bloc_remove_occ_loop, h1, hyx, this]
      · rw [List.erase_cons_tail (by simpa using hyx)]
        have hsm : m' s = m s := hf1 s (fun hm => (List.nodup_cons.1 hnd).1 hm)
        have e1 : bloc_get_next m' s = some y := by
          rw [← h1]; simp [bloc_get_next, hsm]
        exact ⟨e1, hc⟩
      · intro q hq
        exact hf1 q (fun hm => hq (List.mem_cons_of_mem _ hm))

/-! ## The coalescing pass -/

theorem spec_coalesce_cons_unavail (b : Blk) (l : List Blk) (hb : b.avail = false) :
    spec_coalesce (b :: l) = b :: spec_coalesce l := by
  rw [spec_coalesce]
  cases spec_coalesce l with
  | nil => rfl
  | cons c r => simp [hb]

theorem spec_coalesce_cons_avail : ∀ (l : List Blk) (b : Blk), b.avail = true →
    spec_coalesce (b :: l) =
      ⟨b.off, b.size + ((l.takeWhile (fun c => c.avail)).map Blk.size).sum, true⟩ ::
        spec_coalesce (l.dropWhile (fun c => c.avail))
  | [], b, hb => by
    cases b
    simp only at hb
    simp [spec_coalesce, hb]
  | c :: l, b, hb => by
    rw [spec_coalesce]
    by_cases hc : c.avail = true
    · rw [spec_coalesce_cons_avail l c hc]
      simp [hb, hc, List.takeWhile, List.dropWhile, Nat.add_assoc]
    · have hc' : c.avail = false := by simpa using hc
      rw [spec_coalesce_cons_unavail c l hc']
      cases b
      simp only at hb
      simp [hb, hc', List.takeWhile, List.dropWhile, spec_coalesce_cons_unavail c l hc']

theorem avail_ptrs_cons (b : Blk) (l : List Blk) :
    avail_ptrs (b :: l) = if b.avail then blk b.off :: avail_ptrs l else avail_ptrs l := by
  unfold avail_ptrs
  by_cases hb : b.avail = true <;> simp [List.filter, hb]

theorem size_add_eq {a b : Nat} (h : a + b ≤ SIZE_MAX) : size_add a b = a + b := by
  unfold size_add
  apply Nat.mod_eq_of_lt
  unfold SIZE_MAX at h
  omega

theorem size_sub_eq {a b : Nat} (h : b ≤ a) (ha : a ≤ SIZE_MAX) : size_sub a b = a - b := by
  unfold size_sub
  unfold SIZE_MAX at ha
  have hb : b % 2 ^ 64 = b := Nat.mod_eq_of_lt (by omega)
  rw [hb]
  have : a + (2 ^ 64 - b) = (a - b) + 2 ^ 64 := by omega
  rw [this, Nat.add_mod_right]
  exact Nat.mod_eq_of_lt (by omega)

theorem hdr_write_other (m : Mem) (p : Ptr) (b : bloc) {o : Nat} (h : blk o ≠ p) :
    hdr (m.write p b) o = hdr m o := by
  simp [hdr, write_other m b h]

theorem aggregate_inner_spec {e : Nat} (po : Nat) : ∀ (l : List Blk) (m : Mem) (q : Nat),
    Walk m e q l → po < q → (m (blk po)).size + e ≤ SIZE_MAX + q →
    ∃ m', Ret (fun fuel => m_aggregate_inner e fuel m (blk po) (blk q))
        (m', blk (q + ((l.takeWhile (fun c => c.avail)).map Blk.size).sum)) ∧
      Walk m' e (q + ((l.takeWhile (fun c => c.avail)).map Blk.size).sum)
        (l.dropWhile (fun c => c.avail)) ∧
      m' (blk po) = { m (blk po) with
        size := (m (blk po)).size + ((l.takeWhile (fun c => c.avail)).map Blk.size).sum } ∧
      ∀ x, x ≠ blk po → m' x = m x
  | [], m, q, hw, _, _ => by
    have hq : q = e := hw
    refine ⟨m, ⟨1, fun fuel => ?_⟩, by simpa using hw, by simp, fun _ _ => rfl⟩
    cases fuel with
    | zero => simp [m_aggregate_inner, blk, hq]
    | succ n => simp [m_aggregate_inner, blk, hq]
  | b :: l, m, q, hw, hpq, hsz => by
    obtain ⟨h1, h2, h3⟩ := hw
    have hqe : q + b.size ≤ e := Walk.le h3
    have hbs : (m (blk q)).size = b.size := by rw [h1]; rfl
    have hba : (m (blk q)).available = b.avail := by rw [h1]; rfl
    by_cases hb : b.avail = true
    · let m1 := bloc_set_size m (blk po)
        (size_add (bloc_get_size m (blk po)) (bloc_get_size m (blk q)))
      have hne : blk q ≠ blk po := by
        intro e; have := blk_inj.1 e; omega
      have hm1 : ∀ x, x ≠ blk po → m1 x = m x := fun x hx => write_other m _ hx
      have hadd : size_add (bloc_get_size m (blk po)) (bloc_get_size m (blk q))
          = (m (blk po)).size + b.size := by
        simp only [bloc_get_size, hbs]
        exact size_add_eq (by omega)
      have hm1p : m1 (blk po) = { m (blk po) with size := (m (blk po)).size + b.size } := by
        show (m.write _ _) _ = _
        rw [write_same, hadd]
      have hw1 : Walk m1 e (q + b.size) l := by
        refine Walk.frame h3 (fun c hc => hdr_write_other m _ _ ?_)
        intro e'
        have := (Walk.bounds h3 c hc).1
        have := blk_inj.1 e'
        omega
      obtain ⟨m', ⟨k, hk⟩, hw', hp', hf'⟩ := aggregate_inner_spec po l m1 (q + b.size) hw1
        (by omega) (by rw [hm1p]; simp only; omega)
      have htw : ((b :: l).takeWhile (fun c => c.avail)) = b :: l.takeWhile (fun c => c.avail) := by
        simp [List.takeWhile, hb]
      have hdw : ((b :: l).dropWhile (fun c => c.avail)) = l.dropWhile (fun c => c.avail) := by
        simp [List.dropWhile, hb]
      rw [htw, hdw]
      simp only [List.map_cons, List.sum_cons, ← Nat.add_assoc]
      refine ⟨m', ⟨k + 1, fun fuel => ?_⟩, hw', ?_, ?_⟩
      · cases fuel with
        | zero => simp [m_aggregate_inner]
        | succ n =>
          have hnext : bloc_next_memory_bloc m1 (blk q) = blk (q + b.size) := by
            show Ptr.mk _ (q + (m1 (blk q)).size) = _
            rw [hm1 _ hne, hbs]; rfl
          have hlt : q < e := by omega
          have := hk n
          simp only at this
          simp only [m_aggregate_inner, bloc_is_available, hba, hb]
          simp only [show (blk q).off = q from rfl, hlt, true_and, if_true]
          rw [show bloc_set_size m (blk po)
            (size_add (bloc_get_size m (blk po)) (bloc_get_size m (blk q))) = m1 from rfl,
            hnext, this]
          simp
      · rw [hp', hm1p]
      · intro x hx
        rw [hf' x hx, hm1 x hx]
    · have htw : ((b :: l).takeWhile (fun c => c.avail)) = [] := by
        simp [List.takeWhile, hb]
      have hdw : ((b :: l).dropWhile (fun c => c.avail)) = b :: l := by
        simp [List.dropWhile, hb]
      rw [htw, hdw]
      refine ⟨m, ⟨1, fun fuel => ?_⟩, by simpa using ⟨h1, h2, h3⟩, by simp, fun _ _ => rfl⟩
      cases fuel with
      | zero => simp [m_aggregate_inner, bloc_is_available, hba, hb]
      | succ n => simp [m_aggregate_inner, bloc_is_available, hba, hb]

theorem bloc_get_next_insert_head_other (m : Mem) {s p x : Ptr} (hs : x ≠ s) (hp : x ≠ p) :
    bloc_get_next (bloc_insert_head m s p) x = bloc_get_next m x := by
  unfold bloc_insert_head
  simp only
  rw [bloc_get_next_write_other _ _ hs, bloc_get_next_write_other _ _ hp]

theorem Chain.insert_head {m : Mem} {s p : Ptr} {l : List Ptr} (hsp : p ≠ s)
    (hs : (m s).available = true) (hp : (m p).available = true)
    (hc : Chain m (bloc_get_next m s) l) (hsl : s ∉ l) (hpl : p ∉ l) :
    Chain (bloc_insert_head m s p) (bloc_get_next (bloc_insert_head m s p) s) (p :: l) := by
  have e1 : bloc_get_next (bloc_insert_head m s p) s = some p := by
    simp [bloc_insert_head, bloc_get_next, write_other _ _ (Ne.symm hsp), hs]
  have e2 : bloc_get_next (bloc_insert_head m s p) p = bloc_get_next m s := by
    simp [bloc_insert_head, bloc_get_next, write_other _ _ hsp, hs, hp]
  refine ⟨e1, ?_⟩
  rw [e2]
  refine Chain.frame_chain hc (fun x hx => bloc_get_next_insert_head_other m ?_ ?_)
  · intro e; subst e; exact hsl hx
  · intro e; subst e; exact hpl hx

theorem insert_head_other (m : Mem) {s p x : Ptr} (hs : x ≠ s) (hp : x ≠ p) :
    bloc_insert_head m s p x = m x := by
  unfold bloc_insert_head
  simp only
  rw [write_other _ _ hs, write_other _ _ hp]

theorem insert_head_size_avail (m : Mem) (s p x : Ptr) :
    (bloc_insert_head m s p x).size = (m x).size ∧
      (bloc_insert_head m s p x).available = (m x).available := by
  unfold bloc_insert_head
  simp only
  by_cases hs : x = s
  · subst hs
    by_cases hp : x = p
    · subst hp; simp
    · simp [write_other _ _ hp]
  · rw [write_other _ _ hs]
    by_cases hp : x = p
    · subst hp; simp
    · simp [write_other _ _ hp]

theorem aggregate_outer_spec {e : Nat} (he : e ≤ SIZE_MAX) : ∀ (n : Nat) (l : List Blk)
    (m : Mem) (p : Nat) (acc : List Ptr), l.length ≤ n → Walk m e p l →
    (m freeblocs).available = true → Chain m (bloc_get_next m freeblocs) acc →
    (∀ x ∈ acc, ∃ o, o < p ∧ x = blk o) →
    ∃ m', Ret (fun fuel => m_aggregate_outer e fuel m (blk p)) m' ∧
      Walk m' e p (spec_coalesce l) ∧ (m' freeblocs).available = true ∧
      Chain m' (bloc_get_next m' freeblocs) ((avail_ptrs (spec_coalesce l)).reverse ++ acc) ∧
      ∀ o, o < p → m' (blk o) = m (blk o)
  | n, [], m, p, acc, _, hw, hs, hc, _ => by
    have hp : p = e := hw
    refine ⟨m, ⟨1, fun fuel => ?_⟩, hw, hs, by simpa [avail_ptrs, spec_coalesce] using hc,
      fun _ _ => rfl⟩
    cases fuel with
    | zero => simp [m_aggregate_outer]
    | succ k => simp [m_aggregate_outer, blk, hp]
  | 0, b :: l, _, _, _, hn, _, _, _, _ => by simp at hn
  | n + 1, b :: l, m, p, acc, hn, hw, hs, hc, hacc => by
    obtain ⟨h1, h2, h3⟩ := hw
    have hqe : p + b.size ≤ e := Walk.le h3
    have hlt : p < e := by omega
    have hbs : (m (blk p)).size = b.size := by rw [h1]; rfl
    have hba : (m (blk p)).available = b.avail := by rw [h1]; rfl
    have hbo : b.off = p := by rw [h1]; rfl
    have hnext : bloc_next_memory_bloc m (blk p) = blk (p + b.size) := by
      show Ptr.mk _ (p + (m (blk p)).size) = _
      rw [hbs]; rfl
    have hln : l.length ≤ n := by simpa using hn
    by_cases hb : b.avail = true
    · -- an available block: the run which starts here is merged
      obtain ⟨m1, ⟨k1, hk1⟩, hw1, hp1, hf1⟩ := aggregate_inner_spec (e := e) p l m (p + b.size)
        h3 (by omega) (by rw [hbs]; omega)
      let S := ((l.takeWhile (fun c => c.avail)).map Blk.size).sum
      have hp1' : m1 (blk p) = { m (blk p) with size := b.size + S } := by
        rw [hp1, hbs]
      let m2 := bloc_insert_head m1 freeblocs (blk p)
      have hs1 : (m1 freeblocs).available = true := by
        rw [hf1 _ (Ne.symm (blk_ne_freeblocs p))]; exact hs
      have hc1 : Chain m1 (bloc_get_next m1 freeblocs) acc := by
        have e0 : bloc_get_next m1 freeblocs = bloc_get_next m freeblocs := by
          simp [bloc_get_next, hf1 _ (Ne.symm (blk_ne_freeblocs p))]
        rw [e0]
        refine Chain.frame_chain hc (fun x hx => ?_)
        obtain ⟨o, ho, rfl⟩ := hacc x hx
        have : blk o ≠ blk p := fun e' => by have := blk_inj.1 e'; omega
        simp [bloc_get_next, hf1 _ this]
      have hc2 : Chain m2 (bloc_get_next m2 freeblocs) (blk p :: acc) := by
        refine Chain.insert_head (blk_ne_freeblocs p) hs1 ?_ hc1 ?_ ?_
        · rw [hp1']; exact hba.trans hb
        · intro hm
          obtain ⟨o, _, ho⟩ := hacc _ hm
          exact blk_ne_freeblocs o ho.symm
        · intro hm
          obtain ⟨o, ho, ho'⟩ := hacc _ hm
          have := blk_inj.1 ho'; omega
      have hm2p : (m2 (blk p)).size = b.size + S ∧ (m2 (blk p)).available = true := by
        have := insert_head_size_avail m1 freeblocs (blk p) (blk p)
        rw [hp1'] at this
        exact ⟨this.1, this.2.trans (hba.trans hb)⟩
      have hw2 : Walk m2 e (p + b.size + S) (l.dropWhile (fun c => c.avail)) := by
        refine Walk.frame hw1 (fun c hc' => ?_)
        have hb' := (Walk.bounds hw1 c hc').1
        have hne : blk c.off ≠ blk p := fun e' => by have := blk_inj.1 e'; omega
        simp only [hdr]
        rw [show m2 (blk c.off) = m1 (blk c.off) from
          insert_head_other m1 (blk_ne_freeblocs _) hne]
      have hlen : (l.dropWhile (fun c => c.avail)).length ≤ n :=
        le_trans (List.dropWhile_sublist _).length_le hln
      obtain ⟨m', ⟨k2, hk2⟩, hw', hs', hc', hf'⟩ := aggregate_outer_spec he n _ m2
        (p + b.size + S) (blk p :: acc) hlen hw2
        ((insert_head_size_avail m1 freeblocs (blk p) freeblocs).2.trans hs1) hc2
        (by
          intro x hx
          rcases List.mem_cons.1 hx with rfl | hx
          · exact ⟨p, by omega, rfl⟩
          · obtain ⟨o, ho, ho'⟩ := hacc x hx
            exact ⟨o, by omega, ho'⟩)
      rw [spec_coalesce_cons_avail l b hb]
      refine ⟨m', ⟨max k1 k2 + 1, fun fuel => ?_⟩, ?_, hs', ?_, ?_⟩
      · cases fuel with
        | zero => simp [m_aggregate_outer]
        | succ k =>
          have q1 := hk1 k
          have q2 := hk2 k
          simp only at q1 q2
          simp only [m_aggregate_outer, show (blk p).off = p from rfl, hlt, if_true,
            bloc_is_available, hba, hb, hnext, q1]
          by_cases c1 : k1 ≤ k
          · by_cases c2 : k2 ≤ k
            · simp [c1, c2, q2, m2, S]
            · simp [c1, c2, q2, m2, S]
          · simp [c1]
      · refine ⟨?_, ?_, ?_⟩
        · simp only [hdr, hbo]
          rw [hf' p (by omega), hm2p.1, hm2p.2]
        · show 0 < b.size + _
          omega
        · show Walk m' e (p + (b.size + S)) _
          rw [← Nat.add_assoc]; exact hw'
      · rw [avail_ptrs_cons]
        simp only [if_true, List.reverse_cons, List.append_assoc, List.singleton_append, hbo]
        exact hc'
      · intro o ho
        rw [hf' o (by omega)]
        have hne : blk o ≠ blk p := fun e' => by have := blk_inj.1 e'; omega
        rw [show m2 (blk o) = m1 (blk o) from insert_head_other m1 (blk_ne_freeblocs _) hne,
          hf1 _ hne]
    · -- an unavailable block is skipped
      have hb' : b.avail = false := by simpa using hb
      obtain ⟨m', ⟨k, hk⟩, hw', hs', hc', hf'⟩ := aggregate_outer_spec he n l m (p + b.size) acc
        hln h3 hs hc (fun x hx => by
          obtain ⟨o, ho, ho'⟩ := hacc x hx
          exact ⟨o, by omega, ho'⟩)
      rw [spec_coalesce_cons_unavail b l hb']
      refine ⟨m', ⟨k + 1, fun fuel => ?_⟩, ?_, hs', ?_, ?_⟩
      · cases fuel with
        | zero => simp [m_aggregate_outer]
        | succ j =>
          have := hk j
          simp only at this
          simp [m_aggregate_outer, show (blk p).off = p from rfl, hlt, bloc_is_available,
            hba, hb', hnext, this]
      · refine ⟨?_, h2, hw'⟩
        simp only [hdr]
        rw [hf' p (by omega)]
        exact h1
      · rw [avail_ptrs_cons]
        simp only [hb', Bool.false_eq_true, if_false]
        exact hc'
      · intro o ho
        exact hf' o (by omega)

theorem Walk.pairwise {m : Mem} {e : Nat} : ∀ {l : List Blk} {o : Nat}, Walk m e o l →
    l.Pairwise (fun a b => a.off + a.size ≤ b.off)
  | [], _, _ => List.Pairwise.nil
  | b :: l, o, h => by
    obtain ⟨h1, _, h3⟩ := h
    have hbo : b.off = o := by rw [h1]; rfl
    refine List.Pairwise.cons (fun c hc => ?_) (Walk.pairwise h3)
    have := (Walk.bounds h3 c hc).1
    omega

theorem Walk.eq_of_off {m : Mem} {e o : Nat} {l : List Blk} (h : Walk m e o l) {a b : Blk}
    (ha : a ∈ l) (hb : b ∈ l) (hab : a.off = b.off) : a = b := by
  rw [(Walk.bounds h a ha).2.2.2, (Walk.bounds h b hb).2.2.2, hab]

theorem Walk.avail_ptrs_nodup {m : Mem} {e o : Nat} {l : List Blk} (h : Walk m e o l) :
    (avail_ptrs l).Nodup := by
  unfold avail_ptrs
  have hp : l.Pairwise (fun a b => blk a.off ≠ blk b.off) := by
    refine (List.Pairwise.and_mem.1 (Walk.pairwise h)).imp ?_
    rintro a b ⟨ha, _, hab⟩ e'
    have := blk_inj.1 e'
    have := (Walk.bounds h a ha).2.2.1
    omega
  exact (List.pairwise_map.2 (hp.filter _))

theorem mem_avail_ptrs {l : List Blk} {p : Ptr} :
    p ∈ avail_ptrs l ↔ ∃ b ∈ l, b.avail = true ∧ p = blk b.off := by
  unfold avail_ptrs
  simp only [List.mem_map, List.mem_filter]
  constructor
  · rintro ⟨b, ⟨hb, ha⟩, rfl⟩
    exact ⟨b, hb, ha, rfl⟩
  · rintro ⟨b, hb, ha, rfl⟩
    exact ⟨b, ⟨hb, ha⟩, rfl⟩

theorem aggregate_spec {e : Nat} (he : e ≤ SIZE_MAX) {m : Mem} {l : List Blk}
    (hw : Walk m e 0 l) (hs : (m freeblocs).available = true) :
    ∃ m', Ret (fun fuel => m_aggregate e fuel m) m' ∧
      Good e m' (spec_coalesce l) (avail_ptrs (spec_coalesce l)).reverse := by
  let m0 := bloc_set_next m freeblocs none
  have hm0 : m0 = m.write freeblocs { m freeblocs with next := none } := by
    simp [m0, bloc_set_next, hs]
  have hw0 : Walk m0 e 0 l := by
    refine Walk.frame hw (fun c _ => ?_)
    rw [hm0]
    exact hdr_write_other m _ _ (blk_ne_freeblocs _)
  have hs0 : (m0 freeblocs).available = true := by rw [hm0]; simpa using hs
  have hc0 : Chain m0 (bloc_get_next m0 freeblocs) [] := by
    show _ = none
    rw [hm0]; simp [bloc_get_next]
  obtain ⟨m', ⟨k, hk⟩, hw', hs', hc', _⟩ := aggregate_outer_spec he l.length l m0 0 []
    (le_refl _) hw0 hs0 hc0 (by simp)
  refine ⟨m', ⟨k, fun fuel => ?_⟩, hw', hs', by simpa using hc', ?_, ?_⟩
  · have := hk fuel
    simpa [m_aggregate, memory_reserve, blk] using this
  · exact List.nodup_reverse.2 (Walk.avail_ptrs_nodup hw')
  · intro p
    rw [List.mem_reverse, mem_avail_ptrs]

theorem Good.mem_fl {M : Nat} {m : Mem} {bs : List Blk} {fl : List Ptr} (g : Good M m bs fl)
    {p : Ptr} (hp : p ∈ fl) :
    ∃ b ∈ bs, b.avail = true ∧ p = blk b.off ∧ (m p).size = b.size ∧
      (m p).available = true := by
  obtain ⟨b, hb, ha, rfl⟩ := (g.mem_iff p).1 hp
  have h := (Walk.bounds g.walk b hb).2.2.2
  refine ⟨b, hb, ha, rfl, ?_, ?_⟩
  · conv_rhs => rw [h]
    rfl
  · rw [← ha]; conv_rhs => rw [h]
    rfl

theorem Good.offer_effect {M : Nat} {m : Mem} {bs : List Blk} {fl : List Ptr}
    (g : Good M m bs fl) (hM : M ≤ SIZE_MAX) (o : Offer) {size : Nat} (hsize : 0 < size) :
    ∃ r, Ret (fun fuel => call_get_offer o fuel m size) r ∧
      (r = none ↔ ∀ b ∈ bs, b.avail = true → b.size < size) ∧
      (∀ p, r = some p → p ∈ fl ∧ size ≤ (m p).size) := by
  have key : ∀ p ∈ fl, ((m p).size ≥ size ∧ size_sub (m p).size size < SIZE_MAX) ↔
      size ≤ (m p).size := by
    intro p hp
    obtain ⟨b, hb, _, rfl, hs, _⟩ := g.mem_fl hp
    have hle : b.off + b.size ≤ M := (Walk.bounds g.walk b hb).2.1
    constructor
    · exact fun h => h.1
    · intro h
      refine ⟨h, ?_⟩
      rw [size_sub_eq h (by omega)]
      omega
  have none_iff : (∀ p ∈ fl, (m p).size < size) ↔ ∀ b ∈ bs, b.avail = true → b.size < size := by
    constructor
    · intro h b hb ha
      have hp : blk b.off ∈ fl := (g.mem_iff _).2 ⟨b, hb, ha, rfl⟩
      obtain ⟨b', hb', _, hoff, hs, _⟩ := g.mem_fl hp
      have : b = b' := Walk.eq_of_off g.walk hb hb' (blk_inj.1 hoff)
      subst this
      rw [← hs]; exact h _ hp
    · intro h p hp
      obtain ⟨b, hb, ha, _, hs, _⟩ := g.mem_fl hp
      rw [hs]; exact h b hb ha
  cases o with
  | m_get_best_fit =>
    refine ⟨best_fit_scan m size fl SIZE_MAX none, Chain.best_fit size SIZE_MAX none g.chain,
      ?_, ?_⟩
    · rw [best_fit_scan_none, ← none_iff]
      constructor
      · intro h p hp
        have := h p hp
        rw [key p hp] at this
        omega
      · intro h p hp
        rw [key p hp]
        have := h p hp
        omega
    · intro p hp
      rcases best_fit_scan_mem _ _ _ _ hp with h | h
      · exact absurd h (by simp)
      · exact h
  | m_get_first_fit =>
    refine ⟨_, Chain.first_fit size g.chain, ?_, ?_⟩
    · rw [List.find?_eq_none, ← none_iff]
      simp
    · intro p hp
      have h1 := List.find?_some hp
      have h2 := List.mem_of_find?_eq_some hp
      exact ⟨h2, by simpa using h1⟩

/-! ## Effect of the operations on a well-formed state -/

theorem Walk.split_at {m : Mem} {e o : Nat} {bs : List Blk} (h : Walk m e o bs) {b : Blk}
    (hb : b ∈ bs) : ∃ pre post, bs = pre ++ b :: post ∧ Walk m b.off o pre ∧
      Walk m e (b.off + b.size) post ∧ b = hdr m b.off ∧ 0 < b.size := by
  obtain ⟨pre, post, rfl⟩ := List.append_of_mem hb
  obtain ⟨mid, h1, h2, h3, h4⟩ := Walk.append.1 h
  have hbo : b.off = mid := by rw [h2]; rfl
  refine ⟨pre, post, rfl, ?_, ?_, ?_, h3⟩
  · rw [hbo]; exact h1
  · rw [hbo]; exact h4
  · rw [hbo]; exact h2

theorem Walk.rebuild {m m' : Mem} {e o mid q : Nat} {pre new post : List Blk}
    (hpre : Walk m mid o pre) (hpost : Walk m e q post) (hnew : Walk m' q mid new)
    (hf : ∀ x, x < mid ∨ q ≤ x → hdr m' x = hdr m x) : Walk m' e o (pre ++ new ++ post) := by
  rw [List.append_assoc]
  refine Walk.append.2 ⟨mid, ?_, Walk.append.2 ⟨q, hnew, ?_⟩⟩
  · refine Walk.frame hpre (fun c hc => hf _ (Or.inl ?_))
    have := Walk.bounds hpre c hc
    omega
  · refine Walk.frame hpost (fun c hc => hf _ (Or.inr ?_))
    exact (Walk.bounds hpost c hc).1

theorem Walk.mem_parts {m : Mem} {e o : Nat} {pre post : List Blk} {b : Blk}
    (h : Walk m e o (pre ++ b :: post)) :
    (∀ c ∈ pre, c.off + c.size ≤ b.off ∧ 0 < c.size) ∧ (∀ c ∈ post, b.off + b.size ≤ c.off) := by
  obtain ⟨mid, h1, h2, h3, h4⟩ := Walk.append.1 h
  have hbo : b.off = mid := by rw [h2]; rfl
  constructor
  · intro c hc
    have := Walk.bounds h1 c hc
    omega
  · intro c hc
    have := (Walk.bounds h4 c hc).1
    omega

theorem spec_coalesce_unavail_mem : ∀ (l : List Blk) (b : Blk), b ∈ l → b.avail = false →
    b ∈ spec_coalesce l
  | [], _, hb, _ => by simp at hb
  | a :: l, b, hb, hba => by
    have ih := spec_coalesce_unavail_mem l b
    rw [spec_coalesce]
    cases hr : spec_coalesce l with
    | nil =>
      rw [hr] at ih
      rcases List.mem_cons.1 hb with rfl | hb
      · simp
      · exact absurd (ih hb hba) (by simp)
    | cons c r =>
      rw [hr] at ih
      simp only
      split_ifs with hc
      · rcases List.mem_cons.1 hb with rfl | hb
        · rw [hc.1] at hba; simp at hba
        · rcases List.mem_cons.1 (ih hb hba) with rfl | h'
          · rw [hc.2] at hba; simp at hba
          · exact List.mem_cons_of_mem _ h'
      · rcases List.mem_cons.1 hb with rfl | hb
        · simp
        · exact List.mem_cons_of_mem _ (ih hb hba)

theorem spec_coalesce_avail_le : ∀ (l : List Blk) (b : Blk), b ∈ l → b.avail = true →
    ∃ c ∈ spec_coalesce l, c.avail = true ∧ b.size ≤ c.size
  | [], _, hb, _ => by simp at hb
  | a :: l, b, hb, hba => by
    have ih := spec_coalesce_avail_le l b
    rw [spec_coalesce]
    cases hr : spec_coalesce l with
    | nil =>
      rw [hr] at ih
      rcases List.mem_cons.1 hb with rfl | hb
      · exact ⟨b, by simp, hba, le_refl _⟩
      · obtain ⟨c, hc, _⟩ := ih hb hba
        simp at hc
    | cons c r =>
      rw [hr] at ih
      simp only
      split_ifs with hc
      · rcases List.mem_cons.1 hb with rfl | hb
        · exact ⟨_, List.mem_cons_self _ _, rfl, by simp⟩
        · obtain ⟨c', hc', ha', hle⟩ := ih hb hba
          rcases List.mem_cons.1 hc' with rfl | h'
          · exact ⟨_, List.mem_cons_self _ _, rfl, by simp; omega⟩
          · exact ⟨c', List.mem_cons_of_mem _ h', ha', hle⟩
      · rcases List.mem_cons.1 hb with rfl | hb
        · exact ⟨b, by simp, hba, le_refl _⟩
        · obtain ⟨c', hc', ha', hle⟩ := ih hb hba
          exact ⟨c', List.mem_cons_of_mem _ hc', ha', hle⟩

theorem Good.alloc_offer {M : Nat} {h : Heap} {bs : List Blk} {fl : List Ptr}
    (g : Good M h.mem bs fl) (hM : M ≤ SIZE_MAX) {size : Nat} (hsize : 0 < size) :
    ∃ m1 r bs1 fl1, Ret (fun fuel => m_alloc_offer M fuel size h) (m1, r) ∧
      Good M m1 bs1 fl1 ∧
      ((m1 = h.mem ∧ bs1 = bs ∧ fl1 = fl ∧ r ≠ none) ∨
        ((∀ b ∈ bs, b.avail = true → b.size < size) ∧ bs1 = spec_coalesce bs ∧
          fl1 = (avail_ptrs (spec_coalesce bs)).reverse ∧
          Ret (fun fuel => m_aggregate M fuel h.mem) m1)) ∧
      (r = none ↔ ∀ b ∈ bs1, b.avail = true → b.size < size) ∧
      (∀ p, r = some p → p ∈ fl1 ∧ size ≤ (m1 p).size) := by
  obtain ⟨r0, ⟨k0, hk0⟩, hn0, hs0⟩ := g.offer_effect hM h.get_offer hsize
  cases r0 with
  | some p =>
    refine ⟨h.mem, some p, bs, fl, ⟨k0, fun fuel => ?_⟩, g, Or.inl ⟨rfl, rfl, rfl, by simp⟩,
      hn0, hs0⟩
    have := hk0 fuel
    simp only at this
    simp only [m_alloc_offer, this]
    split_ifs <;> rfl
  | none =>
    obtain ⟨m1, ⟨ka, hka⟩, g1⟩ := aggregate_spec hM g.walk g.head
    obtain ⟨r1, ⟨k1, hk1⟩, hn1, hs1⟩ := g1.offer_effect hM h.get_offer hsize
    refine ⟨m1, r1, _, _, ⟨max k0 (max ka k1), fun fuel => ?_⟩, g1,
      Or.inr ⟨hn0.1 rfl, rfl, rfl, ⟨ka, hka⟩⟩, hn1, hs1⟩
    have q0 := hk0 fuel
    have qa := hka fuel
    have q1 := hk1 fuel
    simp only at q0 qa q1
    simp only [m_alloc_offer, q0, qa, q1]
    by_cases c0 : k0 ≤ fuel
    · by_cases ca : ka ≤ fuel
      · by_cases c1 : k1 ≤ fuel
        · simp [c0, ca, c1, q1]
        · simp [c0, ca, c1, q1]
      · simp [c0, ca]
    · simp [c0]

theorem Good.freeblocs_not_mem {M : Nat} {m : Mem} {bs : List Blk} {fl : List Ptr}
    (g : Good M m bs fl) : freeblocs ∉ fl := by
  intro h
  obtain ⟨b, _, _, hb⟩ := (g.mem_iff _).1 h
  exact blk_ne_freeblocs _ hb.symm

theorem Walk.replace_mid {m m' : Mem} {e o : Nat} {pre new post : List Blk} {b : Blk}
    (h : Walk m e o (pre ++ b :: post)) (hnew : Walk m' (b.off + b.size) b.off new)
    (hf : ∀ x, x < b.off ∨ b.off + b.size ≤ x → hdr m' x = hdr m x) :
    Walk m' e o (pre ++ new ++ post) := by
  obtain ⟨mid, h1, h2, _, h4⟩ := Walk.append.1 h
  have hbo : b.off = mid := by rw [h2]; rfl
  subst hbo
  exact Walk.rebuild h1 h4 hnew hf

theorem hdr_eq_of {m m' : Mem} {x : Nat} (h1 : (m' (blk x)).size = (m (blk x)).size)
    (h2 : (m' (blk x)).available = (m (blk x)).available) : hdr m' x = hdr m x := by
  simp [hdr, h1, h2]

theorem size_sub_self (a : Nat) (ha : a ≤ SIZE_MAX) : size_sub a a = 0 := by
  rw [size_sub_eq (le_refl _) ha]; simp

theorem Good.carve_whole {M : Nat} {m : Mem} {bs : List Blk} {fl : List Ptr}
    (g : Good M m bs fl) (hM : M ≤ SIZE_MAX) {pre post : List Blk} {b : Blk}
    (hbs : bs = pre ++ b :: post) (hba : b.avail = true) {size : Nat} (hsz : size ≤ b.size)
    (hlt : b.size - size < sizeof_bloc) :
    ∃ m', Ret (fun fuel => m_alloc_carve fuel size m (blk b.off))
        (m', blk (b.off + offsetof_u)) ∧
      Good M m' (pre ++ ⟨b.off, b.size, false⟩ :: post) (fl.erase (blk b.off)) := by
  subst hbs
  have hb : b ∈ pre ++ b :: post := by simp
  obtain ⟨hbe, hbpos⟩ : b = hdr m b.off ∧ 0 < b.size :=
    ⟨(Walk.bounds g.walk b hb).2.2.2, (Walk.bounds g.walk b hb).2.2.1⟩
  have hbM : b.off + b.size ≤ M := (Walk.bounds g.walk b hb).2.1
  have hps : (m (blk b.off)).size = b.size := by
    conv_rhs => rw [hbe]
    rfl
  have hpa : (m (blk b.off)).available = true := by
    rw [← hba]
    conv_rhs => rw [hbe]
    rfl
  have hpfl : blk b.off ∈ fl := (g.mem_iff _).2 ⟨b, hb, hba, rfl⟩
  obtain ⟨m1, ⟨k, hk⟩, hc1, hf1, hf2⟩ := Chain.remove_occ (blk b.off) g.chain hpfl
    (List.nodup_cons.2 ⟨g.freeblocs_not_mem, g.nodup⟩) g.head
    (fun y hy => by obtain ⟨_, _, _, _, _, h⟩ := g.mem_fl hy; exact h)
  let m' : Mem := m1.write (blk b.off) ⟨b.size, false, (m1 (blk b.off)).next⟩
  have hcond : size_sub (m (blk b.off)).size size < sizeof_bloc := by
    rw [hps, size_sub_eq hsz (by omega)]; exact hlt
  have h1s : (m1 (blk b.off)).size = b.size := by rw [(hf2 _).1, hps]
  have hres : ∀ fuel, m_alloc_carve fuel size m (blk b.off) =
      if k ≤ fuel then some (m', blk (b.off + offsetof_u)) else none := by
    intro fuel
    have hk' := hk fuel
    simp only at hk'
    simp only [m_alloc_carve, bloc_get_size, hcond, if_true, bloc_remove_occ, hk']
    by_cases c : k ≤ fuel
    · simp only [c, if_true, h1s, hps, size_sub_self b.size (by omega)]
      have hx : bloc_next_memory_bloc (bloc_set_size m1 (blk b.off) 0) (blk b.off)
          = blk b.off := by
        simp [bloc_next_memory_bloc, bloc_set_size, blk]
      rw [hx]
      congr 2
      funext q
      by_cases hq : q = blk b.off
      · subst hq
        simp [m', bloc_set_available, bloc_set_size]
      · simp [m', bloc_set_available, bloc_set_size, write_other _ _ hq]
    · simp [c]
  have hm'o : ∀ x, x ≠ blk b.off → m' x = m1 x := fun x hx => write_other _ _ hx
  have hm'p : m' (blk b.off) = ⟨b.size, false, (m1 (blk b.off)).next⟩ := write_same _ _ _
  obtain ⟨hpre, hpost⟩ := Walk.mem_parts g.walk
  have hne_of : ∀ c ∈ pre ++ post, blk c.off ≠ blk b.off := by
    intro c hc e'
    have := blk_inj.1 e'
    rcases List.mem_append.1 hc with h | h
    · have := hpre c h; omega
    · have := hpost c h; omega
  refine ⟨m', ⟨k, hres⟩, ?_, ?_, ?_, ?_, ?_⟩
  · have hnew : Walk m' (b.off + b.size) b.off [⟨b.off, b.size, false⟩] := by
      refine ⟨?_, hbpos, rfl⟩
      simp [hdr, hm'p]
    have := Walk.replace_mid g.walk hnew (fun x hx => by
      have hne : blk x ≠ blk b.off := fun e' => by have := blk_inj.1 e'; omega
      apply hdr_eq_of
      · rw [hm'o _ hne]; exact (hf2 _).1
      · rw [hm'o _ hne]; exact (hf2 _).2)
    simpa using this
  · rw [hm'o _ (Ne.symm (blk_ne_freeblocs _)), (hf2 _).2]; exact g.head
  · have e0 : bloc_get_next m' freeblocs = bloc_get_next m1 freeblocs :=
      bloc_get_next_write_other _ _ (Ne.symm (blk_ne_freeblocs _))
    rw [e0]
    refine Chain.frame_chain hc1 (fun x hx => bloc_get_next_write_other _ _ ?_)
    exact ((List.Nodup.mem_erase_iff g.nodup).1 hx).1
  · exact g.nodup.erase _
  · intro p
    rw [List.Nodup.mem_erase_iff g.nodup, g.mem_iff]
    constructor
    · rintro ⟨hne, c, hc, hca, rfl⟩
      refine ⟨c, ?_, hca, rfl⟩
      rcases List.mem_append.1 hc with h | h
      · exact List.mem_append_left _ h
      · rcases List.mem_cons.1 h with rfl | h
        · exact absurd rfl hne
        · exact List.mem_append_right _ (List.mem_cons_of_mem _ h)
    · rintro ⟨c, hc, hca, rfl⟩
      have hc' : c ∈ pre ++ post := by
        rcases List.mem_append.1 hc with h | h
        · exact List.mem_append_left _ h
        · rcases List.mem_cons.1 h with rfl | h
          · simp at hca
          · exact List.mem_append_right _ h
      refine ⟨hne_of c hc', c, ?_, hca, rfl⟩
      rcases List.mem_append.1 hc' with h | h
      · exact List.mem_append_left _ h
      · exact List.mem_append_right _ (List.mem_cons_of_mem _ h)
theorem Good.carve_split {M : Nat} {m : Mem} {bs : List Blk} {fl : List Ptr}
    (g : Good M m bs fl) (hM : M ≤ SIZE_MAX) {pre post : List Blk} {b : Blk}
    (hbs : bs = pre ++ b :: post) (hba : b.avail = true) {size : Nat} (hsz : size ≤ b.size)
    (hge : sizeof_bloc ≤ b.size - size) (hsize : 0 < size) :
    ∃ m', Ret (fun fuel => m_alloc_carve fuel size m (blk b.off))
        (m', blk (b.off + (b.size - size) + offsetof_u)) ∧
      Good M m' (pre ++ ⟨b.off, b.size - size, true⟩ ::
        ⟨b.off + (b.size - size), size, false⟩ :: post) fl := by
  subst hbs
  have hb : b ∈ pre ++ b :: post := by simp
  obtain ⟨hbe, hbpos⟩ : b = hdr m b.off ∧ 0 < b.size :=
    ⟨(Walk.bounds g.walk b hb).2.2.2, (Walk.bounds g.walk b hb).2.2.1⟩
  have hbM : b.off + b.size ≤ M := (Walk.bounds g.walk b hb).2.1
  have hps : (m (blk b.off)).size = b.size := by
    conv_rhs => rw [hbe]
    rfl
  have hpa : (m (blk b.off)).available = true := by
    rw [← hba]
    conv_rhs => rw [hbe]
    rfl
  have h24 : 0 < b.size - size := lt_of_lt_of_le (by decide) hge
  let x : Ptr := blk (b.off + (b.size - size))
  have hxp : x ≠ blk b.off := fun e' => by have := blk_inj.1 e'; omega
  let m' : Mem := (m.write (blk b.off) { m (blk b.off) with size := b.size - size }).write x
    ⟨size, false, (m x).next⟩
  have hcond : ¬ size_sub (m (blk b.off)).size size < sizeof_bloc := by
    rw [hps, size_sub_eq hsz (by omega)]; omega
  have hres : ∀ fuel, m_alloc_carve fuel size m (blk b.off) =
      if 0 ≤ fuel then some (m', blk (b.off + (b.size - size) + offsetof_u)) else none := by
    intro fuel
    have hcond' : ¬ b.size - size < sizeof_bloc := by omega
    simp only [m_alloc_carve, bloc_get_size, Nat.zero_le, if_true, hps,
      size_sub_eq hsz (show b.size ≤ SIZE_MAX by omega), hcond', if_false]
    have hx : bloc_next_memory_bloc (bloc_set_size m (blk b.off) (b.size - size)) (blk b.off)
        = x := by
      simp [bloc_next_memory_bloc, bloc_set_size, blk, x]
    rw [hx]
    congr 2
    funext q
    by_cases hq : q = x
    · subst hq
      simp [m', bloc_set_available, bloc_set_size, write_other _ _ hxp]
    · simp [m', bloc_set_available, bloc_set_size, write_other _ _ hq]
  have hm'x : m' x = ⟨size, false, (m x).next⟩ := write_same _ _ _
  have hm'p : m' (blk b.off) = { m (blk b.off) with size := b.size - size } := by
    show (Mem.write _ _ _) _ = _
    rw [write_other _ _ (Ne.symm hxp), write_same]
  have hm'o : ∀ q, q ≠ x → q ≠ blk b.off → m' q = m q := fun q h1 h2 => by
    show (Mem.write _ _ _) _ = _
    rw [write_other _ _ h1, write_other _ _ h2]
  obtain ⟨hpre, hpost⟩ := Walk.mem_parts g.walk
  have hx_not_block : ∀ c ∈ pre ++ b :: post, blk c.off ≠ x := by
    intro c hc e'
    have := blk_inj.1 e'
    rcases List.mem_append.1 hc with h | h
    · have := hpre c h; omega
    · rcases List.mem_cons.1 h with rfl | h
      · omega
      · have := hpost c h; omega
  have hxfl : x ∉ fl := fun hx => by
    obtain ⟨c, hc, _, hcx⟩ := (g.mem_iff _).1 hx
    exact hx_not_block c hc hcx.symm
  have hnext : ∀ q, q ≠ x → bloc_get_next m' q = bloc_get_next m q := by
    intro q hq
    by_cases hp : q = blk b.off
    · subst hp; simp [bloc_get_next, hm'p]
    · simp [bloc_get_next, hm'o q hq hp]
  refine ⟨m', ⟨0, hres⟩, ?_, ?_, ?_, g.nodup, ?_⟩
  · have hnew : Walk m' (b.off + b.size) b.off
        [⟨b.off, b.size - size, true⟩, ⟨b.off + (b.size - size), size, false⟩] := by
      refine ⟨?_, h24, ?_, hsize, ?_⟩
      · simp [hdr, hm'p, hpa]
      · show _ = hdr m' (b.off + (b.size - size))
        simp only [hdr]
        rw [show m' (blk (b.off + (b.size - size))) = _ from hm'x]
      · show b.off + (b.size - size) + size = b.off + b.size
        omega
    have := Walk.replace_mid g.walk hnew (fun y hy => by
      have h1 : blk y ≠ blk b.off := fun e' => by have := blk_inj.1 e'; omega
      have h2 : blk y ≠ x := fun e' => by have := blk_inj.1 e'; omega
      rw [hdr, hdr, hm'o _ h2 h1])
    simpa using this
  · rw [hm'o _ (Ne.symm (blk_ne_freeblocs _)) (Ne.symm (blk_ne_freeblocs _))]; exact g.head
  · rw [hnext _ (Ne.symm (blk_ne_freeblocs _))]
    exact Chain.frame_chain g.chain (fun q hq => hnext q (fun e' => hxfl (e' ▸ hq)))
  · intro p
    rw [g.mem_iff]
    constructor
    · rintro ⟨c, hc, hca, rfl⟩
      rcases List.mem_append.1 hc with h | h
      · exact ⟨c, List.mem_append_left _ h, hca, rfl⟩
      · rcases List.mem_cons.1 h with rfl | h
        · exact ⟨⟨c.off, c.size - size, true⟩, by simp, rfl, rfl⟩
        · exact ⟨c, by simp [h], hca, rfl⟩
    · rintro ⟨c, hc, hca, rfl⟩
      rcases List.mem_append.1 hc with h | h
      · exact ⟨c, List.mem_append_left _ h, hca, rfl⟩
      · rcases List.mem_cons.1 h with rfl | h
        · exact ⟨b, by simp, hba, rfl⟩
        · rcases List.mem_cons.1 h with rfl | h
          · simp at hca
          · exact ⟨c, by simp [h], hca, rfl⟩

theorem Good.free_effect {M : Nat} {h : Heap} {bs : List Blk} {fl : List Ptr}
    (g : Good M h.mem bs fl) {pre post : List Blk} {b : Blk}
    (hbs : bs = pre ++ b :: post) (hba : b.avail = false) :
    Good M (m_free (some (blk (b.off + offsetof_u))) h).mem
      (pre ++ ⟨b.off, b.size, true⟩ :: post) (blk b.off :: fl) := by
  subst hbs
  have hb : b ∈ pre ++ b :: post := by simp
  obtain ⟨hbe, hbpos⟩ : b = hdr h.mem b.off ∧ 0 < b.size :=
    ⟨(Walk.bounds g.walk b hb).2.2.2, (Walk.bounds g.walk b hb).2.2.1⟩
  have hps : (h.mem (blk b.off)).size = b.size := by
    conv_rhs => rw [hbe]
    rfl
  let m1 := bloc_set_available h.mem (blk b.off) true
  have hmem : (m_free (some (blk (b.off + offsetof_u))) h).mem
      = bloc_insert_head m1 freeblocs (blk b.off) := by
    simp [m_free, bloc_from_data_ptr, blk, offsetof_u, m1]
  rw [hmem]
  have hm1p : m1 (blk b.off) = { h.mem (blk b.off) with available := true } := write_same _ _ _
  have hm1o : ∀ q, q ≠ blk b.off → m1 q = h.mem q := fun q hq => write_other _ _ hq
  have hpfl : blk b.off ∉ fl := fun hp => by
    obtain ⟨c, hc, hca, hcb⟩ := (g.mem_iff _).1 hp
    have : b = c := Walk.eq_of_off g.walk hb hc (blk_inj.1 hcb)
    subst this
    rw [hba] at hca; simp at hca
  have hs1 : (m1 freeblocs).available = true := by
    rw [hm1o _ (Ne.symm (blk_ne_freeblocs _))]; exact g.head
  have hc1 : Chain m1 (bloc_get_next m1 freeblocs) fl := by
    have e0 : bloc_get_next m1 freeblocs = bloc_get_next h.mem freeblocs :=
      bloc_get_next_write_other _ _ (Ne.symm (blk_ne_freeblocs _))
    rw [e0]
    exact Chain.frame_chain g.chain (fun q hq =>
      bloc_get_next_write_other _ _ (fun e' => hpfl (e' ▸ hq)))
  obtain ⟨hpre, hpost⟩ := Walk.mem_parts g.walk
  refine ⟨?_, ?_, ?_, ?_, ?_⟩
  · have hnew : Walk (bloc_insert_head m1 freeblocs (blk b.off)) (b.off + b.size) b.off
        [⟨b.off, b.size, true⟩] := by
      refine ⟨?_, hbpos, rfl⟩
      have := insert_head_size_avail m1 freeblocs (blk b.off) (blk b.off)
      simp [hdr, this.1, this.2, hm1p, hps]
    have := Walk.replace_mid g.walk hnew (fun y hy => by
      have h1 : blk y ≠ blk b.off := fun e' => by have := blk_inj.1 e'; omega
      have := insert_head_size_avail m1 freeblocs (blk b.off) (blk y)
      apply hdr_eq_of
      · rw [this.1, hm1o _ h1]
      · rw [this.2, hm1o _ h1])
    simpa using this
  · exact (insert_head_size_avail m1 freeblocs (blk b.off) freeblocs).2.trans hs1
  · exact Chain.insert_head (blk_ne_freeblocs _) hs1 (by rw [hm1p]) hc1 g.freeblocs_not_mem hpfl
  · exact List.nodup_cons.2 ⟨hpfl, g.nodup⟩
  · intro p
    rw [List.mem_cons, g.mem_iff]
    constructor
    · rintro (rfl | ⟨c, hc, hca, rfl⟩)
      · exact ⟨⟨b.off, b.size, true⟩, by simp, rfl, rfl⟩
      · refine ⟨c, ?_, hca, rfl⟩
        rcases List.mem_append.1 hc with h' | h'
        · exact List.mem_append_left _ h'
        · rcases List.mem_cons.1 h' with rfl | h'
          · rw [hba] at hca; simp at hca
          · exact List.mem_append_right _ (List.mem_cons_of_mem _ h')
    · rintro ⟨c, hc, hca, rfl⟩
      rcases List.mem_append.1 hc with h' | h'
      · exact Or.inr ⟨c, List.mem_append_left _ h', hca, rfl⟩
      · rcases List.mem_cons.1 h' with rfl | h'
        · exact Or.inl rfl
        · exact Or.inr ⟨c, List.mem_append_right _ (List.mem_cons_of_mem _ h'), hca, rfl⟩

theorem m_alloc_size_eq {s : Nat} (h1 : ¬ s > SIZE_MAX - BLOC_INFOS_SIZE) :
    m_alloc_size s = max s BLOC_DATAS_SIZE_MIN + BLOC_INFOS_SIZE := by
  unfold m_alloc_size
  simp only
  have h9 : BLOC_INFOS_SIZE = 9 := rfl
  have h15 : BLOC_DATAS_SIZE_MIN = 15 := rfl
  have hmax : SIZE_MAX = 2 ^ 64 - 1 := rfl
  rw [h9, hmax] at h1
  split_ifs with hlt
  · rw [size_add_eq (by rw [h9, h15, hmax]; omega), max_eq_right (by omega)]
  · rw [size_add_eq (by rw [h9, hmax]; omega), max_eq_left (by omega)]

theorem m_alloc_size_pos {s : Nat} (h1 : ¬ s > SIZE_MAX - BLOC_INFOS_SIZE) :
    sizeof_bloc ≤ m_alloc_size s := by
  rw [m_alloc_size_eq h1]
  have h9 : BLOC_INFOS_SIZE = 9 := rfl
  have h15 : BLOC_DATAS_SIZE_MIN = 15 := rfl
  have h24 : sizeof_bloc = 24 := rfl
  rw [h9, h15, h24]
  have := le_max_right s 15
  omega

/-- Effect of `m_alloc` on a well-formed state when the request passes the
two overflow tests. -/
theorem Good.alloc_effect {M : Nat} {h : Heap} {bs : List Blk} {fl : List Ptr}
    (g : Good M h.mem bs fl) (hM : M ≤ SIZE_MAX) {s : Nat}
    (h1 : ¬ s > SIZE_MAX - BLOC_INFOS_SIZE) (h2 : ¬ s > size_sub M BLOC_INFOS_SIZE) :
    ∃ m1 r bs1 fl1, Ret (fun fuel => m_alloc_offer M fuel (m_alloc_size s) h) (m1, r) ∧
      Good M m1 bs1 fl1 ∧
      ((m1 = h.mem ∧ bs1 = bs ∧ fl1 = fl ∧ r ≠ none) ∨
        ((∀ b ∈ bs, b.avail = true → b.size < m_alloc_size s) ∧ bs1 = spec_coalesce bs ∧
          fl1 = (avail_ptrs (spec_coalesce bs)).reverse ∧
          Ret (fun fuel => m_aggregate M fuel h.mem) m1)) ∧
      (r = none ↔ ∀ b ∈ bs1, b.avail = true → b.size < m_alloc_size s) ∧
      (r = none → Ret (fun fuel => MemoryHeap.m_alloc M fuel s h) (none, ⟨m1, h.get_offer⟩)) ∧
      (∀ p, r = some p → ∃ pre b post m', bs1 = pre ++ b :: post ∧ p = blk b.off ∧
        b.avail = true ∧ m_alloc_size s ≤ b.size ∧
        (b.size - m_alloc_size s < sizeof_bloc →
          Ret (fun fuel => MemoryHeap.m_alloc M fuel s h)
            (some (bloc_get_data_ptr (blk b.off)), ⟨m', h.get_offer⟩) ∧
          Good M m' (pre ++ ⟨b.off, b.size, false⟩ :: post) (fl1.erase p)) ∧
        (sizeof_bloc ≤ b.size - m_alloc_size s →
          Ret (fun fuel => MemoryHeap.m_alloc M fuel s h)
            (some (bloc_get_data_ptr (blk (b.off + (b.size - m_alloc_size s)))),
              ⟨m', h.get_offer⟩) ∧
          Good M m' (pre ++ ⟨b.off, b.size - m_alloc_size s, true⟩ ::
            ⟨b.off + (b.size - m_alloc_size s), m_alloc_size s, false⟩ :: post) fl1)) := by
  have hpos : 0 < m_alloc_size s := lt_of_lt_of_le (by decide) (m_alloc_size_pos h1)
  obtain ⟨m1, r, bs1, fl1, ⟨ko, hko⟩, g1, hdis, hnone, hsome⟩ := g.alloc_offer hM hpos
  refine ⟨m1, r, bs1, fl1, ⟨ko, hko⟩, g1, hdis, hnone, ?_, ?_⟩
  · rintro rfl
    refine ⟨ko, fun fuel => ?_⟩
    have := hko fuel
    simp only at this
    simp only [MemoryHeap.m_alloc, h1, h2, if_false, this]
    split_ifs <;> rfl
  · rintro p rfl
    obtain ⟨hp, hsz⟩ := hsome p rfl
    obtain ⟨b, hb, hba, rfl, hbs, -⟩ := g1.mem_fl hp
    obtain ⟨pre, post, hsplit⟩ := List.append_of_mem hb
    rw [hbs] at hsz
    by_cases hc : b.size - m_alloc_size s < sizeof_bloc
    · obtain ⟨m', ⟨kc, hkc⟩, g'⟩ := g1.carve_whole hM hsplit hba hsz hc
      refine ⟨pre, b, post, m', hsplit, rfl, hba, hsz, fun _ => ⟨⟨max ko kc, fun fuel => ?_⟩, g'⟩,
        fun h' => absurd hc (by omega)⟩
      have q1 := hko fuel
      have q2 := hkc fuel
      simp only at q1 q2
      simp only [MemoryHeap.m_alloc, h1, h2, if_false, q1]
      by_cases c1 : ko ≤ fuel
      · by_cases c2 : kc ≤ fuel
        · simp only [c1, c2, q2, if_true, max_le_iff, and_self]
          rfl
        · simp [c1, c2, q2]
      · simp [c1]
    · obtain ⟨m', ⟨kc, hkc⟩, g'⟩ := g1.carve_split hM hsplit hba hsz (by omega) hpos
      refine ⟨pre, b, post, m', hsplit, rfl, hba, hsz, fun h' => absurd h' hc,
        fun _ => ⟨⟨max ko kc, fun fuel => ?_⟩, g'⟩⟩
      have q1 := hko fuel
      have q2 := hkc fuel
      simp only at q1 q2
      simp only [MemoryHeap.m_alloc, h1, h2, if_false, q1]
      by_cases c1 : ko ≤ fuel
      · by_cases c2 : kc ≤ fuel
        · simp only [c1, c2, q2, if_true, max_le_iff, and_self]
          rfl
        · simp [c1, c2, q2]
      · simp [c1]

/-! ## The invariant of the reachable configurations -/

theorem data_ptr_inj {a b : Nat} :
    bloc_get_data_ptr (blk a) = bloc_get_data_ptr (blk b) ↔ a = b := by
  simp [bloc_get_data_ptr, blk]

theorem LiveOK.mono {bs bs' : List Blk} {live : List Ptr} (h : LiveOK bs live)
    (hsub : ∀ b ∈ bs, b.avail = false → b ∈ bs') : LiveOK bs' live :=
  ⟨h.1, fun a ha => by
    obtain ⟨b, hb, hba, e⟩ := h.2 a ha
    exact ⟨b, hsub b hb hba, hba, e⟩⟩

theorem LiveOK.cons {bs : List Blk} {live : List Ptr} (h : LiveOK bs live) {b : Blk}
    (hb : b ∈ bs) (hba : b.avail = false)
    (hnew : ∀ c ∈ bs, c.avail = false → bloc_get_data_ptr (blk c.off) ∈ live → c.off ≠ b.off) :
    LiveOK bs (bloc_get_data_ptr (blk b.off) :: live) := by
  refine ⟨List.nodup_cons.2 ⟨fun hm => ?_, h.1⟩, fun a ha => ?_⟩
  · obtain ⟨c, hc, hca, e⟩ := h.2 _ hm
    exact hnew c hc hca (e ▸ hm) (data_ptr_inj.1 e).symm
  · rcases List.mem_cons.1 ha with rfl | ha
    · exact ⟨b, hb, hba, rfl⟩
    · exact h.2 a ha

theorem m_reserve_mem {M : Nat} (fresh : Mem) {h : Heap}
    (hr : (m_reserve M (some fresh)).2 = some h) :
    h.mem memory_reserve = ⟨M % 2 ^ 64, true, none⟩ ∧
      h.mem freeblocs = ⟨0, true, some memory_reserve⟩ ∧
      h.get_offer = Offer.m_get_best_fit := by
  have hne : memory_reserve ≠ freeblocs := by simp [memory_reserve, freeblocs]
  simp only [m_reserve, bloc_empty, Option.some.injEq] at hr
  subst hr
  refine ⟨?_, ?_, rfl⟩
  · simp [bloc_set_next, write_other _ _ hne]
  · simp [bloc_set_next]

theorem Good.reserve_good {M : Nat} (hM0 : 0 < M) (hM : M ≤ SIZE_MAX) (fresh : Mem) {h : Heap}
    (hr : (m_reserve M (some fresh)).2 = some h) :
    Good M h.mem [⟨0, M, true⟩] [blk 0] ∧ h.get_offer = Offer.m_get_best_fit := by
  have hmod : M % 2 ^ 64 = M := Nat.mod_eq_of_lt (by unfold SIZE_MAX at hM; omega)
  obtain ⟨hA, hB, hC⟩ := m_reserve_mem fresh hr
  rw [hmod] at hA
  have h0 : blk 0 = memory_reserve := rfl
  refine ⟨⟨?_, ?_, ?_, by simp, ?_⟩, hC⟩
  · refine ⟨?_, hM0, ?_⟩
    · simp [hdr, h0, hA]
    · show 0 + M = M
      omega
  · rw [hB]
  · refine ⟨?_, ?_⟩
    · show (if (h.mem freeblocs).available then (h.mem freeblocs).next else none) = _
      rw [hB]; rfl
    · show (if (h.mem (blk 0)).available then (h.mem (blk 0)).next else none) = none
      rw [h0, hA]; rfl
  · intro p
    constructor
    · intro hp
      exact ⟨⟨0, M, true⟩, by simp, rfl, by simpa using hp⟩
    · rintro ⟨b, hb, -, rfl⟩
      have : b = ⟨0, M, true⟩ := by simpa using hb
      subst this
      simp

theorem Good.blocks_unique {M : Nat} {m : Mem} {bs bs' : List Blk} {fl fl' : List Ptr}
    (g : Good M m bs fl) (g' : Good M m bs' fl') : bs = bs' ∧ fl = fl' := by
  constructor
  · have h1 := Walk.print g.walk (bs.length + bs'.length + 1)
    have h2 := Walk.print g'.walk (bs.length + bs'.length + 1)
    rw [if_pos (by omega)] at h1 h2
    rw [h1] at h2
    exact Option.some.inj h2
  · exact Chain.unique_chain g.chain g'.chain

theorem Good.toggle_good {M : Nat} {h : Heap} {bs : List Blk} {fl : List Ptr}
    (g : Good M h.mem bs fl) : Good M (m_toggle_offer h).mem bs fl := by
  unfold m_toggle_offer
  split_ifs <;> exact g

theorem Inv.alloc_inv {M : Nat} (hM : M ≤ SIZE_MAX) {h h' : Heap} {live : List Ptr}
    (hi : Inv M (h, live)) {fuel s : Nat} {r : Option Ptr}
    (ha : m_alloc M fuel s h = some (r, h')) :
    Inv M (h', match r with
      | none => live
      | some a => a :: live) := by
  obtain ⟨bs, fl, g, hl⟩ := hi
  by_cases h1 : s > SIZE_MAX - BLOC_INFOS_SIZE
  · simp only [m_alloc, h1, if_true, Option.some.injEq, Prod.mk.injEq] at ha
    obtain ⟨rfl, rfl⟩ := ha
    exact ⟨bs, fl, g, hl⟩
  by_cases h2 : s > size_sub M BLOC_INFOS_SIZE
  · simp only [m_alloc, h1, h2, if_true, if_false, Option.some.injEq, Prod.mk.injEq] at ha
    obtain ⟨rfl, rfl⟩ := ha
    exact ⟨bs, fl, g, hl⟩
  obtain ⟨m1, r1, bs1, fl1, -, g1, hdis, -, hnone, hsome⟩ := g.alloc_effect hM h1 h2
  have hl1 : LiveOK bs1 live := by
    rcases hdis with ⟨-, rfl, -, -⟩ | ⟨-, rfl, -, -⟩
    · exact hl
    · exact hl.mono (fun b hb hba => spec_coalesce_unavail_mem _ b hb hba)
  cases r1 with
  | none =>
    have := (hnone rfl).unique ha
    simp only [Prod.mk.injEq] at this
    obtain ⟨rfl, rfl⟩ := this
    exact ⟨bs1, fl1, g1, hl1⟩
  | some p =>
    obtain ⟨pre, b, post, m', hbs1, rfl, hba, hsz, hwhole, hsplit⟩ := hsome p rfl
    subst hbs1
    obtain ⟨hpre, hpost⟩ := Walk.mem_parts g1.walk
    have hbpos : 0 < b.size := (Walk.bounds g1.walk b (by simp)).2.2.1
    have hpos : sizeof_bloc ≤ m_alloc_size s := m_alloc_size_pos h1
    have h24' : sizeof_bloc = 24 := rfl
    by_cases hc : b.size - m_alloc_size s < sizeof_bloc
    · obtain ⟨hret, g'⟩ := hwhole hc
      have := hret.unique ha
      simp only [Prod.mk.injEq] at this
      obtain ⟨rfl, rfl⟩ := this
      refine ⟨_, _, g', ?_⟩
      have hl' : LiveOK (pre ++ ⟨b.off, b.size, false⟩ :: post) live := by
        refine hl1.mono (fun c hc' hca => ?_)
        rcases List.mem_append.1 hc' with h' | h'
        · exact List.mem_append_left _ h'
        · rcases List.mem_cons.1 h' with rfl | h'
          · rw [hba] at hca; simp at hca
          · exact List.mem_append_right _ (List.mem_cons_of_mem _ h')
      refine hl'.cons (b := ⟨b.off, b.size, false⟩) (by simp) rfl (fun c hc' hca hcl e => ?_)
      obtain ⟨c0, hc0, hc0a, e0⟩ := hl1.2 _ hcl
      have hoff : c0.off = b.off := by rw [← data_ptr_inj.1 e0]; exact e
      have : c0 = b := Walk.eq_of_off g1.walk hc0 (by simp) hoff
      subst this
      rw [hba] at hc0a; simp at hc0a
    · have hge : sizeof_bloc ≤ b.size - m_alloc_size s := by omega
      have h24 : 0 < b.size - m_alloc_size s := lt_of_lt_of_le (by decide) hge
      obtain ⟨hret, g'⟩ := hsplit hge
      have := hret.unique ha
      simp only [Prod.mk.injEq] at this
      obtain ⟨rfl, rfl⟩ := this
      refine ⟨_, _, g', ?_⟩
      have hl' : LiveOK (pre ++ ⟨b.off, b.size - m_alloc_size s, true⟩ ::
          ⟨b.off + (b.size - m_alloc_size s), m_alloc_size s, false⟩ :: post) live := by
        refine hl1.mono (fun c hc' hca => ?_)
        rcases List.mem_append.1 hc' with h' | h'
        · exact List.mem_append_left _ h'
        · rcases List.mem_cons.1 h' with rfl | h'
          · rw [hba] at hca; simp at hca
          · exact List.mem_append_right _
              (List.mem_cons_of_mem _ (List.mem_cons_of_mem _ h'))
      refine hl'.cons (b := ⟨b.off + (b.size - m_alloc_size s), m_alloc_size s, false⟩)
        (by simp) rfl (fun c hc' hca hcl e => ?_)
      obtain ⟨c0, hc0, hc0a, e0⟩ := hl1.2 _ hcl
      have hoff : c0.off = b.off + (b.size - m_alloc_size s) := by
        rw [← data_ptr_inj.1 e0]; exact e
      rcases List.mem_append.1 hc0 with h' | h'
      · have := hpre c0 h'; omega
      · rcases List.mem_cons.1 h' with rfl | h'
        · omega
        · have := hpost c0 h'; omega

theorem Inv.free_inv {M : Nat} {h : Heap} {live : List Ptr} (hi : Inv M (h, live)) {a : Ptr}
    (ha : a ∈ live) : Inv M (m_free (some a) h, live.erase a) := by
  obtain ⟨bs, fl, g, hl⟩ := hi
  obtain ⟨b, hb, hba, rfl⟩ := hl.2 a ha
  obtain ⟨pre, post, hsplit⟩ := List.append_of_mem hb
  refine ⟨_, _, g.free_effect hsplit hba, hl.1.erase _, fun a' ha' => ?_⟩
  obtain ⟨hne, hmem⟩ := (List.Nodup.mem_erase_iff hl.1).1 ha'
  obtain ⟨c, hc, hca, rfl⟩ := hl.2 a' hmem
  refine ⟨c, ?_, hca, rfl⟩
  subst hsplit
  rcases List.mem_append.1 hc with h' | h'
  · exact List.mem_append_left _ h'
  · rcases List.mem_cons.1 h' with rfl | h'
    · exact absurd rfl hne
    · exact List.mem_append_right _ (List.mem_cons_of_mem _ h')

theorem Inv.aggregate_inv {M : Nat} (hM : M ≤ SIZE_MAX) {h : Heap} {live : List Ptr}
    (hi : Inv M (h, live)) {fuel : Nat} {m : Mem} (ha : m_aggregate M fuel h.mem = some m) :
    Inv M ({ h with mem := m }, live) := by
  obtain ⟨bs, fl, g, hl⟩ := hi
  obtain ⟨m', hret, g'⟩ := aggregate_spec hM g.walk g.head
  have := hret.unique ha
  subst this
  exact ⟨_, _, g', hl.mono (fun b hb hba => spec_coalesce_unavail_mem _ b hb hba)⟩

theorem Inv.exec_inv {M : Nat} (hM : M ≤ SIZE_MAX) {op : Op} {c c' : Config} (hi : Inv M c)
    (he : exec M op c = some c') : Inv M c' := by
  obtain ⟨h, live⟩ := c
  cases op with
  | alloc fuel s =>
    simp only [MemoryHeap.exec] at he
    cases hr : m_alloc M fuel s h with
    | none => simp [hr] at he
    | some x =>
      obtain ⟨r, h'⟩ := x
      have := hi.alloc_inv hM hr
      cases r with
      | none =>
        simp only [hr, Option.some.injEq] at he
        subst he; exact this
      | some a =>
        simp only [hr, Option.some.injEq] at he
        subst he; exact this
  | free ptr =>
    cases ptr with
    | none =>
      simp only [MemoryHeap.exec, m_free, Option.some.injEq] at he
      subst he; exact hi
    | some a =>
      simp only [MemoryHeap.exec] at he
      split_ifs at he with ha
      simp only [Option.some.injEq] at he
      subst he
      exact hi.free_inv ha
  | toggle =>
    simp only [MemoryHeap.exec, Option.some.injEq] at he
    subst he
    obtain ⟨bs, fl, g, hl⟩ := hi
    exact ⟨bs, fl, g.toggle_good, hl⟩
  | aggregate fuel =>
    simp only [MemoryHeap.exec] at he
    cases hr : m_aggregate M fuel h.mem with
    | none => simp [hr] at he
    | some m =>
      simp only [hr, Option.some.injEq] at he
      subst he
      exact hi.aggregate_inv hM hr

theorem Reach.inv {M : Nat} (hM0 : 0 < M) (hM : M ≤ SIZE_MAX) {c : Config}
    (hr : Reach M c) : Inv M c := by
  induction hr with
  | reserve fresh h hres =>
    exact ⟨_, _, (Good.reserve_good hM0 hM fresh hres).1, List.nodup_nil, by simp⟩
  | step op c c' _ he ih => exact ih.exec_inv hM he

/-! ## The degenerate reserve of size zero -/

theorem get_offer_none {m : Mem} {fl : List Ptr} (hc : Chain m (bloc_get_next m freeblocs) fl)
    {size : Nat} (hs : ∀ p ∈ fl, (m p).size < size) (o : Offer) :
    Ret (fun fuel => call_get_offer o fuel m size) none := by
  cases o with
  | m_get_best_fit =>
    have := Chain.best_fit size SIZE_MAX none hc
    rw [(best_fit_scan_none fl SIZE_MAX).2 (fun p hp h => by have := hs p hp; omega)] at this
    exact this
  | m_get_first_fit =>
    have := Chain.first_fit size hc
    rw [List.find?_eq_none.2 (fun p hp => by have := hs p hp; simp; omega)] at this
    exact this

theorem Inv0.chain {c : Config} (hi : Inv0 c) :
    ∃ fl, Chain c.1.mem (bloc_get_next c.1.mem freeblocs) fl ∧ (fl = [blk 0] ∨ fl = []) := by
  obtain ⟨-, -, h0, -, h | h⟩ := hi
  · exact ⟨[blk 0], ⟨h, h0⟩, Or.inl rfl⟩
  · exact ⟨[], h, Or.inr rfl⟩

theorem Inv0.flush {h : Heap} {live : List Ptr} (hi : Inv0 (h, live)) :
    Inv0 (⟨bloc_set_next h.mem freeblocs none, h.get_offer⟩, live) ∧
      bloc_get_next (bloc_set_next h.mem freeblocs none) freeblocs = none := by
  obtain ⟨h1, h2, h3, h4, -⟩ := hi
  have hs : (h.mem freeblocs).available = true := h2
  have hm0 : bloc_set_next h.mem freeblocs none
      = h.mem.write freeblocs { h.mem freeblocs with next := none } := by
    simp [bloc_set_next, hs]
  have hn : bloc_get_next (bloc_set_next h.mem freeblocs none) freeblocs = none := by
    rw [hm0]; simp [bloc_get_next]
  refine ⟨⟨h1, ?_, ?_, ?_, Or.inr hn⟩, hn⟩
  · show ((bloc_set_next h.mem freeblocs none) freeblocs).available = true
    rw [hm0]; simpa using hs
  · show bloc_get_next (bloc_set_next h.mem freeblocs none) (blk 0) = none
    rw [hm0, bloc_get_next_write_other _ _ (blk_ne_freeblocs 0)]; exact h3
  · show ((bloc_set_next h.mem freeblocs none) (blk 0)).size = 0
    rw [hm0, write_other _ _ (blk_ne_freeblocs 0)]; exact h4

theorem aggregate_zero (m : Mem) :
    Ret (fun fuel => m_aggregate 0 fuel m) (bloc_set_next m freeblocs none) := by
  refine ⟨1, fun fuel => ?_⟩
  cases fuel with
  | zero => simp [m_aggregate, m_aggregate_outer]
  | succ n => simp [m_aggregate, m_aggregate_outer]

theorem Inv0.alloc_zero {h : Heap} {live : List Ptr} (hi : Inv0 (h, live)) {s : Nat}
    (h1 : ¬ s > SIZE_MAX - BLOC_INFOS_SIZE) (h2 : ¬ s > size_sub 0 BLOC_INFOS_SIZE) :
    Ret (fun fuel => MemoryHeap.m_alloc 0 fuel s h)
      (none, ⟨bloc_set_next h.mem freeblocs none, h.get_offer⟩) := by
  have hpos : 0 < m_alloc_size s := lt_of_lt_of_le (by decide) (m_alloc_size_pos h1)
  obtain ⟨fl, hc, hfl⟩ := hi.chain
  have hsz : ∀ p ∈ fl, (h.mem p).size < m_alloc_size s := by
    intro p hp
    rcases hfl with rfl | rfl
    · have : p = blk 0 := by simpa using hp
      subst this
      rw [show (h.mem (blk 0)).size = 0 from hi.2.2.2.1]; exact hpos
    · simp at hp
  obtain ⟨k0, hk0⟩ := get_offer_none hc hsz h.get_offer
  obtain ⟨ka, hka⟩ := aggregate_zero h.mem
  have hc1 : Chain (bloc_set_next h.mem freeblocs none)
      (bloc_get_next (bloc_set_next h.mem freeblocs none) freeblocs) [] := hi.flush.2
  obtain ⟨k1, hk1⟩ := @get_offer_none _ _ hc1 (m_alloc_size s) (by simp) h.get_offer
  refine ⟨max k0 (max ka k1), fun fuel => ?_⟩
  have q0 := hk0 fuel
  have qa := hka fuel
  have q1 := hk1 fuel
  simp only at q0 qa q1
  simp only [MemoryHeap.m_alloc, h1, h2, if_false, m_alloc_offer, q0]
  by_cases c0 : k0 ≤ fuel
  · by_cases ca : ka ≤ fuel
    · by_cases c1 : k1 ≤ fuel
      · simp [c0, ca, c1, qa, q1]
      · simp [c0, ca, c1, qa, q1]
    · simp [c0, ca, qa]
  · simp [c0]

theorem Inv0.exec_zero {op : Op} {c c' : Config} (hi : Inv0 c) (he : exec 0 op c = some c') :
    Inv0 c' := by
  obtain ⟨h, live⟩ := c
  cases op with
  | alloc fuel s =>
    simp only [MemoryHeap.exec] at he
    cases hr : MemoryHeap.m_alloc 0 fuel s h with
    | none => simp [hr] at he
    | some x =>
      have hx : x = (none, h) ∨ x = (none, ⟨bloc_set_next h.mem freeblocs none, h.get_offer⟩) := by
        by_cases h1 : s > SIZE_MAX - BLOC_INFOS_SIZE
        · simp only [MemoryHeap.m_alloc, h1, if_true, Option.some.injEq] at hr
          exact Or.inl hr.symm
        by_cases h2 : s > size_sub 0 BLOC_INFOS_SIZE
        · simp only [MemoryHeap.m_alloc, h1, h2, if_true, if_false, Option.some.injEq] at hr
          exact Or.inl hr.symm
        exact Or.inr ((hi.alloc_zero h1 h2).unique hr)
      rcases hx with rfl | rfl
      · simp only [hr, Option.some.injEq] at he
        subst he; exact hi
      · simp only [hr, Option.some.injEq] at he
        subst he; exact hi.flush.1
  | free ptr =>
    cases ptr with
    | none =>
      simp only [MemoryHeap.exec, m_free, Option.some.injEq] at he
      subst he; exact hi
    | some a =>
      have hl : live = [] := hi.1
      subst hl
      simp [MemoryHeap.exec] at he
  | toggle =>
    simp only [MemoryHeap.exec, Option.some.injEq] at he
    subst he
    unfold m_toggle_offer
    split_ifs <;> exact hi
  | aggregate fuel =>
    simp only [MemoryHeap.exec] at he
    cases hr : m_aggregate 0 fuel h.mem with
    | none => simp [hr] at he
    | some m =>
      simp only [hr, Option.some.injEq] at he
      subst he
      have := (aggregate_zero h.mem).unique hr
      subst this
      exact hi.flush.1

theorem Inv0.reserve_zero (fresh : Mem) {h : Heap} (hr : (m_reserve 0 (some fresh)).2 = some h) :
    Inv0 (h, []) := by
  obtain ⟨hA, hB, -⟩ := m_reserve_mem fresh hr
  have h0 : blk 0 = memory_reserve := rfl
  refine ⟨rfl, ?_, ?_, ?_, Or.inl ?_⟩
  · show (h.mem freeblocs).available = true
    rw [hB]
  · show (if (h.mem (blk 0)).available then (h.mem (blk 0)).next else none) = none
    rw [h0, hA]; rfl
  · show (h.mem (blk 0)).size = 0
    rw [h0, hA]; rfl
  · show (if (h.mem freeblocs).available then (h.mem freeblocs).next else none) = _
    rw [hB]; rfl

/-- Every reachable configuration satisfies the invariant of its reserve size. -/
theorem Reach.invariant {M : Nat} (hM : M ≤ SIZE_MAX) {c : Config} (hr : Reach M c) :
    (0 < M ∧ Inv M c) ∨ (M = 0 ∧ Inv0 c) := by
  rcases Nat.eq_zero_or_pos M with rfl | hM0
  · right
    refine ⟨rfl, ?_⟩
    induction hr with
    | reserve fresh h hres => exact Inv0.reserve_zero fresh hres
    | step op c c' _ he ih => exact ih.exec_zero he
  · exact Or.inl ⟨hM0, hr.inv hM0 hM⟩

theorem Good.print_ret {M : Nat} {m : Mem} {bs : List Blk} {fl : List Ptr} (g : Good M m bs fl) :
    Ret (fun fuel => m_print M fuel m) bs :=
  ⟨bs.length + 1, fun fuel => Walk.print g.walk fuel⟩

theorem Good.free_list_ret {M : Nat} {m : Mem} {bs : List Blk} {fl : List Ptr}
    (g : Good M m bs fl) : Ret (fun fuel => MemoryHeap.free_list fuel m) fl :=
  ⟨fl.length + 1, fun fuel => Chain.traverse g.chain fuel⟩

theorem print_zero (m : Mem) : Ret (fun fuel => m_print 0 fuel m) [] := by
  refine ⟨1, fun fuel => ?_⟩
  cases fuel with
  | zero => simp [m_print, m_print_loop]
  | succ n => simp [m_print, m_print_loop]

theorem Walk.chain' {m : Mem} {e : Nat} : ∀ {l : List Blk} {o : Nat}, Walk m e o l →
    l.Chain' (fun a b => a.off + a.size = b.off) ∧ ∀ b ∈ l.head?, b.off = o
  | [], _, _ => by simp
  | [b], o, h => by
    obtain ⟨h1, -, -⟩ := h
    simp [h1, hdr]
  | b :: c :: l, o, h => by
    obtain ⟨h1, h2, h3⟩ := h
    obtain ⟨ih1, ih2⟩ := Walk.chain' h3
    have hbo : b.off = o := by rw [h1]; rfl
    refine ⟨List.Chain'.cons ?_ ih1, by simp [hbo]⟩
    have := ih2 c (by simp)
    omega

/-! ## Concrete runs -/

theorem Reach.run_reach {M : Nat} : ∀ (ops : List Op) {c c' : Config}, Reach M c →
    run M ops c = some c' → Reach M c'
  | [], c, c', hr, h => by
    simp only [MemoryHeap.run, Option.some.injEq] at h
    subst h; exact hr
  | op :: ops, c, c', hr, h => by
    simp only [MemoryHeap.run] at h
    cases he : exec M op c with
    | none => simp [he] at h
    | some c1 =>
      simp only [he] at h
      exact Reach.run_reach ops (Reach.step op c c1 hr he) h

theorem Reach.reserved_reach (M : Nat) : Reach M (reserved M) :=
  Reach.reserve fresh_zero _ rfl

theorem Reach.after_reach {M : Nat} (ops : List Op) {c : Config} (hr : Reach M c)
    (h : (MemoryHeap.run M ops c).isSome = true) : Reach M (after M ops c) := by
  cases hc : MemoryHeap.run M ops c with
  | none => simp [hc] at h
  | some c' =>
    have : MemoryHeap.after M ops c = c' := by simp [MemoryHeap.after, hc]
    rw [this]
    exact hr.run_reach ops hc

/-! ## Properties of the specification of coalescing -/

theorem spec_coalesce_chain : ∀ (l : List Blk),
    (spec_coalesce l).Chain' (fun a b => ¬ (a.avail = true ∧ b.avail = true))
  | [] => by simp [spec_coalesce]
  | a :: l => by
    have ih := spec_coalesce_chain l
    rw [spec_coalesce]
    cases hr : spec_coalesce l with
    | nil => simp
    | cons c r =>
      rw [hr] at ih
      simp only
      split_ifs with hc
      · cases r with
        | nil => simp
        | cons d r' =>
          have h1 := (List.chain'_cons.1 ih).1
          have h2 := (List.chain'_cons.1 ih).2
          refine List.chain'_cons.2 ⟨fun hd => h1 ⟨hc.2, hd.2⟩, h2⟩
      · exact List.chain'_cons.2 ⟨hc, ih⟩

theorem spec_coalesce_filter_unavail : ∀ (l : List Blk),
    (spec_coalesce l).filter (fun b => !b.avail) = l.filter (fun b => !b.avail)
  | [] => by simp [spec_coalesce]
  | a :: l => by
    have ih := spec_coalesce_filter_unavail l
    rw [spec_coalesce]
    cases hr : spec_coalesce l with
    | nil =>
      rw [hr] at ih
      simp only [List.filter_cons, ← ih, List.filter_nil]
    | cons c r =>
      rw [hr] at ih
      simp only
      split_ifs with hc
      · simp only [List.filter_cons, ← ih, hc.1, hc.2, Bool.not_true, Bool.false_eq_true,
          if_false]
      · simp only [List.filter_cons, ← ih]

theorem spec_coalesce_sum : ∀ (l : List Blk),
    ((spec_coalesce l).map Blk.size).sum = (l.map Blk.size).sum
  | [] => by simp [spec_coalesce]
  | a :: l => by
    have ih := spec_coalesce_sum l
    rw [spec_coalesce]
    cases hr : spec_coalesce l with
    | nil =>
      rw [hr] at ih
      simp only [List.map_cons, List.sum_cons, ← ih, List.map_nil, List.sum_nil]
    | cons c r =>
      rw [hr] at ih
      simp only
      split_ifs with hc
      · simp only [List.map_cons, List.sum_cons, ← ih]
        omega
      · simp only [List.map_cons, List.sum_cons, ← ih]

/-! ## The coalesced partition and the maximal runs -/

theorem spec_coalesce_append_unavail : ∀ (l₁ : List Blk) (u : Blk) (l₂ : List Blk),
    u.avail = false →
    spec_coalesce (l₁ ++ u :: l₂) = spec_coalesce l₁ ++ u :: spec_coalesce l₂
  | [], u, l₂, hu => by
    simpa [spec_coalesce] using spec_coalesce_cons_unavail u l₂ hu
  | a :: l₁, u, l₂, hu => by
    have ih := spec_coalesce_append_unavail l₁ u l₂ hu
    rw [List.cons_append, spec_coalesce, ih, spec_coalesce]
    cases spec_coalesce l₁ with
    | nil => simp [hu]
    | cons c r =>
      simp only [List.cons_append]
      split_ifs <;> rfl

theorem spec_coalesce_run (r0 : Blk) (run post : List Blk) (h0 : r0.avail = true)
    (hrun : ∀ b ∈ run, b.avail = true) (hpost : ∀ u ∈ post.head?, u.avail = false) :
    spec_coalesce (r0 :: run ++ post) =
      ⟨r0.off, ((r0 :: run).map Blk.size).sum, true⟩ :: spec_coalesce post := by
  have htw : (run ++ post).takeWhile (fun c => c.avail) = run := by
    rw [List.takeWhile_append_of_pos hrun]
    cases post with
    | nil => simp
    | cons u post' =>
      have := hpost u (by simp)
      simp [List.takeWhile, this]
  have hdw : (run ++ post).dropWhile (fun c => c.avail) = post := by
    rw [List.dropWhile_append_of_pos hrun]
    cases post with
    | nil => simp
    | cons u post' =>
      have := hpost u (by simp)
      simp [List.dropWhile, this]
  rw [List.cons_append, spec_coalesce_cons_avail _ r0 h0, htw, hdw]
  simp

theorem mem_spec_coalesce_of_run {bs run : List Blk} {c : Blk} (hr : spec_maximal_run bs run)
    (hc : spec_merged run = some c) : c ∈ spec_coalesce bs ∧ c.avail = true := by
  obtain ⟨pre, post, rfl, hne, hav, hpre, hpost⟩ := hr
  cases run with
  | nil => exact absurd rfl hne
  | cons r0 run' =>
    simp only [spec_merged, List.head?_cons, Option.map_some', Option.some.injEq] at hc
    subst hc
    refine ⟨?_, rfl⟩
    have h1 := spec_coalesce_run r0 run' post (hav r0 (by simp))
      (fun b hb => hav b (List.mem_cons_of_mem _ hb)) hpost
    rcases List.eq_nil_or_concat pre with rfl | ⟨pre', u, hp⟩
    · rw [List.nil_append, h1]
      exact List.mem_cons_self _ _
    · have hp' : pre = pre' ++ [u] := by simpa using hp
      subst hp'
      have hu : u.avail = false := hpre u (by simp)
      have e : pre' ++ [u] ++ (r0 :: run') ++ post = pre' ++ u :: (r0 :: run' ++ post) := by
        simp
      rw [e, spec_coalesce_append_unavail _ _ _ hu, h1]
      simp

theorem run_of_mem_spec_coalesce : ∀ (n : Nat) (bs : List Blk), bs.length ≤ n →
    ∀ c ∈ spec_coalesce bs, c.avail = true →
    ∃ run, spec_maximal_run bs run ∧ spec_merged run = some c
  | _, [], _, c, hc, _ => by simp [spec_coalesce] at hc
  | 0, _ :: _, hn, _, _, _ => by simp at hn
  | n + 1, a :: l, hn, c, hc, hca => by
    have hln : l.length ≤ n := by simpa using hn
    by_cases ha : a.avail = true
    · rw [spec_coalesce_cons_avail l a ha] at hc
      have htd := List.takeWhile_append_dropWhile (fun c : Blk => c.avail) l
      have htw : ∀ b ∈ l.takeWhile (fun c => c.avail), b.avail = true :=
        fun b hb => List.mem_takeWhile_imp hb
      have hdw : ∀ u ∈ (l.dropWhile (fun c => c.avail)).head?, u.avail = false := by
        intro u hu
        have := List.head?_dropWhile_not (fun c : Blk => c.avail) l
        rw [Option.mem_def.1 hu] at this
        simpa using this
      rcases List.mem_cons.1 hc with rfl | hc'
      · refine ⟨a :: l.takeWhile (fun c => c.avail),
          ⟨[], l.dropWhile (fun c => c.avail), by simp [htd], by simp, ?_, by simp, hdw⟩, ?_⟩
        · intro b hb
          rcases List.mem_cons.1 hb with rfl | hb
          · exact ha
          · exact htw b hb
        · simp [spec_merged]
      · have hlen : (l.dropWhile (fun c => c.avail)).length ≤ n :=
          le_trans (List.dropWhile_sublist _).length_le hln
        obtain ⟨run, ⟨pre, post, hsplit, hne, hav, hpre, hpost⟩, hm⟩ :=
          run_of_mem_spec_coalesce n _ hlen c hc' hca
        refine ⟨run, ⟨a :: l.takeWhile (fun c => c.avail) ++ pre, post, ?_, hne, hav, ?_,
          hpost⟩, hm⟩
        · calc a :: l = a :: (l.takeWhile (fun c => c.avail) ++ l.dropWhile (fun c => c.avail)) := by
                rw [htd]
            _ = a :: l.takeWhile (fun c => c.avail) ++ pre ++ run ++ post := by
                rw [hsplit]; simp
        · rcases List.eq_nil_or_concat pre with rfl | ⟨pre', u, hp⟩
          · exfalso
            cases run with
            | nil => exact hne rfl
            | cons r0 run' =>
              have h1 := hdw r0 (by rw [hsplit]; simp)
              have h2 := hav r0 (by simp)
              rw [h1] at h2; simp at h2
          · have hp' : pre = pre' ++ [u] := by simpa using hp
            subst hp'
            intro v hv
            have : v = u := by
              rw [← List.append_assoc, List.getLast?_concat] at hv
              exact (Option.some.inj (Option.mem_def.1 hv)).symm
            subst this
            exact hpre v (by simp)
    · have ha' : a.avail = false := by simpa using ha
      rw [spec_coalesce_cons_unavail a l ha'] at hc
      rcases List.mem_cons.1 hc with rfl | hc'
      · rw [ha'] at hca; simp at hca
      · obtain ⟨run, ⟨pre, post, hsplit, hne, hav, hpre, hpost⟩, hm⟩ :=
          run_of_mem_spec_coalesce n l hln c hc' hca
        refine ⟨run, ⟨a :: pre, post, by rw [hsplit]; simp, hne, hav, ?_, hpost⟩, hm⟩
        rcases List.eq_nil_or_concat pre with rfl | ⟨pre', u, hp⟩
        · intro v hv
          have : a = v := by simpa using hv
          subst this; exact ha'
        · have hp' : pre = pre' ++ [u] := by simpa using hp
          subst hp'
          intro v hv
          have : v = u := by
            rw [← List.cons_append, List.getLast?_concat] at hv
            exact (Option.some.inj (Option.mem_def.1 hv)).symm
          subst this
          exact hpre v (by simp)

/-- The available blocks of the coalesced partition are exactly the blocks
into which the maximal runs of adjacent available blocks are merged. -/
theorem spec_coalesce_runs (bs : List Blk) (c : Blk) :
    (c ∈ spec_coalesce bs ∧ c.avail = true) ↔
      ∃ run, spec_maximal_run bs run ∧ spec_merged run = some c :=
  ⟨fun h => run_of_mem_spec_coalesce bs.length bs (le_refl _) c h.1 h.2,
    fun ⟨_, hr, hm⟩ => mem_spec_coalesce_of_run hr hm⟩


theorem forall_runs_iff (bs : List Blk) (N : Nat) :
    (∀ run, spec_maximal_run bs run → (run.map Blk.size).sum < N) ↔
      ∀ c ∈ spec_coalesce bs, c.avail = true → c.size < N := by
  constructor
  · intro h c hc hca
    obtain ⟨run, hr, hm⟩ := (spec_coalesce_runs bs c).1 ⟨hc, hca⟩
    have := h run hr
    cases run with
    | nil => simp [spec_merged] at hm
    | cons r0 run' =>
      simp only [spec_merged, List.head?_cons, Option.map_some', Option.some.injEq] at hm
      rw [← hm]; exact this
  · intro h run hr
    have hne : run ≠ [] := by
      obtain ⟨_, _, _, hne, _⟩ := hr
      exact hne
    cases run with
    | nil => exact absurd rfl hne
    | cons r0 run' =>
      have := (spec_coalesce_runs bs ⟨r0.off, ((r0 :: run').map Blk.size).sum, true⟩).2
        ⟨_, hr, rfl⟩
      exact h _ this.1 this.2

/-! ## Every call returns -/

theorem Reach.alloc_returns {M : Nat} (hM : M ≤ SIZE_MAX) {c : Config} (hr : Reach M c)
    (s : Nat) : ∃ v, Ret (fun fuel => m_alloc M fuel s c.1) v := by
  by_cases h1 : s > SIZE_MAX - BLOC_INFOS_SIZE
  · exact ⟨(none, c.1), 0, fun fuel => by simp [m_alloc, h1]⟩
  by_cases h2 : s > size_sub M BLOC_INFOS_SIZE
  · exact ⟨(none, c.1), 0, fun fuel => by simp [m_alloc, h1, h2]⟩
  rcases hr.invariant hM with ⟨-, bs, fl, g, -⟩ | ⟨rfl, hi⟩
  · obtain ⟨m1, r1, bs1, fl1, -, g1, -, -, hnone, hsome⟩ := g.alloc_effect hM h1 h2
    cases r1 with
    | none => exact ⟨_, hnone rfl⟩
    | some p =>
      obtain ⟨pre, b, post, m', -, -, -, -, hwhole, hsplit⟩ := hsome p rfl
      by_cases hc : b.size - m_alloc_size s < sizeof_bloc
      · exact ⟨_, (hwhole hc).1⟩
      · exact ⟨_, (hsplit (by omega)).1⟩
  · exact ⟨_, hi.alloc_zero h1 h2⟩

theorem Reach.aggregate_returns {M : Nat} (hM : M ≤ SIZE_MAX) {c : Config} (hr : Reach M c) :
    ∃ m, Ret (fun fuel => m_aggregate M fuel c.1.mem) m := by
  rcases hr.invariant hM with ⟨-, bs, fl, g, -⟩ | ⟨rfl, -⟩
  · obtain ⟨m', hret, -⟩ := aggregate_spec hM g.walk g.head
    exact ⟨m', hret⟩
  · exact ⟨_, aggregate_zero _⟩

theorem Reach.exec_returns {M : Nat} (hM : M ≤ SIZE_MAX) {c : Config} (hr : Reach M c)
    (op : Op) (hlive : ∀ a, op = Op.free (some a) → a ∈ c.2) :
    ∃ n, ∀ fuel, n ≤ fuel → (exec M (op.with_fuel fuel) c).isSome = true := by
  obtain ⟨h, live⟩ := c
  cases op with
  | alloc f s =>
    obtain ⟨⟨r, h'⟩, hret⟩ := hr.alloc_returns hM s
    obtain ⟨n, hn⟩ := hret.exists_fuel
    refine ⟨n, fun fuel hf => ?_⟩
    have := hn fuel hf
    simp only at this
    cases r with
    | none => simp [Op.with_fuel, exec, this]
    | some a => simp [Op.with_fuel, exec, this]
  | free ptr =>
    cases ptr with
    | none => exact ⟨0, fun fuel _ => by simp [Op.with_fuel, exec]⟩
    | some a =>
      have ha : a ∈ live := hlive a rfl
      exact ⟨0, fun fuel _ => by simp [Op.with_fuel, exec, ha]⟩
  | toggle => exact ⟨0, fun fuel _ => by simp [Op.with_fuel, exec]⟩
  | aggregate f =>
    obtain ⟨m, hret⟩ := hr.aggregate_returns hM
    obtain ⟨n, hn⟩ := hret.exists_fuel
    refine ⟨n, fun fuel hf => ?_⟩
    have := hn fuel hf
    simp only at this
    simp [Op.with_fuel, exec, this]

/-! ## The two selection functions -/

theorem chain_of_free_list_loop {m : Mem} : ∀ {fuel : Nat} {p : Ptr} {l : List Ptr},
    free_list_loop m fuel p = some l → Chain m (bloc_get_next m p) l
  | 0, _, _, h => by simp [free_list_loop] at h
  | fuel + 1, p, l, h => by
    simp only [free_list_loop] at h
    cases hn : bloc_get_next m p with
    | none =>
      simp only [hn, Option.some.injEq] at h
      subst h
      rfl
    | some x =>
      simp only [hn] at h
      cases hrec : free_list_loop m fuel x with
      | none => simp [hrec] at h
      | some l' =>
        simp only [hrec, Option.some.injEq] at h
        subst h
        exact ⟨rfl, chain_of_free_list_loop hrec⟩

theorem chain_of_free_list {m : Mem} {fl : List Ptr}
    (h : Ret (fun fuel => free_list fuel m) fl) : Chain m (bloc_get_next m freeblocs) fl := by
  obtain ⟨n, hn⟩ := h.exists_fuel
  exact chain_of_free_list_loop (hn n (le_refl _))

theorem ret_free_list_of_eq {m : Mem} {n : Nat} {fl : List Ptr} (h : free_list n m = some fl) :
    Ret (fun fuel => free_list fuel m) fl :=
  ⟨fl.length + 1, fun fuel => Chain.traverse (chain_of_free_list_loop h) fuel⟩

theorem best_fit_scan_spec {m : Mem} {size : Nat} : ∀ (l : List Ptr) (d : Nat) (q : Option Ptr)
    (x : Ptr), best_fit_scan m size l d q = some x →
    (q = some x ∧ ∀ y ∈ l, ¬ (size ≤ (m y).size ∧ size_sub (m y).size size < d)) ∨
    (∃ l₁ l₂, l = l₁ ++ x :: l₂ ∧ size ≤ (m x).size ∧ size_sub (m x).size size < d ∧
      (∀ y ∈ l₁, size ≤ (m y).size → size_sub (m x).size size < size_sub (m y).size size) ∧
      (∀ y ∈ l₂, size ≤ (m y).size → size_sub (m x).size size ≤ size_sub (m y).size size))
  | [], _, q, x, h => Or.inl ⟨h, by simp⟩
  | p :: l, d, q, x, h => by
    unfold best_fit_scan at h
    split_ifs at h with hp
    · rcases best_fit_scan_spec l _ _ x h with ⟨h1, h2⟩ | ⟨l₁, l₂, e, h1, h2, h3, h4⟩
      · have : p = x := Option.some.inj h1
        subst this
        refine Or.inr ⟨[], l, rfl, hp.1, hp.2, by simp, fun y hy hsz => ?_⟩
        have := h2 y hy
        by_contra hlt
        exact this ⟨hsz, by omega⟩
      · refine Or.inr ⟨p :: l₁, l₂, by rw [e]; rfl, h1, lt_trans h2 hp.2, fun y hy hsz => ?_, h4⟩
        rcases List.mem_cons.1 hy with rfl | hy
        · exact h2
        · exact h3 y hy hsz
    · rcases best_fit_scan_spec l _ _ x h with ⟨h1, h2⟩ | ⟨l₁, l₂, e, h1, h2, h3, h4⟩
      · refine Or.inl ⟨h1, fun y hy => ?_⟩
        rcases List.mem_cons.1 hy with rfl | hy
        · exact hp
        · exact h2 y hy
      · refine Or.inr ⟨p :: l₁, l₂, by rw [e]; rfl, h1, h2, fun y hy hsz => ?_, h4⟩
        rcases List.mem_cons.1 hy with rfl | hy
        · by_contra hlt
          exact hp ⟨hsz, by omega⟩
        · exact h3 y hy hsz

/-! ## Idempotence of the coalescing pass -/

theorem spec_coalesce_fixed : ∀ (l : List Blk),
    l.Chain' (fun a b => ¬ (a.avail = true ∧ b.avail = true)) → spec_coalesce l = l
  | [], _ => by simp [spec_coalesce]
  | [a], _ => by simp [spec_coalesce]
  | a :: c :: l, h => by
    have h1 := (List.chain'_cons.1 h).1
    have h2 := (List.chain'_cons.1 h).2
    rw [spec_coalesce, spec_coalesce_fixed (c :: l) h2]
    simp only
    rw [if_neg h1]

theorem spec_coalesce_idem (l : List Blk) : spec_coalesce (spec_coalesce l) = spec_coalesce l :=
  spec_coalesce_fixed _ (spec_coalesce_chain l)

theorem Walk.avail_ptrs_sorted {m : Mem} {e o : Nat} {l : List Blk} (h : Walk m e o l) :
    (avail_ptrs l).Pairwise (fun p q => p.region = Region.reserve ∧
      q.region = Region.reserve ∧ p.off < q.off) := by
  unfold avail_ptrs
  have hp : l.Pairwise (fun a b => (blk a.off).region = Region.reserve ∧
      (blk b.off).region = Region.reserve ∧ (blk a.off).off < (blk b.off).off) := by
    refine (List.Pairwise.and_mem.1 (Walk.pairwise h)).imp ?_
    rintro a b ⟨ha, _, hab⟩
    have := (Walk.bounds h a ha).2.2.1
    exact ⟨rfl, rfl, by show a.off < b.off; omega⟩
  exact List.pairwise_map.2 (hp.filter _)

/-! ## Sizes of the blocks -/

theorem spec_coalesce_size_ge : ∀ (l : List Blk) (c : Blk), c ∈ spec_coalesce l →
    ∃ b ∈ l, b.size ≤ c.size
  | [], c, hc => by simp [spec_coalesce] at hc
  | a :: l, c, hc => by
    have ih := spec_coalesce_size_ge l
    rw [spec_coalesce] at hc
    cases hr : spec_coalesce l with
    | nil =>
      rw [hr] at hc
      have : c = a := by simpa using hc
      exact ⟨a, by simp, by rw [this]⟩
    | cons d r =>
      rw [hr] at hc ih
      simp only at hc
      split_ifs at hc with hd
      · rcases List.mem_cons.1 hc with rfl | hc'
        · exact ⟨a, by simp, by simp⟩
        · obtain ⟨b, hb, hle⟩ := ih c (List.mem_cons_of_mem _ hc')
          exact ⟨b, List.mem_cons_of_mem _ hb, hle⟩
      · rcases List.mem_cons.1 hc with rfl | hc'
        · exact ⟨c, by simp, le_refl _⟩
        · obtain ⟨b, hb, hle⟩ := ih c hc'
          exact ⟨b, List.mem_cons_of_mem _ hb, hle⟩

theorem Good.exec_sizes {M : Nat} (hM : M ≤ SIZE_MAX) {op : Op} {c c' : Config}
    {bs : List Blk} {fl : List Ptr} (g : Good M c.1.mem bs fl) (hl : LiveOK bs c.2)
    (he : exec M op c = some c') :
    ∃ bs' fl', Good M c'.1.mem bs' fl' ∧
      ∀ b' ∈ bs', (∃ b ∈ bs, b.size ≤ b'.size) ∨ sizeof_bloc ≤ b'.size := by
  have hsame : ∀ b' ∈ bs, (∃ b ∈ bs, b.size ≤ b'.size) ∨ sizeof_bloc ≤ b'.size :=
    fun b' hb' => Or.inl ⟨b', hb', le_refl _⟩
  have hco : ∀ b' ∈ spec_coalesce bs, (∃ b ∈ bs, b.size ≤ b'.size) ∨ sizeof_bloc ≤ b'.size :=
    fun b' hb' => Or.inl (spec_coalesce_size_ge bs b' hb')
  obtain ⟨h, live⟩ := c
  cases op with
  | alloc fuel s =>
    simp only [exec] at he
    cases hres : m_alloc M fuel s h with
    | none => simp [hres] at he
    | some x =>
      obtain ⟨r, h'⟩ := x
      have hc' : c'.1 = h' := by
        cases r with
        | none =>
          simp only [hres, Option.some.injEq] at he
          rw [← he]
        | some a =>
          simp only [hres, Option.some.injEq] at he
          rw [← he]
      rw [hc']
      by_cases h1 : s > SIZE_MAX - BLOC_INFOS_SIZE
      · simp only [m_alloc, h1, if_true, Option.some.injEq, Prod.mk.injEq] at hres
        rw [← hres.2]
        exact ⟨bs, fl, g, hsame⟩
      by_cases h2 : s > size_sub M BLOC_INFOS_SIZE
      · simp only [m_alloc, h1, h2, if_true, if_false, Option.some.injEq,
          Prod.mk.injEq] at hres
        rw [← hres.2]
        exact ⟨bs, fl, g, hsame⟩
      have hpos : sizeof_bloc ≤ m_alloc_size s := m_alloc_size_pos h1
      obtain ⟨m1, r1, bs1, fl1, -, g1, hdis, -, hnone, hsome⟩ := g.alloc_effect hM h1 h2
      have h1s : ∀ b' ∈ bs1, (∃ b ∈ bs, b.size ≤ b'.size) ∨ sizeof_bloc ≤ b'.size := by
        rcases hdis with ⟨-, rfl, -, -⟩ | ⟨-, rfl, -, -⟩
        · exact hsame
        · exact hco
      cases r1 with
      | none =>
        have := (hnone rfl).unique hres
        simp only [Prod.mk.injEq] at this
        rw [this.2]
        exact ⟨bs1, fl1, g1, h1s⟩
      | some p =>
        obtain ⟨pre, b0, post, m', hbs1, -, -, -, hwhole, hsplit⟩ := hsome p rfl
        subst hbs1
        have hpp : ∀ b' ∈ pre ++ post,
            (∃ b ∈ bs, b.size ≤ b'.size) ∨ sizeof_bloc ≤ b'.size := by
          intro b' hb'
          apply h1s
          rcases List.mem_append.1 hb' with h'' | h''
          · simp [h'']
          · simp [h'']
        by_cases hc : b0.size - m_alloc_size s < sizeof_bloc
        · obtain ⟨hret, g'⟩ := hwhole hc
          have := hret.unique hres
          simp only [Prod.mk.injEq] at this
          rw [this.2]
          refine ⟨_, _, g', fun b' hb' => ?_⟩
          rcases List.mem_append.1 hb' with h'' | h''
          · exact hpp b' (by simp [h''])
          · rcases List.mem_cons.1 h'' with rfl | h''
            · exact h1s b0 (by simp)
            · exact hpp b' (by simp [h''])
        · obtain ⟨hret, g'⟩ := hsplit (by omega)
          have := hret.unique hres
          simp only [Prod.mk.injEq] at this
          rw [this.2]
          refine ⟨_, _, g', fun b' hb' => ?_⟩
          rcases List.mem_append.1 hb' with h'' | h''
          · exact hpp b' (by simp [h''])
          · rcases List.mem_cons.1 h'' with rfl | h''
            · exact Or.inr (by show sizeof_bloc ≤ b0.size - m_alloc_size s; omega)
            · rcases List.mem_cons.1 h'' with rfl | h''
              · exact Or.inr hpos
              · exact hpp b' (by simp [h''])
  | free ptr =>
    cases ptr with
    | none =>
      simp only [exec, m_free, Option.some.injEq] at he
      rw [← he]
      exact ⟨bs, fl, g, hsame⟩
    | some a =>
      simp only [exec] at he
      split_ifs at he with ha
      simp only [Option.some.injEq] at he
      rw [← he]
      obtain ⟨b0, hb0, hb0a, rfl⟩ := hl.2 a ha
      obtain ⟨pre, post, hsplit⟩ := List.append_of_mem hb0
      have g' := g.free_effect hsplit hb0a
      refine ⟨_, _, g', fun b' hb' => ?_⟩
      subst hsplit
      rcases List.mem_append.1 hb' with h'' | h''
      · exact hsame b' (by simp [h''])
      · rcases List.mem_cons.1 h'' with rfl | h''
        · exact Or.inl ⟨b0, hb0, le_refl _⟩
        · exact hsame b' (by simp [h''])
  | toggle =>
    simp only [exec, Option.some.injEq] at he
    rw [← he]
    exact ⟨bs, fl, g.toggle_good, hsame⟩
  | aggregate fuel =>
    simp only [exec] at he
    cases hres : m_aggregate M fuel h.mem with
    | none => simp [hres] at he
    | some m =>
      simp only [hres, Option.some.injEq] at he
      rw [← he]
      obtain ⟨m', hret, g'⟩ := aggregate_spec hM g.walk g.head
      have := hret.unique hres
      subst this
      exact ⟨_, _, g', hco⟩

theorem Reach.min_size {M : Nat} (h24 : sizeof_bloc ≤ M) (hM : M ≤ SIZE_MAX) {c : Config}
    (hr : Reach M c) :
    ∃ bs fl, Good M c.1.mem bs fl ∧ LiveOK bs c.2 ∧ ∀ b ∈ bs, sizeof_bloc ≤ b.size := by
  have hM0 : 0 < M := lt_of_lt_of_le (by decide) h24
  induction hr with
  | reserve fresh h hres =>
    refine ⟨_, _, (Good.reserve_good hM0 hM fresh hres).1, ⟨List.nodup_nil, by simp⟩, ?_⟩
    intro b hb
    have : b = ⟨0, M, true⟩ := by simpa using hb
    rw [this]; exact h24
  | step op c c' _ he ih =>
    obtain ⟨bs, fl, g, hl, hmin⟩ := ih
    obtain ⟨bs', fl', g', hsz⟩ := g.exec_sizes hM hl he
    obtain ⟨bs'', fl'', g'', hl''⟩ := Inv.exec_inv hM ⟨bs, fl, g, hl⟩ he
    obtain ⟨rfl, rfl⟩ := g'.blocks_unique g''
    refine ⟨bs', fl', g', hl'', fun b' hb' => ?_⟩
    rcases hsz b' hb' with ⟨b, hb, hle⟩ | h'
    · exact le_trans (hmin b hb) hle
    · exact h'

/-! ## The accesses of the coalescing pass -/

theorem inner_trace_refines (M : Nat) : ∀ (fuel : Nat) (m : Mem) (p q : Ptr),
    (m_aggregate_inner_trace M fuel m p q).map (fun r => (r.1, r.2.1))
      = m_aggregate_inner M fuel m p q
  | 0, _, _, _ => rfl
  | fuel + 1, m, p, q => by
    simp only [m_aggregate_inner_trace, m_aggregate_inner]
    by_cases h1 : q.off < M
    · by_cases h2 : bloc_is_available m q = true
      · simp only [h1, h2, if_true, and_self]
        rw [← inner_trace_refines M fuel]
        cases m_aggregate_inner_trace M fuel
          (bloc_set_size m p (size_add (bloc_get_size m p) (bloc_get_size m q))) p
          (bloc_next_memory_bloc
            (bloc_set_size m p (size_add (bloc_get_size m p) (bloc_get_size m q))) q) with
        | none => rfl
        | some r => rfl
      · simp [h1, h2]
    · simp [h1]

theorem outer_trace_refines (M : Nat) : ∀ (fuel : Nat) (m : Mem) (p : Ptr),
    (m_aggregate_outer_trace M fuel m p).map (fun r => r.1) = m_aggregate_outer M fuel m p
  | 0, _, _ => rfl
  | fuel + 1, m, p => by
    simp only [m_aggregate_outer_trace, m_aggregate_outer]
    by_cases h1 : p.off < M
    · simp only [h1, if_true]
      cases hb : bloc_is_available m p with
      | false =>
        simp only [if_true]
        rw [← outer_trace_refines M fuel]
        cases m_aggregate_outer_trace M fuel m (bloc_next_memory_bloc m p) with
        | none => rfl
        | some r => rfl
      | true =>
        simp only [Bool.true_eq_false, if_false]
        rw [← inner_trace_refines M fuel]
        cases m_aggregate_inner_trace M fuel m p (bloc_next_memory_bloc m p) with
        | none => rfl
        | some r =>
          obtain ⟨m1, q, t₁⟩ := r
          simp only [Option.map_some']
          rw [← outer_trace_refines M fuel]
          cases m_aggregate_outer_trace M fuel (bloc_insert_head m1 freeblocs p) q with
          | none => rfl
          | some r => rfl
    · simp [h1]

theorem aggregate_trace_refines (M fuel : Nat) (m : Mem) :
    (m_aggregate_trace M fuel m).map (fun r => r.1) = m_aggregate M fuel m :=
  outer_trace_refines M fuel _ _

theorem inner_trace_spec {e : Nat} (po : Nat) : ∀ (l : List Blk) (m : Mem) (q : Nat),
    Walk m e q l → po < q → (m (blk po)).size + e ≤ SIZE_MAX + q →
    ∃ m' t, (∀ fuel, e - q + 1 ≤ fuel → m_aggregate_inner_trace e fuel m (blk po) (blk q)
        = some (m', blk (q + ((l.takeWhile (fun c => c.avail)).map Blk.size).sum), t)) ∧
      (∀ r ∈ t, r = blk po ∨ ∃ b ∈ l, r = blk b.off) ∧
      Walk m' e (q + ((l.takeWhile (fun c => c.avail)).map Blk.size).sum)
        (l.dropWhile (fun c => c.avail)) ∧
      ∀ x, x ≠ blk po → m' x = m x
  | [], m, q, hw, _, _ => by
    have hq : q = e := hw
    refine ⟨m, [], fun fuel hf => ?_, by simp, by simpa using hw, fun _ _ => rfl⟩
    cases fuel with
    | zero => omega
    | succ n => simp [m_aggregate_inner_trace, blk, hq]
  | b :: l, m, q, hw, hpq, hsz => by
    obtain ⟨h1, h2, h3⟩ := hw
    have hqe : q + b.size ≤ e := Walk.le h3
    have hlt : q < e := by omega
    have hbs : (m (blk q)).size = b.size := by rw [h1]; rfl
    have hba : (m (blk q)).available = b.avail := by rw [h1]; rfl
    have hbo : b.off = q := by rw [h1]; rfl
    by_cases hb : b.avail = true
    · let m1 := bloc_set_size m (blk po)
        (size_add (bloc_get_size m (blk po)) (bloc_get_size m (blk q)))
      have hne : blk q ≠ blk po := by
        intro e; have := blk_inj.1 e; omega
      have hm1 : ∀ x, x ≠ blk po → m1 x = m x := fun x hx => write_other m _ hx
      have hadd : size_add (bloc_get_size m (blk po)) (bloc_get_size m (blk q))
          = (m (blk po)).size + b.size := by
        simp only [bloc_get_size, hbs]
        exact size_add_eq (by omega)
      have hm1p : m1 (blk po) = { m (blk po) with size := (m (blk po)).size + b.size } := by
        show (m.write _ _) _ = _
        rw [write_same, hadd]
      have hw1 : Walk m1 e (q + b.size) l := by
        refine Walk.frame h3 (fun c hc => hdr_write_other m _ _ ?_)
        intro e'
        have := (Walk.bounds h3 c hc).1
        have := blk_inj.1 e'
        omega
      obtain ⟨m', t, hk, ht, hw', hf'⟩ := inner_trace_spec po l m1 (q + b.size) hw1
        (by omega) (by rw [hm1p]; simp only; omega)
      have htw : ((b :: l).takeWhile (fun c => c.avail)) = b :: l.takeWhile (fun c => c.avail) := by
        simp [List.takeWhile, hb]
      have hdw : ((b :: l).dropWhile (fun c => c.avail)) = l.dropWhile (fun c => c.avail) := by
        simp [List.dropWhile, hb]
      rw [htw, hdw]
      simp only [List.map_cons, List.sum_cons, ← Nat.add_assoc]
      refine ⟨m', blk q :: blk po :: blk q :: blk po :: blk q :: t, fun fuel hf => ?_, ?_, hw',
        fun x hx => by rw [hf' x hx, hm1 x hx]⟩
      · cases fuel with
        | zero => omega
        | succ n =>
          have hnext : bloc_next_memory_bloc m1 (blk q) = blk (q + b.size) := by
            show Ptr.mk _ (q + (m1 (blk q)).size) = _
            rw [hm1 _ hne, hbs]; rfl
          have := hk n (by omega)
          simp only [m_aggregate_inner_trace, bloc_is_available, hba, hb]
          simp only [show (blk q).off = q from rfl, hlt, if_true]
          rw [show bloc_set_size m (blk po)
            (size_add (bloc_get_size m (blk po)) (bloc_get_size m (blk q))) = m1 from rfl,
            hnext, this]
      · intro r hr
        simp only [List.mem_cons] at hr
        rcases hr with rfl | rfl | rfl | rfl | rfl | hr
        · exact Or.inr ⟨b, by simp, by rw [hbo]⟩
        · exact Or.inl rfl
        · exact Or.inr ⟨b, by simp, by rw [hbo]⟩
        · exact Or.inl rfl
        · exact Or.inr ⟨b, by simp, by rw [hbo]⟩
        · rcases ht r hr with h' | ⟨c, hc, h'⟩
          · exact Or.inl h'
          · exact Or.inr ⟨c, List.mem_cons_of_mem _ hc, h'⟩
    · have htw : ((b :: l).takeWhile (fun c => c.avail)) = [] := by
        simp [List.takeWhile, hb]
      have hdw : ((b :: l).dropWhile (fun c => c.avail)) = b :: l := by
        simp [List.dropWhile, hb]
      rw [htw, hdw]
      refine ⟨m, [blk q], fun fuel hf => ?_, ?_, by simpa using ⟨h1, h2, h3⟩, fun _ _ => rfl⟩
      · cases fuel with
        | zero => omega
        | succ n =>
          simp [m_aggregate_inner_trace, bloc_is_available, hba, hb,
            show (blk q).off = q from rfl, hlt]
      · intro r hr
        have : r = blk q := by simpa using hr
        exact Or.inr ⟨b, by simp, by rw [this, hbo]⟩

theorem outer_trace_spec {e : Nat} (he : e ≤ SIZE_MAX) : ∀ (n : Nat) (l : List Blk)
    (m : Mem) (p : Nat), l.length ≤ n → Walk m e p l →
    ∃ m' t, (∀ fuel, e - p + 1 ≤ fuel →
        m_aggregate_outer_trace e fuel m (blk p) = some (m', blk e, t)) ∧
      (∀ r ∈ t, ∃ b ∈ l, r = blk b.off) ∧
      ∀ o, o < p → m' (blk o) = m (blk o)
  | n, [], m, p, _, hw => by
    have hp : p = e := hw
    refine ⟨m, [], fun fuel hf => ?_, by simp, fun _ _ => rfl⟩
    cases fuel with
    | zero => omega
    | succ k => simp [m_aggregate_outer_trace, blk, hp]
  | 0, b :: l, _, _, hn, _ => by simp at hn
  | n + 1, b :: l, m, p, hn, hw => by
    obtain ⟨h1, h2, h3⟩ := hw
    have hqe : p + b.size ≤ e := Walk.le h3
    have hlt : p < e := by omega
    have hbs : (m (blk p)).size = b.size := by rw [h1]; rfl
    have hba : (m (blk p)).available = b.avail := by rw [h1]; rfl
    have hbo : b.off = p := by rw [h1]; rfl
    have hnext : bloc_next_memory_bloc m (blk p) = blk (p + b.size) := by
      show Ptr.mk _ (p + (m (blk p)).size) = _
      rw [hbs]; rfl
    have hln : l.length ≤ n := by simpa using hn
    by_cases hb : b.avail = true
    · obtain ⟨m1, t₁, hk1, ht1, hw1, hf1⟩ := inner_trace_spec (e := e) p l m (p + b.size)
        h3 (by omega) (by rw [hbs]; omega)
      let S := ((l.takeWhile (fun c => c.avail)).map Blk.size).sum
      let m2 := bloc_insert_head m1 freeblocs (blk p)
      have hw2 : Walk m2 e (p + b.size + S) (l.dropWhile (fun c => c.avail)) := by
        refine Walk.frame hw1 (fun c hc' => ?_)
        have hb' := (Walk.bounds hw1 c hc').1
        have hne : blk c.off ≠ blk p := fun e' => by have := blk_inj.1 e'; omega
        simp only [hdr]
        rw [show m2 (blk c.off) = m1 (blk c.off) from
          insert_head_other m1 (blk_ne_freeblocs _) hne]
      have hlen : (l.dropWhile (fun c => c.avail)).length ≤ n :=
        le_trans (List.dropWhile_sublist _).length_le hln
      obtain ⟨m', t₂, hk2, ht2, hf'⟩ := outer_trace_spec he n _ m2 (p + b.size + S) hlen hw2
      refine ⟨m', blk p :: blk p :: t₁ ++ blk p :: t₂, fun fuel hf => ?_, ?_, ?_⟩
      · cases fuel with
        | zero => omega
        | succ k =>
          have q1 := hk1 k (by omega)
          have q2 := hk2 k (by omega)
          simp only [m_aggregate_outer_trace, show (blk p).off = p from rfl, hlt, if_true,
            bloc_is_available, hba, hb, hnext, q1]
          simp only [Bool.true_eq_false, if_false]
          rw [show bloc_insert_head m1 freeblocs (blk p) = m2 from rfl, q2]
      · intro r hr
        have hsub : ∀ c ∈ l.dropWhile (fun c => c.avail), c ∈ b :: l :=
          fun c hc => List.mem_cons_of_mem _ ((List.dropWhile_sublist _).subset hc)
        simp only [List.cons_append, List.mem_cons, List.mem_append] at hr
        rcases hr with rfl | rfl | hr | rfl | hr
        · exact ⟨b, by simp, by rw [hbo]⟩
        · exact ⟨b, by simp, by rw [hbo]⟩
        · rcases ht1 r hr with h' | ⟨c, hc, h'⟩
          · exact ⟨b, by simp, by rw [h', hbo]⟩
          · exact ⟨c, List.mem_cons_of_mem _ hc, h'⟩
        · exact ⟨b, by simp, by rw [hbo]⟩
        · obtain ⟨c, hc, h'⟩ := ht2 r hr
          exact ⟨c, hsub c hc, h'⟩
      · intro o ho
        rw [hf' o (by omega)]
        have hne : blk o ≠ blk p := fun e' => by have := blk_inj.1 e'; omega
        rw [show m2 (blk o) = m1 (blk o) from insert_head_other m1 (blk_ne_freeblocs _) hne,
          hf1 _ hne]
    · have hb' : b.avail = false := by simpa using hb
      obtain ⟨m', t, hk, ht, hf'⟩ := outer_trace_spec he n l m (p + b.size) hln h3
      refine ⟨m', blk p :: blk p :: t, fun fuel hf => ?_, ?_, fun o ho => hf' o (by omega)⟩
      · cases fuel with
        | zero => omega
        | succ j =>
          have := hk j (by omega)
          simp [m_aggregate_outer_trace, show (blk p).off = p from rfl, hlt, bloc_is_available,
            hba, hb', hnext, this]
      · intro r hr
        simp only [List.mem_cons] at hr
        rcases hr with rfl | rfl | hr
        · exact ⟨b, by simp, by rw [hbo]⟩
        · exact ⟨b, by simp, by rw [hbo]⟩
        · obtain ⟨c, hc, h'⟩ := ht r hr
          exact ⟨c, List.mem_cons_of_mem _ hc, h'⟩

theorem aggregate_trace_spec {e : Nat} (he : e ≤ SIZE_MAX) {m : Mem} {l : List Blk}
    (hw : Walk m e 0 l) (hs : (m freeblocs).available = true) :
    ∃ m' t, (∀ fuel, e + 1 ≤ fuel → m_aggregate_trace e fuel m = some (m', blk e, t)) ∧
      ∀ r ∈ t, ∃ b ∈ l, r = blk b.off := by
  let m0 := bloc_set_next m freeblocs none
  have hm0 : m0 = m.write freeblocs { m freeblocs with next := none } := by
    simp [m0, bloc_set_next, hs]
  have hw0 : Walk m0 e 0 l := by
    refine Walk.frame hw (fun c _ => ?_)
    rw [hm0]
    exact hdr_write_other m _ _ (blk_ne_freeblocs _)
  obtain ⟨m', t, hk, ht, -⟩ := outer_trace_spec he l.length l m0 0 (le_refl _) hw0
  exact ⟨m', t, fun fuel hf => hk fuel (by omega), ht⟩

theorem aggregate_trace_zero (m : Mem) (fuel : Nat) (hf : 1 ≤ fuel) :
    m_aggregate_trace 0 fuel m = some (bloc_set_next m freeblocs none, blk 0, []) := by
  cases fuel with
  | zero => omega
  | succ n => simp [m_aggregate_trace, m_aggregate_outer_trace, memory_reserve, blk]

/-! ## Allocating again what was just freed -/

theorem Chain.call_offer {m : Mem} {fl : List Ptr}
    (hc : Chain m (bloc_get_next m freeblocs) fl) (o : Offer) (size : Nat) :
    Ret (fun fuel => call_get_offer o fuel m size) (get_offer_scan o m fl size) := by
  cases o with
  | m_get_best_fit => exact Chain.best_fit size SIZE_MAX none hc
  | m_get_first_fit => exact Chain.first_fit size hc

theorem best_fit_scan_keep {m : Mem} {size : Nat} : ∀ (l : List Ptr) (d : Nat) (q : Option Ptr),
    (∀ y ∈ l, ¬ (size ≤ (m y).size ∧ size_sub (m y).size size < d)) →
    best_fit_scan m size l d q = q
  | [], _, _, _ => rfl
  | p :: l, d, q, h => by
    unfold best_fit_scan
    have hp : ¬ ((m p).size ≥ size ∧ size_sub (m p).size size < d) := h p (by simp)
    rw [if_neg hp]
    exact best_fit_scan_keep l d q (fun y hy => h y (List.mem_cons_of_mem _ hy))

theorem Good.size_of_mem {M : Nat} {m : Mem} {bs : List Blk} {fl : List Ptr}
    (g : Good M m bs fl) {c : Blk} (hc : c ∈ bs) :
    (m (blk c.off)).size = c.size ∧ c.size ≤ M := by
  have h := Walk.bounds g.walk c hc
  refine ⟨?_, by omega⟩
  conv_rhs => rw [h.2.2.2]
  rfl

theorem offer_first_branch {M : Nat} {h : Heap} {size : Nat} {p : Ptr}
    (ho : Ret (fun fuel => call_get_offer h.get_offer fuel h.mem size) (some p)) :
    Ret (fun fuel => m_alloc_offer M fuel size h) (h.mem, some p) := by
  obtain ⟨k, hk⟩ := ho
  refine ⟨k, fun fuel => ?_⟩
  have := hk fuel
  simp only at this
  simp only [m_alloc_offer, this]
  split_ifs <;> rfl

theorem m_alloc_compose {M : Nat} {h : Heap} {s : Nat} {m1 m' : Mem} {p a : Ptr}
    (h1 : ¬ s > SIZE_MAX - BLOC_INFOS_SIZE) (h2 : ¬ s > size_sub M BLOC_INFOS_SIZE)
    (ho : Ret (fun fuel => m_alloc_offer M fuel (m_alloc_size s) h) (m1, some p))
    (hc : Ret (fun fuel => m_alloc_carve fuel (m_alloc_size s) m1 p) (m', a)) :
    Ret (fun fuel => m_alloc M fuel s h) (some a, ⟨m', h.get_offer⟩) := by
  obtain ⟨ko, hko⟩ := ho
  obtain ⟨kc, hkc⟩ := hc
  refine ⟨max ko kc, fun fuel => ?_⟩
  have q1 := hko fuel
  have q2 := hkc fuel
  simp only at q1 q2
  simp only [m_alloc, h1, h2, if_false, q1]
  by_cases c1 : ko ≤ fuel
  · by_cases c2 : kc ≤ fuel
    · simp only [c1, c2, q2, if_true, max_le_iff, and_self]
    · simp [c1, c2, q2]
  · simp [c1]

theorem Good.alloc_offer_scan {M : Nat} {h : Heap} {bs : List Blk} {fl : List Ptr}
    (g : Good M h.mem bs fl) (hM : M ≤ SIZE_MAX) (size : Nat) :
    ∃ m1 bs1 fl1, Good M m1 bs1 fl1 ∧
      Ret (fun fuel => m_alloc_offer M fuel size h)
        (m1, get_offer_scan h.get_offer m1 fl1 size) := by
  have hr0 := Chain.call_offer g.chain h.get_offer size
  cases hs : get_offer_scan h.get_offer h.mem fl size with
  | some p =>
    rw [hs] at hr0
    refine ⟨h.mem, bs, fl, g, ?_⟩
    rw [hs]
    exact offer_first_branch hr0
  | none =>
    rw [hs] at hr0
    obtain ⟨k0, hk0⟩ := hr0
    obtain ⟨m1, ⟨ka, hka⟩, g1⟩ := aggregate_spec hM g.walk g.head
    obtain ⟨k1, hk1⟩ := Chain.call_offer g1.chain h.get_offer size
    refine ⟨m1, _, _, g1, ⟨max k0 (max ka k1), fun fuel => ?_⟩⟩
    have q0 := hk0 fuel
    have qa := hka fuel
    have q1 := hk1 fuel
    simp only at q0 qa q1
    simp only [m_alloc_offer, q0, qa, q1]
    by_cases c0 : k0 ≤ fuel
    · by_cases ca : ka ≤ fuel
      · by_cases c1 : k1 ≤ fuel
        · simp [c0, ca, c1, q1]
        · simp [c0, ca, c1, q1]
      · simp [c0, ca]
    · simp [c0]

theorem Good.free_alloc_same {M : Nat} {h : Heap} {bs : List Blk} {fl : List Ptr}
    (g : Good M h.mem bs fl) (hM : M ≤ SIZE_MAX) {P Q : List Blk} {X : Blk}
    (hbs : bs = P ++ X :: Q) (hXa : X.avail = false) {s : Nat}
    (h1 : ¬ s > SIZE_MAX - BLOC_INFOS_SIZE) (h2 : ¬ s > size_sub M BLOC_INFOS_SIZE)
    (hsz : m_alloc_size s ≤ X.size) (hlt : X.size - m_alloc_size s < sizeof_bloc)
    (hmin : h.get_offer = Offer.m_get_best_fit → ∀ y ∈ fl,
      ¬ (m_alloc_size s ≤ (h.mem y).size ∧
        (h.mem y).size - m_alloc_size s < X.size - m_alloc_size s)) :
    ∃ m3, Ret (fun fuel => m_alloc M fuel s (m_free (some (blk (X.off + offsetof_u))) h))
        (some (blk (X.off + offsetof_u)), ⟨m3, h.get_offer⟩) ∧ Good M m3 bs fl := by
  have g2 := g.free_effect hbs hXa
  have hXm : X ∈ bs := by rw [hbs]; simp
  have hX' : (⟨X.off, X.size, true⟩ : Blk) ∈ P ++ ⟨X.off, X.size, true⟩ :: Q := by simp
  have hpsz := (g2.size_of_mem hX').1
  have hXM := (g.size_of_mem hXm).2
  simp only at hpsz
  have hoff : (m_free (some (blk (X.off + offsetof_u))) h).get_offer = h.get_offer := rfl
  -- sizes of the other free blocks are not changed by the release
  have hsame : ∀ y ∈ fl, ((m_free (some (blk (X.off + offsetof_u))) h).mem y).size
      = (h.mem y).size := by
    intro y hy
    obtain ⟨c, hc, hca, rfl, hcs, -⟩ := g.mem_fl hy
    rw [hcs]
    have hc2 : c ∈ P ++ ⟨X.off, X.size, true⟩ :: Q := by
      rw [hbs] at hc
      rcases List.mem_append.1 hc with hc | hc
      · exact List.mem_append_left _ hc
      · rcases List.mem_cons.1 hc with rfl | hc
        · rw [hXa] at hca; exact absurd hca (by decide)
        · exact List.mem_append_right _ (List.mem_cons_of_mem _ hc)
    exact (g2.size_of_mem hc2).1
  have hscan : get_offer_scan h.get_offer (m_free (some (blk (X.off + offsetof_u))) h).mem
      (blk X.off :: fl) (m_alloc_size s) = some (blk X.off) := by
    cases ho : h.get_offer with
    | m_get_first_fit =>
      simp only [get_offer_scan, List.find?_cons]
      rw [hpsz]
      simp [hsz]
    | m_get_best_fit =>
      simp only [get_offer_scan]
      unfold best_fit_scan
      rw [hpsz]
      have hslack : size_sub X.size (m_alloc_size s) = X.size - m_alloc_size s :=
        size_sub_eq hsz (le_trans hXM hM)
      have hq : X.size ≥ m_alloc_size s ∧ size_sub X.size (m_alloc_size s) < SIZE_MAX := by
        refine ⟨hsz, ?_⟩
        rw [hslack]
        have := m_alloc_size_pos h1
        have h24 : sizeof_bloc = 24 := rfl
        omega
      rw [if_pos hq]
      apply best_fit_scan_keep
      intro y hy hc
      rw [hsame y hy] at hc
      obtain ⟨c, hcm, -, -, hcs, -⟩ := g.mem_fl hy
      have hcM := (g.size_of_mem hcm).2
      rw [hslack, size_sub_eq hc.1 (by rw [hcs]; exact le_trans hcM hM)] at hc
      exact hmin ho y hy hc
  have hcall := Chain.call_offer g2.chain h.get_offer (m_alloc_size s)
  rw [hscan] at hcall
  have hoffer : Ret (fun fuel => m_alloc_offer M fuel (m_alloc_size s)
      (m_free (some (blk (X.off + offsetof_u))) h))
      ((m_free (some (blk (X.off + offsetof_u))) h).mem, some (blk X.off)) :=
    offer_first_branch hcall
  obtain ⟨m3, hcarve, g3⟩ := @Good.carve_whole _ _ _ _ g2 hM P Q ⟨X.off, X.size, true⟩ rfl rfl
    (m_alloc_size s) hsz hlt
  refine ⟨m3, m_alloc_compose h1 h2 hoffer hcarve, ?_⟩
  have e1 : (⟨X.off, X.size, false⟩ : Blk) = X := by
    cases X; simp only at hXa; subst hXa; rfl
  have e2 : (blk X.off :: fl).erase (blk X.off) = fl := List.erase_cons_head _ _
  simp only at g3
  rw [e1, e2, ← hbs] at g3
  exact g3

/-! ## Success does not depend on the strategy -/

theorem Good.alloc_none_iff {M : Nat} {h : Heap} {bs : List Blk} {fl : List Ptr}
    (g : Good M h.mem bs fl) (hM : M ≤ SIZE_MAX) {s : Nat}
    (h1 : ¬ s > SIZE_MAX - BLOC_INFOS_SIZE) (h2 : ¬ s > size_sub M BLOC_INFOS_SIZE) :
    ∃ r h', Ret (fun fuel => m_alloc M fuel s h) (r, h') ∧
      (r = none ↔ ∀ b ∈ spec_coalesce bs, b.avail = true → b.size < m_alloc_size s) := by
  obtain ⟨m1, r1, bs1, fl1, -, g1, hdis, hiff, hnone, hsome⟩ := g.alloc_effect hM h1 h2
  cases r1 with
  | none =>
    refine ⟨none, _, hnone rfl, ?_⟩
    rcases hdis with ⟨-, -, -, hne⟩ | ⟨-, rfl, -, -⟩
    · exact absurd rfl hne
    · simpa using hiff
  | some p =>
    obtain ⟨pre, b, post, m', hbs1, rfl, hba, hsz, hwhole, hsplit⟩ := hsome p rfl
    have hb1 : b ∈ bs1 := by rw [hbs1]; simp
    have hex : ∃ c ∈ spec_coalesce bs, c.avail = true ∧ m_alloc_size s ≤ c.size := by
      rcases hdis with ⟨-, rfl, -, -⟩ | ⟨-, rfl, -, -⟩
      · obtain ⟨c', hc', hca', hle⟩ := spec_coalesce_avail_le _ b hb1 hba
        exact ⟨c', hc', hca', le_trans hsz hle⟩
      · exact ⟨b, hb1, hba, hsz⟩
    have hrhs : ¬ ∀ b ∈ spec_coalesce bs, b.avail = true → b.size < m_alloc_size s := by
      intro hall
      obtain ⟨c', hc', hca', hle⟩ := hex
      have := hall c' hc' hca'
      omega
    by_cases hc : b.size - m_alloc_size s < sizeof_bloc
    · exact ⟨_, _, (hwhole hc).1, by simpa using hrhs⟩
    · exact ⟨_, _, (hsplit (by omega)).1, by simpa using hrhs⟩

/-! ## The partition and the free list are invariants -/

/-- C1. Partition invariant: in every configuration reachable from
`m_reserve` by `m_alloc`, `m_free` of live addresses, `m_toggle_offer` and
`m_aggregate`, the walk of the reserve from offset 0 by successive block sizes
(the walk of `m_print`) terminates and visits blocks whose sizes are all
non-zero and sum to exactly `M_SIZE`; the first block is at offset 0, every
block starts where the one before it ends and none extends past the end of
the reserve. -/
theorem partition_invariant (M_SIZE : Nat) (c : Config) (hM : M_SIZE ≤ SIZE_MAX)
    (hr : Reach M_SIZE c) :
    ∃ bs, Ret (fun fuel => m_print M_SIZE fuel c.1.mem) bs ∧
      (∀ b ∈ bs, b.size ≠ 0) ∧ (bs.map Blk.size).sum = M_SIZE ∧
      (∀ b ∈ bs.head?, b.off = 0) ∧ bs.Chain' (fun a b => a.off + a.size = b.off) ∧
      (∀ b ∈ bs, b.off + b.size ≤ M_SIZE) := by
  rcases hr.invariant hM with ⟨-, bs, fl, g, -⟩ | ⟨rfl, -⟩
  · refine ⟨bs, g.print_ret, fun b hb => ?_, ?_, (Walk.chain' g.walk).2, (Walk.chain' g.walk).1,
      fun b hb => (Walk.bounds g.walk b hb).2.1⟩
    · exact Nat.pos_iff_ne_zero.1 (Walk.bounds g.walk b hb).2.2.1
    · simpa using Walk.sum g.walk
  · exact ⟨[], print_zero _, by simp, by simp, by simp, by simp, by simp⟩

/-- C2. Free-list invariant: in every reachable configuration the traversal
of the list from the false head `freeblocs` terminates, a block of the
partition is in the list exactly once when its `available` flag is true and
not at all when it is false, the list has no repetition, and the false head is
not one of its elements. -/
theorem free_list_invariant (M_SIZE : Nat) (c : Config) (hM : M_SIZE ≤ SIZE_MAX)
    (hr : Reach M_SIZE c) :
    ∃ bs fl, Ret (fun fuel => m_print M_SIZE fuel c.1.mem) bs ∧
      Ret (fun fuel => free_list fuel c.1.mem) fl ∧
      (∀ b ∈ bs, blk b.off ∈ fl ↔ b.avail = true) ∧
      (∀ b ∈ bs, fl.count (blk b.off) = if b.avail = true then 1 else 0) ∧
      fl.Nodup ∧ freeblocs ∉ fl := by
  rcases hr.invariant hM with ⟨-, bs, fl, g, -⟩ | ⟨rfl, hi⟩
  · have hiff : ∀ b ∈ bs, blk b.off ∈ fl ↔ b.avail = true := by
      intro b hb
      rw [g.mem_iff]
      constructor
      · rintro ⟨b', hb', ha', e⟩
        have : b = b' := Walk.eq_of_off g.walk hb hb' (blk_inj.1 e)
        subst this
        exact ha'
      · exact fun ha => ⟨b, hb, ha, rfl⟩
    refine ⟨bs, fl, g.print_ret, g.free_list_ret, hiff, fun b hb => ?_, g.nodup, g.freeblocs_not_mem⟩
    by_cases ha : b.avail = true
    · rw [if_pos ha]
      exact List.count_eq_one_of_mem g.nodup ((hiff b hb).2 ha)
    · rw [if_neg ha]
      exact List.count_eq_zero_of_not_mem (fun hm => ha ((hiff b hb).1 hm))
  · obtain ⟨fl, hc, hfl⟩ := hi.chain
    refine ⟨[], fl, print_zero _, ⟨fl.length + 1, fun fuel => Chain.traverse hc fuel⟩,
      by simp, by simp, ?_, ?_⟩
    · rcases hfl with rfl | rfl <;> simp
    · rcases hfl with rfl | rfl
      · simp [blk, freeblocs]
      · simp

theorem partition_invariant_witness :
    80 ≤ SIZE_MAX ∧
    Reach 80 (after 80 [Op.alloc 5 15, Op.alloc 5 0, Op.free (some (blk 72)), Op.toggle,
      Op.alloc 5 30] (reserved 80)) ∧
    ∃ bs, Ret (fun fuel => m_print 80 fuel (after 80 [Op.alloc 5 15, Op.alloc 5 0,
        Op.free (some (blk 72)), Op.toggle, Op.alloc 5 30] (reserved 80)).1.mem) bs ∧
      (∀ b ∈ bs, b.size ≠ 0) ∧ (bs.map Blk.size).sum = 80 ∧
      (∀ b ∈ bs.head?, b.off = 0) ∧ bs.Chain' (fun a b => a.off + a.size = b.off) ∧
      (∀ b ∈ bs, b.off + b.size ≤ 80) :=
  ⟨by decide, Reach.after_reach _ (Reach.reserved_reach 80) (by decide),
    partition_invariant 80 _ (by decide) (Reach.after_reach _ (Reach.reserved_reach 80) (by decide))⟩

theorem free_list_invariant_witness :
    80 ≤ SIZE_MAX ∧
    Reach 80 (after 80 [Op.alloc 5 0, Op.alloc 5 0, Op.alloc 5 0, Op.free (some (blk 72)),
      Op.free (some (blk 48)), Op.aggregate 5] (reserved 80)) ∧
    ∃ bs fl, Ret (fun fuel => m_print 80 fuel (after 80 [Op.alloc 5 0, Op.alloc 5 0,
        Op.alloc 5 0, Op.free (some (blk 72)), Op.free (some (blk 48)), Op.aggregate 5]
        (reserved 80)).1.mem) bs ∧
      Ret (fun fuel => free_list fuel (after 80 [Op.alloc 5 0, Op.alloc 5 0,
        Op.alloc 5 0, Op.free (some (blk 72)), Op.free (some (blk 48)), Op.aggregate 5]
        (reserved 80)).1.mem) fl ∧
      (∀ b ∈ bs, blk b.off ∈ fl ↔ b.avail = true) ∧
      (∀ b ∈ bs, fl.count (blk b.off) = if b.avail = true then 1 else 0) ∧
      fl.Nodup ∧ freeblocs ∉ fl :=
  ⟨by decide, Reach.after_reach _ (Reach.reserved_reach 80) (by decide),
    free_list_invariant 80 _ (by decide) (Reach.after_reach _ (Reach.reserved_reach 80) (by decide))⟩

/-! ## The space `m_alloc` returns -/

/-- C3 (the code does not do this). With `M_SIZE = 80`, `m_alloc(15)` right
after `m_reserve` carves the block of size 24 at offset 56 and returns the
address at offset 72 of the reserve, which is the address `bloc_get_data_ptr`
gives for that block: the 15 bytes from there do not lie inside the block
(`(72 - 56) + 15 > 24`) and they end past the end of the reserve
(`72 + 15 > 80`). -/
theorem m_alloc_space_exceeds_block :
    (exec 80 (Op.alloc 5 15) (reserved 80)).map (fun c => c.2) = some [blk 72] ∧
    m_print 80 5 (after 80 [Op.alloc 5 15] (reserved 80)).1.mem
      = some [⟨0, 56, true⟩, ⟨56, 24, false⟩] ∧
    bloc_get_data_ptr (blk 56) = blk 72 ∧
    m_alloc_size 15 = 24 ∧
    ¬ ((72 - 56) + 15 ≤ 24) ∧ ¬ (72 + 15 ≤ 80) := by
  refine ⟨by decide, by decide, by decide, by decide, by decide, by decide⟩

/-! ## Allocation failures -/

/-- C5. Out of memory: in a reachable configuration, for a request `s` with
`s + BLOC_INFOS_SIZE ≤ M_SIZE`, `m_alloc(s)` returns, and it returns null
exactly when no maximal run of adjacent available blocks of the partition has
a total size of at least `max(s, BLOC_DATAS_SIZE_MIN) + BLOC_INFOS_SIZE`. -/
theorem out_of_memory_iff (M_SIZE : Nat) (c : Config) (s : Nat) (hM : M_SIZE ≤ SIZE_MAX)
    (hr : Reach M_SIZE c) (hs : s + BLOC_INFOS_SIZE ≤ M_SIZE) :
    ∃ r h' bs, Ret (fun fuel => m_alloc M_SIZE fuel s c.1) (r, h') ∧
      Ret (fun fuel => m_print M_SIZE fuel c.1.mem) bs ∧
      (r = none ↔ ∀ run, spec_maximal_run bs run →
        (run.map Blk.size).sum < max s BLOC_DATAS_SIZE_MIN + BLOC_INFOS_SIZE) := by
  have h9 : BLOC_INFOS_SIZE = 9 := rfl
  have hmax : SIZE_MAX = 2 ^ 64 - 1 := rfl
  have h1 : ¬ s > SIZE_MAX - BLOC_INFOS_SIZE := by rw [h9] at hs ⊢; omega
  have h2 : ¬ s > size_sub M_SIZE BLOC_INFOS_SIZE := by
    rw [size_sub_eq (by omega) hM]; omega
  rcases hr.invariant hM with ⟨-, bs, fl, g, -⟩ | ⟨rfl, -⟩
  · obtain ⟨m1, r1, bs1, fl1, -, g1, hdis, hiff, hnone, hsome⟩ := g.alloc_effect hM h1 h2
    rw [← m_alloc_size_eq h1]
    simp only [forall_runs_iff]
    cases r1 with
    | none =>
      refine ⟨none, _, bs, hnone rfl, g.print_ret, ?_⟩
      rcases hdis with ⟨-, -, -, hne⟩ | ⟨-, rfl, -, -⟩
      · exact absurd rfl hne
      · simpa using hiff
    | some p =>
      obtain ⟨pre, b, post, m', hbs1, rfl, hba, hsz, hwhole, hsplit⟩ := hsome p rfl
      have hb1 : b ∈ bs1 := by rw [hbs1]; simp
      have hex : ∃ c ∈ spec_coalesce bs, c.avail = true ∧ m_alloc_size s ≤ c.size := by
        rcases hdis with ⟨-, rfl, -, -⟩ | ⟨-, rfl, -, -⟩
        · obtain ⟨c', hc', hca', hle⟩ := spec_coalesce_avail_le _ b hb1 hba
          exact ⟨c', hc', hca', le_trans hsz hle⟩
        · exact ⟨b, hb1, hba, hsz⟩
      have hrhs : ¬ ∀ b ∈ spec_coalesce bs, b.avail = true → b.size < m_alloc_size s := by
        intro hall
        obtain ⟨c', hc', hca', hle⟩ := hex
        have := hall c' hc' hca'
        omega
      by_cases hc : b.size - m_alloc_size s < sizeof_bloc
      · exact ⟨_, _, bs, (hwhole hc).1, g.print_ret, by simpa using hrhs⟩
      · exact ⟨_, _, bs, (hsplit (by omega)).1, g.print_ret, by simpa using hrhs⟩
  · rw [h9] at hs; omega

theorem out_of_memory_iff_witness :
    80 ≤ SIZE_MAX ∧
    Reach 80 (after 80 [Op.alloc 5 0, Op.alloc 5 0, Op.alloc 5 0, Op.free (some (blk 72))]
      (reserved 80)) ∧
    40 + BLOC_INFOS_SIZE ≤ 80 ∧
    ∃ r h' bs, Ret (fun fuel => m_alloc 80 fuel 40 (after 80 [Op.alloc 5 0, Op.alloc 5 0,
        Op.alloc 5 0, Op.free (some (blk 72))] (reserved 80)).1) (r, h') ∧
      Ret (fun fuel => m_print 80 fuel (after 80 [Op.alloc 5 0, Op.alloc 5 0,
        Op.alloc 5 0, Op.free (some (blk 72))] (reserved 80)).1.mem) bs ∧
      (r = none ↔ ∀ run, spec_maximal_run bs run →
        (run.map Blk.size).sum < max 40 BLOC_DATAS_SIZE_MIN + BLOC_INFOS_SIZE) :=
  ⟨by decide, Reach.after_reach _ (Reach.reserved_reach 80) (by decide), by decide,
    out_of_memory_iff 80 _ 40 (by decide)
      (Reach.after_reach _ (Reach.reserved_reach 80) (by decide)) (by decide)⟩

/-- C6. Overflow rejection: in every state, for every `s` greater than
`M_SIZE - BLOC_INFOS_SIZE` (this includes every `s` for which
`s + BLOC_INFOS_SIZE` wraps around), `m_alloc(s)` returns null and leaves the
whole state unchanged; it does so with no fuel at all, so that no loop and in
particular no coalescing pass is run. -/
theorem overflow_rejected (M_SIZE fuel s : Nat) (h : Heap) (h9 : BLOC_INFOS_SIZE ≤ M_SIZE)
    (hM : M_SIZE ≤ SIZE_MAX) (hs : M_SIZE - BLOC_INFOS_SIZE < s) :
    m_alloc M_SIZE fuel s h = some (none, h) ∧ m_alloc M_SIZE 0 s h = some (none, h) := by
  have key : ∀ n, m_alloc M_SIZE n s h = some (none, h) := by
    intro n
    unfold m_alloc
    by_cases h1 : s > SIZE_MAX - BLOC_INFOS_SIZE
    · rw [if_pos h1]
    · rw [if_neg h1, if_pos (by rw [size_sub_eq h9 hM]; exact hs)]
  exact ⟨key fuel, key 0⟩

theorem overflow_rejected_witness :
    BLOC_INFOS_SIZE ≤ 80 ∧ 80 ≤ SIZE_MAX ∧ 80 - BLOC_INFOS_SIZE < 72 ∧
    m_alloc 80 7 72 (reserved 80).1 = some (none, (reserved 80).1) ∧
    m_alloc 80 0 72 (reserved 80).1 = some (none, (reserved 80).1) :=
  ⟨by decide, by decide, by decide,
    overflow_rejected 80 7 72 (reserved 80).1 (by decide) (by decide) (by decide)⟩

/-! ## Freed space is reusable -/

/-- C7. Round trip: in a reachable configuration, with either strategy, if
`m_alloc(n)` returns a non-null address `a`, then `m_free(a)` followed
immediately by `m_alloc(n)` returns a non-null address. -/
theorem freed_space_reusable (M_SIZE : Nat) (c : Config) (fuel n : Nat) (a : Ptr) (h1 : Heap)
    (hM : M_SIZE ≤ SIZE_MAX) (hr : Reach M_SIZE c)
    (ha : m_alloc M_SIZE fuel n c.1 = some (some a, h1)) :
    ∃ a' h2, Ret (fun fuel => m_alloc M_SIZE fuel n (m_free (some a) h1)) (some a', h2) := by
  have hov1 : ¬ n > SIZE_MAX - BLOC_INFOS_SIZE := by
    intro hlt
    simp [m_alloc, hlt] at ha
  have hov2 : ¬ n > size_sub M_SIZE BLOC_INFOS_SIZE := by
    intro hlt
    simp [m_alloc, hov1, hlt] at ha
  rcases hr.invariant hM with ⟨-, bs, fl, g, -⟩ | ⟨rfl, hi⟩
  · -- the block carved by the first call
    have hcarved : ∃ bs' fl' pre b post, Good M_SIZE h1.mem bs' fl' ∧ bs' = pre ++ b :: post ∧
        b.avail = false ∧ a = bloc_get_data_ptr (blk b.off) ∧ m_alloc_size n ≤ b.size := by
      obtain ⟨m1, r1, bs1, fl1, -, g1, -, -, hnone, hsome⟩ := g.alloc_effect hM hov1 hov2
      cases r1 with
      | none =>
        have := (hnone rfl).unique ha
        simp at this
      | some p =>
        obtain ⟨pre, b, post, m', hbs1, rfl, hba, hsz, hwhole, hsplit⟩ := hsome p rfl
        by_cases hc : b.size - m_alloc_size n < sizeof_bloc
        · obtain ⟨hret, g'⟩ := hwhole hc
          have := hret.unique ha
          simp only [Prod.mk.injEq, Option.some.injEq] at this
          obtain ⟨rfl, rfl⟩ := this
          exact ⟨_, _, pre, ⟨b.off, b.size, false⟩, post, g', rfl, rfl, rfl, hsz⟩
        · obtain ⟨hret, g'⟩ := hsplit (by omega)
          have := hret.unique ha
          simp only [Prod.mk.injEq, Option.some.injEq] at this
          obtain ⟨rfl, rfl⟩ := this
          refine ⟨_, _, pre ++ [⟨b.off, b.size - m_alloc_size n, true⟩],
            ⟨b.off + (b.size - m_alloc_size n), m_alloc_size n, false⟩, post, g', by simp,
            rfl, rfl, le_refl _⟩
    obtain ⟨bs', fl', pre, b, post, g', hbs', hba, rfl, hsz⟩ := hcarved
    have g2 := g'.free_effect hbs' hba
    obtain ⟨m1, r1, bs1, fl1, -, g1, hdis, hiff, hnone, hsome⟩ :=
      g2.alloc_effect (s := n) hM hov1 hov2
    have hbig : (⟨b.off, b.size, true⟩ : Blk) ∈ pre ++ ⟨b.off, b.size, true⟩ :: post := by simp
    cases r1 with
    | none =>
      exfalso
      rcases hdis with ⟨-, -, -, hne⟩ | ⟨hall, -, -, -⟩
      · exact hne rfl
      · have := hall _ hbig rfl
        simp only at this
        omega
    | some p =>
      obtain ⟨pre', b', post', m', -, -, -, -, hwhole, hsplit⟩ := hsome p rfl
      by_cases hc : b'.size - m_alloc_size n < sizeof_bloc
      · exact ⟨_, _, (hwhole hc).1⟩
      · exact ⟨_, _, (hsplit (by omega)).1⟩
  · have := (hi.alloc_zero hov1 hov2).unique ha
    simp at this

theorem freed_space_reusable_witness :
    80 ≤ SIZE_MAX ∧
    Reach 80 (after 80 [Op.alloc 5 15, Op.toggle] (reserved 80)) ∧
    (m_alloc 80 5 30 (after 80 [Op.alloc 5 15, Op.toggle] (reserved 80)).1).map Prod.fst
      = some (some (blk 16)) ∧
    ∃ a' h2, Ret (fun fuel => m_alloc 80 fuel 30 (m_free (some (blk 16))
      (after 80 [Op.alloc 5 15, Op.toggle, Op.alloc 5 30] (reserved 80)).1)) (some a', h2) :=
  ⟨by decide, Reach.after_reach _ (Reach.reserved_reach 80) (by decide), by decide,
    freed_space_reusable 80 (after 80 [Op.alloc 5 15, Op.toggle] (reserved 80)) 5 30 (blk 16)
      (after 80 [Op.alloc 5 15, Op.toggle, Op.alloc 5 30] (reserved 80)).1 (by decide)
      (Reach.after_reach _ (Reach.reserved_reach 80) (by decide)) rfl⟩

/-! ## The coalescing pass -/

/-- C8. Coalescing postcondition: from every state whose reserve is
partitioned into blocks `bs` (each of at least `sizeof(bloc)` bytes, so that
no two headers overlap, with sizes which sum to `M_SIZE`), whatever the free
list holds, `m_aggregate` returns; afterwards the partition is
`spec_coalesce bs`, whose available blocks are exactly the blocks into which
the maximal runs of adjacent available blocks of `bs` are merged (at the start
of the run, of the summed size: no two adjacent blocks of the result are both
available), whose unavailable blocks are those of `bs` with their offset, size
and flag, and the free list holds exactly the available blocks of the result;
the blocks of the result are again of at least `sizeof(bloc)` bytes. -/
theorem aggregate_postcondition (M_SIZE : Nat) (m : Mem) (bs : List Blk)
    (hM : M_SIZE ≤ SIZE_MAX) (hp : Ret (fun fuel => m_print M_SIZE fuel m) bs)
    (hmin : ∀ b ∈ bs, sizeof_bloc ≤ b.size) (hsum : (bs.map Blk.size).sum = M_SIZE)
    (hs : (m freeblocs).available = true) :
    ∃ m' fl, Ret (fun fuel => m_aggregate M_SIZE fuel m) m' ∧
      Ret (fun fuel => m_print M_SIZE fuel m') (spec_coalesce bs) ∧
      Ret (fun fuel => free_list fuel m') fl ∧
      (∀ c, (c ∈ spec_coalesce bs ∧ c.avail = true) ↔
        ∃ run, spec_maximal_run bs run ∧ spec_merged run = some c) ∧
      (spec_coalesce bs).Chain' (fun a b => ¬ (a.avail = true ∧ b.avail = true)) ∧
      (spec_coalesce bs).filter (fun b => !b.avail) = bs.filter (fun b => !b.avail) ∧
      (∀ b ∈ bs, b.avail = false → b ∈ spec_coalesce bs) ∧
      fl.Nodup ∧
      (∀ p, p ∈ fl ↔ ∃ b ∈ spec_coalesce bs, b.avail = true ∧ p = blk b.off) ∧
      (∀ b ∈ spec_coalesce bs, sizeof_bloc ≤ b.size) := by
  have hnz : ∀ b ∈ bs, b.size ≠ 0 := fun b hb => by
    have := hmin b hb
    have h24 : sizeof_bloc = 24 := rfl
    omega
  obtain ⟨n, hn⟩ := hp.exists_fuel
  have hw : Walk m M_SIZE 0 bs :=
    Walk.of_print (hn n (le_refl _)) hnz (by simpa using hsum)
  obtain ⟨m', hret, g'⟩ := aggregate_spec hM hw hs
  refine ⟨m', _, hret, g'.print_ret, g'.free_list_ret, spec_coalesce_runs bs,
    spec_coalesce_chain bs, spec_coalesce_filter_unavail bs,
    fun b hb hba => spec_coalesce_unavail_mem bs b hb hba, g'.nodup, g'.mem_iff,
    fun c hc => ?_⟩
  obtain ⟨b, hb, hle⟩ := spec_coalesce_size_ge bs c hc
  exact le_trans (hmin b hb) hle

theorem aggregate_postcondition_witness :
    72 ≤ SIZE_MAX ∧
    m_print 72 4 three_blocks = some three_blocks_partition ∧
    (∀ b ∈ three_blocks_partition, sizeof_bloc ≤ b.size) ∧
    (three_blocks_partition.map Blk.size).sum = 72 ∧
    (three_blocks freeblocs).available = true ∧
    free_list 4 three_blocks = some [blk 24] ∧
    spec_coalesce three_blocks_partition = [⟨0, 48, true⟩, ⟨48, 24, false⟩] ∧
    (m_aggregate 72 4 three_blocks).bind (fun m => m_print 72 4 m)
      = some [⟨0, 48, true⟩, ⟨48, 24, false⟩] ∧
    (m_aggregate 72 4 three_blocks).bind (fun m => free_list 4 m) = some [blk 0] ∧
    ∃ m' fl, Ret (fun fuel => m_aggregate 72 fuel three_blocks) m' ∧
      Ret (fun fuel => m_print 72 fuel m') (spec_coalesce three_blocks_partition) ∧
      Ret (fun fuel => free_list fuel m') fl ∧
      (∀ c, (c ∈ spec_coalesce three_blocks_partition ∧ c.avail = true) ↔
        ∃ run, spec_maximal_run three_blocks_partition run ∧ spec_merged run = some c) ∧
      (spec_coalesce three_blocks_partition).Chain'
        (fun a b => ¬ (a.avail = true ∧ b.avail = true)) ∧
      (spec_coalesce three_blocks_partition).filter (fun b => !b.avail)
        = three_blocks_partition.filter (fun b => !b.avail) ∧
      (∀ b ∈ three_blocks_partition, b.avail = false →
        b ∈ spec_coalesce three_blocks_partition) ∧
      fl.Nodup ∧
      (∀ p, p ∈ fl ↔
        ∃ b ∈ spec_coalesce three_blocks_partition, b.avail = true ∧ p = blk b.off) ∧
      (∀ b ∈ spec_coalesce three_blocks_partition, sizeof_bloc ≤ b.size) :=
  ⟨by decide, by decide, by decide, by decide, by decide, by decide, by decide, by decide,
    by decide,
    aggregate_postcondition 72 three_blocks three_blocks_partition (by decide)
      ⟨4, fun fuel => Walk.print
        (by decide : Walk three_blocks 72 0 three_blocks_partition) fuel⟩
      (by decide) (by decide) (by decide)⟩

/-! ## Carving the block out of the offer -/

/-- C9. Split allocates the tail: in a reachable configuration, when
`m_alloc(s)` succeeds by choosing the free block `p` (in the memory `m1` in
which the offer was made) and `size(p) - required` is at least `sizeof(bloc)`,
with `required = max(s, BLOC_DATAS_SIZE_MIN) + BLOC_INFOS_SIZE`, then
afterwards `p` is at the same offset, still available, its size is decreased
by exactly `required`, the free list is the same list in the same order, and
the returned address is the data address of a new unavailable block of size
`required` which starts at `start(p) + new size(p)` and ends where `p` ended;
the other blocks are unchanged. -/
theorem split_allocates_tail (M_SIZE : Nat) (c : Config) (fuel s : Nat) (a : Ptr) (h' : Heap)
    (m1 : Mem) (p : Ptr) (hM : M_SIZE ≤ SIZE_MAX) (hr : Reach M_SIZE c)
    (ha : m_alloc M_SIZE fuel s c.1 = some (some a, h'))
    (ho : m_alloc_offer M_SIZE fuel (m_alloc_size s) c.1 = some (m1, some p))
    (hsplit : sizeof_bloc ≤ bloc_get_size m1 p - m_alloc_size s) :
    m_alloc_size s = max s BLOC_DATAS_SIZE_MIN + BLOC_INFOS_SIZE ∧
    ∃ pre b post fl, p = blk b.off ∧ b.avail = true ∧
      Ret (fun fuel => m_print M_SIZE fuel m1) (pre ++ b :: post) ∧
      Ret (fun fuel => free_list fuel m1) fl ∧ p ∈ fl ∧
      a = bloc_get_data_ptr (blk (b.off + (b.size - m_alloc_size s))) ∧
      Ret (fun fuel => m_print M_SIZE fuel h'.mem)
        (pre ++ ⟨b.off, b.size - m_alloc_size s, true⟩ ::
          ⟨b.off + (b.size - m_alloc_size s), m_alloc_size s, false⟩ :: post) ∧
      Ret (fun fuel => free_list fuel h'.mem) fl ∧
      b.off + (b.size - m_alloc_size s) + m_alloc_size s = b.off + b.size ∧
      h'.get_offer = c.1.get_offer := by
  have hov1 : ¬ s > SIZE_MAX - BLOC_INFOS_SIZE := by
    intro hlt
    simp [m_alloc, hlt] at ha
  have hov2 : ¬ s > size_sub M_SIZE BLOC_INFOS_SIZE := by
    intro hlt
    simp [m_alloc, hov1, hlt] at ha
  refine ⟨m_alloc_size_eq hov1, ?_⟩
  rcases hr.invariant hM with ⟨-, bs, fl, g, -⟩ | ⟨rfl, hi⟩
  · obtain ⟨m1', r1, bs1, fl1, hoffer, g1, -, -, -, hsome⟩ := g.alloc_effect hM hov1 hov2
    have := hoffer.unique ho
    simp only [Prod.mk.injEq] at this
    obtain ⟨rfl, rfl⟩ := this
    obtain ⟨pre, b, post, m', hbs1, hpb, hba, hsz, -, hsp⟩ := hsome p rfl
    subst hbs1
    have hpfl : p ∈ fl1 := (g1.mem_iff p).2 ⟨b, by simp, hba, hpb⟩
    have hps : bloc_get_size m1 p = b.size := by
      obtain ⟨b', hb', -, e, hsize, -⟩ := g1.mem_fl hpfl
      have : b' = b := Walk.eq_of_off g1.walk hb' (by simp) (blk_inj.1 (e.symm.trans hpb))
      rw [← this]; exact hsize
    rw [hps] at hsplit
    obtain ⟨hret, g'⟩ := hsp hsplit
    have := hret.unique ha
    simp only [Prod.mk.injEq, Option.some.injEq] at this
    obtain ⟨rfl, rfl⟩ := this
    exact ⟨pre, b, post, fl1, hpb, hba, g1.print_ret, g1.free_list_ret, hpfl, rfl, g'.print_ret,
      g'.free_list_ret, by omega, rfl⟩
  · have := (hi.alloc_zero hov1 hov2).unique ha
    simp at this

theorem split_allocates_tail_witness :
    80 ≤ SIZE_MAX ∧ Reach 80 (reserved 80) ∧
    (m_alloc 80 5 15 (reserved 80).1).map Prod.fst = some (some (blk 72)) ∧
    (m_alloc_offer 80 5 (m_alloc_size 15) (reserved 80).1).map Prod.snd
      = some (some (blk 0)) ∧
    sizeof_bloc ≤ bloc_get_size (reserved 80).1.mem (blk 0) - m_alloc_size 15 ∧
    m_print 80 5 (after 80 [Op.alloc 5 15] (reserved 80)).1.mem
      = some [⟨0, 56, true⟩, ⟨56, 24, false⟩] ∧
    free_list 5 (after 80 [Op.alloc 5 15] (reserved 80)).1.mem = some [blk 0] ∧
    m_alloc_size 15 = max 15 BLOC_DATAS_SIZE_MIN + BLOC_INFOS_SIZE ∧
    ∃ pre b post fl, blk 0 = blk b.off ∧ b.avail = true ∧
      Ret (fun fuel => m_print 80 fuel (reserved 80).1.mem) (pre ++ b :: post) ∧
      Ret (fun fuel => free_list fuel (reserved 80).1.mem) fl ∧ blk 0 ∈ fl ∧
      blk 72 = bloc_get_data_ptr (blk (b.off + (b.size - m_alloc_size 15))) ∧
      Ret (fun fuel => m_print 80 fuel (after 80 [Op.alloc 5 15] (reserved 80)).1.mem)
        (pre ++ ⟨b.off, b.size - m_alloc_size 15, true⟩ ::
          ⟨b.off + (b.size - m_alloc_size 15), m_alloc_size 15, false⟩ :: post) ∧
      Ret (fun fuel => free_list fuel (after 80 [Op.alloc 5 15] (reserved 80)).1.mem) fl ∧
      b.off + (b.size - m_alloc_size 15) + m_alloc_size 15 = b.off + b.size ∧
      (after 80 [Op.alloc 5 15] (reserved 80)).1.get_offer = (reserved 80).1.get_offer :=
  ⟨by decide, Reach.reserved_reach 80, by decide, by decide, by decide, by decide, by decide,
    split_allocates_tail 80 (reserved 80) 5 15 (blk 72)
      (after 80 [Op.alloc 5 15] (reserved 80)).1 (reserved 80).1.mem (blk 0) (by decide)
      (Reach.reserved_reach 80) rfl rfl (by decide)⟩

/-- C10. No split below the minimum block: in a reachable configuration, when
`m_alloc(s)` succeeds by choosing the free block `p` and `size(p) - required`
is less than `sizeof(bloc)`, the whole of `p` is handed over: afterwards `p`
is at the same offset with its size unchanged (at least `required`), it is
unavailable, the free list is the former list without `p`, the other elements
in the same order, and the returned address is the data address of `p`; the
other blocks are unchanged. -/
theorem no_split_below_minimum (M_SIZE : Nat) (c : Config) (fuel s : Nat) (a : Ptr)
    (h' : Heap) (m1 : Mem) (p : Ptr) (hM : M_SIZE ≤ SIZE_MAX) (hr : Reach M_SIZE c)
    (ha : m_alloc M_SIZE fuel s c.1 = some (some a, h'))
    (ho : m_alloc_offer M_SIZE fuel (m_alloc_size s) c.1 = some (m1, some p))
    (hwhole : bloc_get_size m1 p - m_alloc_size s < sizeof_bloc) :
    m_alloc_size s = max s BLOC_DATAS_SIZE_MIN + BLOC_INFOS_SIZE ∧
    ∃ pre b post fl, p = blk b.off ∧ b.avail = true ∧ m_alloc_size s ≤ b.size ∧
      Ret (fun fuel => m_print M_SIZE fuel m1) (pre ++ b :: post) ∧
      Ret (fun fuel => free_list fuel m1) fl ∧ fl.count p = 1 ∧
      a = bloc_get_data_ptr p ∧
      Ret (fun fuel => m_print M_SIZE fuel h'.mem) (pre ++ ⟨b.off, b.size, false⟩ :: post) ∧
      Ret (fun fuel => free_list fuel h'.mem) (fl.filter (fun q => q != p)) ∧
      h'.get_offer = c.1.get_offer := by
  have hov1 : ¬ s > SIZE_MAX - BLOC_INFOS_SIZE := by
    intro hlt
    simp [m_alloc, hlt] at ha
  have hov2 : ¬ s > size_sub M_SIZE BLOC_INFOS_SIZE := by
    intro hlt
    simp [m_alloc, hov1, hlt] at ha
  refine ⟨m_alloc_size_eq hov1, ?_⟩
  rcases hr.invariant hM with ⟨-, bs, fl, g, -⟩ | ⟨rfl, hi⟩
  · obtain ⟨m1', r1, bs1, fl1, hoffer, g1, -, -, -, hsome⟩ := g.alloc_effect hM hov1 hov2
    have := hoffer.unique ho
    simp only [Prod.mk.injEq] at this
    obtain ⟨rfl, rfl⟩ := this
    obtain ⟨pre, b, post, m', hbs1, hpb, hba, hsz, hwh, -⟩ := hsome p rfl
    subst hbs1
    have hpfl : p ∈ fl1 := (g1.mem_iff p).2 ⟨b, by simp, hba, hpb⟩
    have hps : bloc_get_size m1 p = b.size := by
      obtain ⟨b', hb', -, e, hsize, -⟩ := g1.mem_fl hpfl
      have : b' = b := Walk.eq_of_off g1.walk hb' (by simp) (blk_inj.1 (e.symm.trans hpb))
      rw [← this]; exact hsize
    rw [hps] at hwhole
    obtain ⟨hret, g'⟩ := hwh hwhole
    have := hret.unique ha
    simp only [Prod.mk.injEq, Option.some.injEq] at this
    obtain ⟨rfl, rfl⟩ := this
    refine ⟨pre, b, post, fl1, hpb, hba, hsz, g1.print_ret, g1.free_list_ret,
      List.count_eq_one_of_mem g1.nodup hpfl, by rw [hpb], g'.print_ret, ?_, rfl⟩
    rw [← List.Nodup.erase_eq_filter g1.nodup]
    exact g'.free_list_ret
  · have := (hi.alloc_zero hov1 hov2).unique ha
    simp at this

theorem no_split_below_minimum_witness :
    80 ≤ SIZE_MAX ∧ Reach 80 (after 80 [Op.alloc 5 0, Op.alloc 5 0] (reserved 80)) ∧
    (m_alloc 80 5 0 (after 80 [Op.alloc 5 0, Op.alloc 5 0] (reserved 80)).1).map Prod.fst
      = some (some (blk 16)) ∧
    (m_alloc_offer 80 5 (m_alloc_size 0)
      (after 80 [Op.alloc 5 0, Op.alloc 5 0] (reserved 80)).1).map Prod.snd
      = some (some (blk 0)) ∧
    bloc_get_size (after 80 [Op.alloc 5 0, Op.alloc 5 0] (reserved 80)).1.mem (blk 0)
      - m_alloc_size 0 < sizeof_bloc ∧
    m_print 80 5 (after 80 [Op.alloc 5 0, Op.alloc 5 0, Op.alloc 5 0] (reserved 80)).1.mem
      = some [⟨0, 32, false⟩, ⟨32, 24, false⟩, ⟨56, 24, false⟩] ∧
    free_list 5 (after 80 [Op.alloc 5 0, Op.alloc 5 0, Op.alloc 5 0] (reserved 80)).1.mem
      = some [] ∧
    m_alloc_size 0 = max 0 BLOC_DATAS_SIZE_MIN + BLOC_INFOS_SIZE ∧
    ∃ pre b post fl, blk 0 = blk b.off ∧ b.avail = true ∧ m_alloc_size 0 ≤ b.size ∧
      Ret (fun fuel => m_print 80 fuel
        (after 80 [Op.alloc 5 0, Op.alloc 5 0] (reserved 80)).1.mem) (pre ++ b :: post) ∧
      Ret (fun fuel => free_list fuel
        (after 80 [Op.alloc 5 0, Op.alloc 5 0] (reserved 80)).1.mem) fl ∧
      fl.count (blk 0) = 1 ∧ blk 16 = bloc_get_data_ptr (blk 0) ∧
      Ret (fun fuel => m_print 80 fuel
        (after 80 [Op.alloc 5 0, Op.alloc 5 0, Op.alloc 5 0] (reserved 80)).1.mem)
        (pre ++ ⟨b.off, b.size, false⟩ :: post) ∧
      Ret (fun fuel => free_list fuel
        (after 80 [Op.alloc 5 0, Op.alloc 5 0, Op.alloc 5 0] (reserved 80)).1.mem)
        (fl.filter (fun q => q != blk 0)) ∧
      (after 80 [Op.alloc 5 0, Op.alloc 5 0, Op.alloc 5 0] (reserved 80)).1.get_offer
        = (after 80 [Op.alloc 5 0, Op.alloc 5 0] (reserved 80)).1.get_offer :=
  ⟨by decide, Reach.after_reach _ (Reach.reserved_reach 80) (by decide), by decide, by decide,
    by decide, by decide, by decide,
    no_split_below_minimum 80 (after 80 [Op.alloc 5 0, Op.alloc 5 0] (reserved 80)) 5 0
      (blk 16) (after 80 [Op.alloc 5 0, Op.alloc 5 0, Op.alloc 5 0] (reserved 80)).1
      (after 80 [Op.alloc 5 0, Op.alloc 5 0] (reserved 80)).1.mem (blk 0) (by decide)
      (Reach.after_reach _ (Reach.reserved_reach 80) (by decide)) rfl rfl (by decide)⟩

/-! ## Allocated blocks are left alone -/

/-- C4. Frame: in a reachable configuration, a block of the partition which is
unavailable is still a block of the partition, at the same offset, with the
same size and still unavailable, after any of the calls `m_alloc(s)` for any
`s` (whether it succeeds, fails, or runs the coalescing pass), `m_aggregate`,
`m_toggle_offer`, `m_free(NULL)` and `m_free` of a live address other than the
data address of that block; and each of these calls returns. -/
theorem allocated_blocks_frame (M_SIZE : Nat) (c : Config) (op : Op) (bs : List Blk)
    (b : Blk) (hM : M_SIZE ≤ SIZE_MAX) (hr : Reach M_SIZE c)
    (hp : Ret (fun fuel => m_print M_SIZE fuel c.1.mem) bs) (hb : b ∈ bs)
    (hba : b.avail = false) (hop : op ≠ Op.free (some (bloc_get_data_ptr (blk b.off))))
    (hlive : ∀ a, op = Op.free (some a) → a ∈ c.2) :
    (∃ n, ∀ fuel, n ≤ fuel → (exec M_SIZE (op.with_fuel fuel) c).isSome = true) ∧
    ∀ c', exec M_SIZE op c = some c' →
      ∃ bs', Ret (fun fuel => m_print M_SIZE fuel c'.1.mem) bs' ∧ b ∈ bs' := by
  refine ⟨hr.exec_returns hM op hlive, fun c' he => ?_⟩
  obtain ⟨n, hn⟩ := hp.exists_fuel
  rcases hr.invariant hM with ⟨-, bs0, fl, g, hl⟩ | ⟨rfl, -⟩
  · have hbs : bs0 = bs := (g.print_ret.unique (hn n (le_refl _))).symm
    subst hbs
    obtain ⟨h, live⟩ := c
    cases op with
    | alloc fuel s =>
      simp only [exec] at he
      cases hres : m_alloc M_SIZE fuel s h with
      | none => simp [hres] at he
      | some x =>
        obtain ⟨r, h'⟩ := x
        have hc' : c'.1 = h' := by
          cases r with
          | none =>
            simp only [hres, Option.some.injEq] at he
            rw [← he]
          | some a =>
            simp only [hres, Option.some.injEq] at he
            rw [← he]
        rw [hc']
        by_cases h1 : s > SIZE_MAX - BLOC_INFOS_SIZE
        · simp only [m_alloc, h1, if_true, Option.some.injEq, Prod.mk.injEq] at hres
          rw [← hres.2]
          exact ⟨bs0, g.print_ret, hb⟩
        by_cases h2 : s > size_sub M_SIZE BLOC_INFOS_SIZE
        · simp only [m_alloc, h1, h2, if_true, if_false, Option.some.injEq,
            Prod.mk.injEq] at hres
          rw [← hres.2]
          exact ⟨bs0, g.print_ret, hb⟩
        obtain ⟨m1, r1, bs1, fl1, -, g1, hdis, -, hnone, hsome⟩ := g.alloc_effect hM h1 h2
        have hb1 : b ∈ bs1 := by
          rcases hdis with ⟨-, rfl, -, -⟩ | ⟨-, rfl, -, -⟩
          · exact hb
          · exact spec_coalesce_unavail_mem _ b hb hba
        cases r1 with
        | none =>
          have := (hnone rfl).unique hres
          simp only [Prod.mk.injEq] at this
          rw [this.2]
          exact ⟨bs1, g1.print_ret, hb1⟩
        | some p =>
          obtain ⟨pre, b0, post, m', hbs1, -, hb0a, -, hwhole, hsplit⟩ := hsome p rfl
          subst hbs1
          have hmem : ∀ mid : List Blk, b ∈ pre ++ mid ++ post := by
            intro mid
            rcases List.mem_append.1 hb1 with h'' | h''
            · simp [h'']
            · rcases List.mem_cons.1 h'' with rfl | h''
              · rw [hb0a] at hba; simp at hba
              · simp [h'']
          by_cases hc : b0.size - m_alloc_size s < sizeof_bloc
          · obtain ⟨hret, g'⟩ := hwhole hc
            have := hret.unique hres
            simp only [Prod.mk.injEq] at this
            rw [this.2]
            exact ⟨_, g'.print_ret, by simpa using hmem [⟨b0.off, b0.size, false⟩]⟩
          · obtain ⟨hret, g'⟩ := hsplit (by omega)
            have := hret.unique hres
            simp only [Prod.mk.injEq] at this
            rw [this.2]
            exact ⟨_, g'.print_ret, by
              simpa using hmem [⟨b0.off, b0.size - m_alloc_size s, true⟩,
                ⟨b0.off + (b0.size - m_alloc_size s), m_alloc_size s, false⟩]⟩
    | free ptr =>
      cases ptr with
      | none =>
        simp only [exec, m_free, Option.some.injEq] at he
        rw [← he]
        exact ⟨bs0, g.print_ret, hb⟩
      | some a =>
        simp only [exec] at he
        split_ifs at he with ha
        simp only [Option.some.injEq] at he
        rw [← he]
        obtain ⟨b0, hb0, hb0a, rfl⟩ := hl.2 a ha
        obtain ⟨pre, post, hsplit⟩ := List.append_of_mem hb0
        have g' := g.free_effect hsplit hb0a
        refine ⟨_, g'.print_ret, ?_⟩
        subst hsplit
        rcases List.mem_append.1 hb with h'' | h''
        · simp [h'']
        · rcases List.mem_cons.1 h'' with rfl | h''
          · exact absurd rfl hop
          · simp [h'']
    | toggle =>
      simp only [exec, Option.some.injEq] at he
      rw [← he]
      exact ⟨bs0, g.toggle_good.print_ret, hb⟩
    | aggregate fuel =>
      simp only [exec] at he
      cases hres : m_aggregate M_SIZE fuel h.mem with
      | none => simp [hres] at he
      | some m =>
        simp only [hres, Option.some.injEq] at he
        rw [← he]
        obtain ⟨m', hret, g'⟩ := aggregate_spec hM g.walk g.head
        have := hret.unique hres
        subst this
        exact ⟨_, g'.print_ret, spec_coalesce_unavail_mem _ b hb hba⟩
  · have := (print_zero c.1.mem).unique (hn n (le_refl _))
    subst this
    simp at hb

theorem allocated_blocks_frame_witness :
    80 ≤ SIZE_MAX ∧
    Reach 80 (after 80 [Op.alloc 5 0, Op.alloc 5 0, Op.alloc 5 0, Op.free (some (blk 72)),
      Op.free (some (blk 16))] (reserved 80)) ∧
    m_print 80 4 (after 80 [Op.alloc 5 0, Op.alloc 5 0, Op.alloc 5 0,
      Op.free (some (blk 72)), Op.free (some (blk 16))] (reserved 80)).1.mem
      = some [⟨0, 32, true⟩, ⟨32, 24, false⟩, ⟨56, 24, true⟩] ∧
    Op.alloc 5 40 ≠ Op.free (some (bloc_get_data_ptr (blk 32))) ∧
    m_print 80 4 (after 80 [Op.alloc 5 0, Op.alloc 5 0, Op.alloc 5 0,
      Op.free (some (blk 72)), Op.free (some (blk 16)), Op.alloc 5 40] (reserved 80)).1.mem
      = some [⟨0, 32, true⟩, ⟨32, 24, false⟩, ⟨56, 24, true⟩] ∧
    ((∃ n, ∀ fuel, n ≤ fuel → (exec 80 ((Op.alloc 5 40).with_fuel fuel)
        (after 80 [Op.alloc 5 0, Op.alloc 5 0, Op.alloc 5 0, Op.free (some (blk 72)),
          Op.free (some (blk 16))] (reserved 80))).isSome = true) ∧
      ∀ c', exec 80 (Op.alloc 5 40) (after 80 [Op.alloc 5 0, Op.alloc 5 0, Op.alloc 5 0,
          Op.free (some (blk 72)), Op.free (some (blk 16))] (reserved 80)) = some c' →
        ∃ bs', Ret (fun fuel => m_print 80 fuel c'.1.mem) bs' ∧
          (⟨32, 24, false⟩ : Blk) ∈ bs') :=
  ⟨by decide, Reach.after_reach _ (Reach.reserved_reach 80) (by decide), by decide,
    by simp, by decide,
    allocated_blocks_frame 80 (after 80 [Op.alloc 5 0, Op.alloc 5 0, Op.alloc 5 0,
        Op.free (some (blk 72)), Op.free (some (blk 16))] (reserved 80)) (Op.alloc 5 40)
      [⟨0, 32, true⟩, ⟨32, 24, false⟩, ⟨56, 24, true⟩] ⟨32, 24, false⟩ (by decide)
      (Reach.after_reach _ (Reach.reserved_reach 80) (by decide))
      ⟨4, fun fuel => Walk.print (by decide : Walk (after 80 [Op.alloc 5 0, Op.alloc 5 0,
        Op.alloc 5 0, Op.free (some (blk 72)), Op.free (some (blk 16))] (reserved 80)).1.mem
        80 0 [⟨0, 32, true⟩, ⟨32, 24, false⟩, ⟨56, 24, true⟩]) fuel⟩
      (by decide) rfl (by simp) (by simp)⟩
/-! ## Selection of the offer -/

/-- C12. Best-fit selection: for every free list and every request size
(sizes being values of `size_t`; a request of zero in front of a block of
`SIZE_MAX` bytes apart, which the only caller `m_alloc` cannot produce since
it asks for `sizeof(bloc)` at least), `m_get_best_fit` returns, and it returns
no block exactly when no block of the list has a size of at least the request;
otherwise it returns a block of the list with a size of at least the request
whose slack `size - request` is minimal among all the blocks of at least the
request, and among the blocks which achieve that minimum it returns the one
that comes first in list order. -/
theorem best_fit_selection (m : Mem) (fl : List Ptr) (size : Nat)
    (hfl : Ret (fun fuel => free_list fuel m) fl)
    (hsz : ∀ p ∈ fl, bloc_get_size m p ≤ SIZE_MAX)
    (hedge : ∀ p ∈ fl, ¬ (size = 0 ∧ bloc_get_size m p = SIZE_MAX)) :
    ∃ r, Ret (fun fuel => m_get_best_fit fuel m size) r ∧
      (r = none ↔ ∀ p ∈ fl, bloc_get_size m p < size) ∧
      (∀ x, r = some x → ∃ l₁ l₂, fl = l₁ ++ x :: l₂ ∧ size ≤ bloc_get_size m x ∧
        (∀ y ∈ l₁, size ≤ bloc_get_size m y →
          bloc_get_size m x - size < bloc_get_size m y - size) ∧
        (∀ y ∈ l₂, size ≤ bloc_get_size m y →
          bloc_get_size m x - size ≤ bloc_get_size m y - size)) := by
  have hc := chain_of_free_list hfl
  have hsub : ∀ p ∈ fl, size ≤ (m p).size → size_sub (m p).size size = (m p).size - size :=
    fun p hp h => size_sub_eq h (hsz p hp)
  refine ⟨_, Chain.best_fit size SIZE_MAX none hc, ?_, ?_⟩
  · rw [best_fit_scan_none]
    constructor
    · intro h p hp
      show (m p).size < size
      by_contra hge
      have hle : size ≤ (m p).size := by omega
      refine h p hp ⟨hle, ?_⟩
      rw [hsub p hp hle]
      have h3 : (m p).size ≤ SIZE_MAX := hsz p hp
      have h4 : ¬ (size = 0 ∧ (m p).size = SIZE_MAX) := hedge p hp
      omega
    · intro h p hp hq
      have h3 : (m p).size < size := h p hp
      omega
  · intro x hx
    rcases best_fit_scan_spec _ _ _ _ hx with ⟨h1, -⟩ | ⟨l₁, l₂, e, h1, -, h3, h4⟩
    · simp at h1
    · have hxm : x ∈ fl := by rw [e]; simp
      refine ⟨l₁, l₂, e, h1, fun y hy hsy => ?_, fun y hy hsy => ?_⟩
      · have hym : y ∈ fl := by rw [e]; simp [hy]
        have := h3 y hy hsy
        rw [hsub x hxm h1, hsub y hym hsy] at this
        exact this
      · have hym : y ∈ fl := by rw [e]; simp [hy]
        have := h4 y hy hsy
        rw [hsub x hxm h1, hsub y hym hsy] at this
        exact this

theorem best_fit_selection_witness :
    free_list 5 fit_20_50_12 = some [blk 0, blk 32, blk 64] ∧
    (∀ p ∈ [blk 0, blk 32, blk 64], bloc_get_size fit_20_50_12 p ≤ SIZE_MAX) ∧
    (∀ p ∈ [blk 0, blk 32, blk 64],
      ¬ (15 = 0 ∧ bloc_get_size fit_20_50_12 p = SIZE_MAX)) ∧
    [blk 0, blk 32, blk 64].map (bloc_get_size fit_20_50_12) = [20, 50, 12] ∧
    m_get_best_fit 5 fit_20_50_12 15 = some (some (blk 0)) ∧
    ∃ r, Ret (fun fuel => m_get_best_fit fuel fit_20_50_12 15) r ∧
      (r = none ↔ ∀ p ∈ [blk 0, blk 32, blk 64], bloc_get_size fit_20_50_12 p < 15) ∧
      (∀ x, r = some x → ∃ l₁ l₂, [blk 0, blk 32, blk 64] = l₁ ++ x :: l₂ ∧
        15 ≤ bloc_get_size fit_20_50_12 x ∧
        (∀ y ∈ l₁, 15 ≤ bloc_get_size fit_20_50_12 y →
          bloc_get_size fit_20_50_12 x - 15 < bloc_get_size fit_20_50_12 y - 15) ∧
        (∀ y ∈ l₂, 15 ≤ bloc_get_size fit_20_50_12 y →
          bloc_get_size fit_20_50_12 x - 15 ≤ bloc_get_size fit_20_50_12 y - 15)) :=
  ⟨by decide, by decide, by decide, by decide, by decide,
    best_fit_selection fit_20_50_12 [blk 0, blk 32, blk 64] 15
      (ret_free_list_of_eq
        (by decide : free_list 5 fit_20_50_12 = some [blk 0, blk 32, blk 64]))
      (by decide) (by decide)⟩

/-- C13. First-fit selection: for every free list and every request size,
`m_get_first_fit` returns; it returns no block exactly when no block of the
list has a size of at least the request, and otherwise it returns the first
block in list order whose size is at least the request: every block before it
in the list is smaller than the request. -/
theorem first_fit_selection (m : Mem) (fl : List Ptr) (size : Nat)
    (hfl : Ret (fun fuel => free_list fuel m) fl) :
    ∃ r, Ret (fun fuel => m_get_first_fit fuel m size) r ∧
      (r = none ↔ ∀ p ∈ fl, bloc_get_size m p < size) ∧
      (∀ x, r = some x → ∃ l₁ l₂, fl = l₁ ++ x :: l₂ ∧ size ≤ bloc_get_size m x ∧
        ∀ y ∈ l₁, bloc_get_size m y < size) := by
  have hc := chain_of_free_list hfl
  refine ⟨_, Chain.first_fit size hc, ?_, ?_⟩
  · rw [List.find?_eq_none]
    simp [bloc_get_size]
  · intro x hx
    obtain ⟨h1, l₁, l₂, e, h2⟩ := List.find?_eq_some.1 hx
    refine ⟨l₁, l₂, e, by simpa using h1, fun y hy => ?_⟩
    have := h2 y hy
    simpa [bloc_get_size] using this

theorem first_fit_selection_witness :
    free_list 5 fit_50_12_20 = some [blk 0, blk 50, blk 62] ∧
    [blk 0, blk 50, blk 62].map (bloc_get_size fit_50_12_20) = [50, 12, 20] ∧
    m_get_first_fit 5 fit_50_12_20 15 = some (some (blk 0)) ∧
    m_get_best_fit 5 fit_50_12_20 15 = some (some (blk 62)) ∧
    ∃ r, Ret (fun fuel => m_get_first_fit fuel fit_50_12_20 15) r ∧
      (r = none ↔ ∀ p ∈ [blk 0, blk 50, blk 62], bloc_get_size fit_50_12_20 p < 15) ∧
      (∀ x, r = some x → ∃ l₁ l₂, [blk 0, blk 50, blk 62] = l₁ ++ x :: l₂ ∧
        15 ≤ bloc_get_size fit_50_12_20 x ∧ ∀ y ∈ l₁, bloc_get_size fit_50_12_20 y < 15) :=
  ⟨by decide, by decide, by decide, by decide,
    first_fit_selection fit_50_12_20 [blk 0, blk 50, blk 62] 15
      (ret_free_list_of_eq
        (by decide : free_list 5 fit_50_12_20 = some [blk 0, blk 50, blk 62]))⟩

/-! ## Freeing -/

/-- C11. `m_free` frees exactly the owning block, lazily: in a reachable
configuration, for every live address `a` (returned by a successful `m_alloc`
and not freed since), `bloc_from_data_ptr(a)` is the unavailable block of the
partition whose data address is `a` (the reverse mapping undoes
`bloc_get_data_ptr`); after `m_free(a)` that block is available and is the
first element of the free list, followed by the former free list in the same
order, and the partition has the same blocks with the same offsets and sizes:
the freed block is not merged with a neighbour. -/
theorem free_owning_block (M_SIZE : Nat) (c : Config) (a : Ptr) (hM : M_SIZE ≤ SIZE_MAX)
    (hr : Reach M_SIZE c) (ha : a ∈ c.2) :
    (∀ p, bloc_from_data_ptr (bloc_get_data_ptr p) = p) ∧
    (∀ p, bloc_get_data_ptr p = a → p = bloc_from_data_ptr a) ∧
    ∃ pre b post fl, bloc_from_data_ptr a = blk b.off ∧ b.avail = false ∧
      bloc_get_data_ptr (blk b.off) = a ∧
      Ret (fun fuel => m_print M_SIZE fuel c.1.mem) (pre ++ b :: post) ∧
      Ret (fun fuel => free_list fuel c.1.mem) fl ∧
      Ret (fun fuel => m_print M_SIZE fuel (m_free (some a) c.1).mem)
        (pre ++ ⟨b.off, b.size, true⟩ :: post) ∧
      Ret (fun fuel => free_list fuel (m_free (some a) c.1).mem) (blk b.off :: fl) ∧
      (m_free (some a) c.1).get_offer = c.1.get_offer := by
  have hinv : ∀ p, bloc_from_data_ptr (bloc_get_data_ptr p) = p := by
    intro p
    simp [bloc_from_data_ptr, bloc_get_data_ptr, offsetof_u]
  refine ⟨hinv, fun p hp => by rw [← hp, hinv], ?_⟩
  rcases hr.invariant hM with ⟨-, bs, fl, g, hl⟩ | ⟨rfl, hi⟩
  · obtain ⟨b, hb, hba, rfl⟩ := hl.2 a ha
    obtain ⟨pre, post, hsplit⟩ := List.append_of_mem hb
    have g' := g.free_effect hsplit hba
    subst hsplit
    exact ⟨pre, b, post, fl, hinv _, hba, rfl, g.print_ret, g.free_list_ret, g'.print_ret,
      g'.free_list_ret, rfl⟩
  · have : c.2 = [] := hi.1
    rw [this] at ha
    simp at ha

theorem free_owning_block_witness :
    80 ≤ SIZE_MAX ∧
    Reach 80 (after 80 [Op.alloc 5 0, Op.alloc 5 0, Op.free (some (blk 72))] (reserved 80)) ∧
    blk 48 ∈ (after 80 [Op.alloc 5 0, Op.alloc 5 0, Op.free (some (blk 72))]
      (reserved 80)).2 ∧
    m_print 80 5 (after 80 [Op.alloc 5 0, Op.alloc 5 0, Op.free (some (blk 72)),
      Op.free (some (blk 48))] (reserved 80)).1.mem
      = some [⟨0, 32, true⟩, ⟨32, 24, true⟩, ⟨56, 24, true⟩] ∧
    free_list 5 (after 80 [Op.alloc 5 0, Op.alloc 5 0, Op.free (some (blk 72)),
      Op.free (some (blk 48))] (reserved 80)).1.mem = some [blk 32, blk 56, blk 0] ∧
    ((∀ p, bloc_from_data_ptr (bloc_get_data_ptr p) = p) ∧
    (∀ p, bloc_get_data_ptr p = blk 48 → p = bloc_from_data_ptr (blk 48)) ∧
    ∃ pre b post fl, bloc_from_data_ptr (blk 48) = blk b.off ∧ b.avail = false ∧
      bloc_get_data_ptr (blk b.off) = blk 48 ∧
      Ret (fun fuel => m_print 80 fuel (after 80 [Op.alloc 5 0, Op.alloc 5 0,
        Op.free (some (blk 72))] (reserved 80)).1.mem) (pre ++ b :: post) ∧
      Ret (fun fuel => free_list fuel (after 80 [Op.alloc 5 0, Op.alloc 5 0,
        Op.free (some (blk 72))] (reserved 80)).1.mem) fl ∧
      Ret (fun fuel => m_print 80 fuel (m_free (some (blk 48)) (after 80 [Op.alloc 5 0,
        Op.alloc 5 0, Op.free (some (blk 72))] (reserved 80)).1).mem)
        (pre ++ ⟨b.off, b.size, true⟩ :: post) ∧
      Ret (fun fuel => free_list fuel (m_free (some (blk 48)) (after 80 [Op.alloc 5 0,
        Op.alloc 5 0, Op.free (some (blk 72))] (reserved 80)).1).mem) (blk b.off :: fl) ∧
      (m_free (some (blk 48)) (after 80 [Op.alloc 5 0, Op.alloc 5 0,
        Op.free (some (blk 72))] (reserved 80)).1).get_offer
        = (after 80 [Op.alloc 5 0, Op.alloc 5 0, Op.free (some (blk 72))]
          (reserved 80)).1.get_offer) :=
  ⟨by decide, Reach.after_reach _ (Reach.reserved_reach 80) (by decide), by decide,
    by decide, by decide,
    free_owning_block 80 _ (blk 48) (by decide)
      (Reach.after_reach _ (Reach.reserved_reach 80) (by decide)) (by decide)⟩

/-! ## Reservation and strategy -/

/-- C15. Reservation postcondition: after a successful `m_reserve` the header
at offset 0 of the reserve has size `M_SIZE`, is available and has a null
link, the free list holds exactly that block, and the strategy is best-fit;
when `M_SIZE` is not zero the partition of the reserve is exactly that one
block. -/
theorem reserve_postcondition (M_SIZE : Nat) (fresh : Option Mem) (hM : M_SIZE ≤ SIZE_MAX)
    (hs : (m_reserve M_SIZE fresh).1 = FUN_SUCCESS) :
    ∃ h, (m_reserve M_SIZE fresh).2 = some h ∧
      h.mem memory_reserve = ⟨M_SIZE, true, none⟩ ∧
      Ret (fun fuel => free_list fuel h.mem) [memory_reserve] ∧
      h.get_offer = Offer.m_get_best_fit ∧
      (0 < M_SIZE → Ret (fun fuel => m_print M_SIZE fuel h.mem) [⟨0, M_SIZE, true⟩]) := by
  cases fresh with
  | none => simp [m_reserve, FUN_FAILURE, FUN_SUCCESS] at hs
  | some f =>
    cases hh : (m_reserve M_SIZE (some f)).2 with
    | none => simp [m_reserve] at hh
    | some h =>
      have hmod : M_SIZE % 2 ^ 64 = M_SIZE :=
        Nat.mod_eq_of_lt (by unfold SIZE_MAX at hM; omega)
      obtain ⟨hA, hB, hC⟩ := m_reserve_mem f hh
      rw [hmod] at hA
      have hchain : Chain h.mem (bloc_get_next h.mem freeblocs) [memory_reserve] := by
        refine ⟨?_, ?_⟩
        · show (if (h.mem freeblocs).available then (h.mem freeblocs).next else none) = _
          rw [hB]; rfl
        · show (if (h.mem memory_reserve).available then (h.mem memory_reserve).next
            else none) = none
          rw [hA]; rfl
      refine ⟨h, rfl, hA, ⟨2, fun fuel => Chain.traverse hchain fuel⟩, hC, fun h0 => ?_⟩
      exact (Good.reserve_good h0 hM f hh).1.print_ret

theorem reserve_postcondition_witness :
    80 ≤ SIZE_MAX ∧ (m_reserve 80 (some fresh_zero)).1 = FUN_SUCCESS ∧
    ∃ h, (m_reserve 80 (some fresh_zero)).2 = some h ∧
      h.mem memory_reserve = ⟨80, true, none⟩ ∧
      Ret (fun fuel => free_list fuel h.mem) [memory_reserve] ∧
      h.get_offer = Offer.m_get_best_fit ∧
      (0 < 80 → Ret (fun fuel => m_print 80 fuel h.mem) [⟨0, 80, true⟩]) :=
  ⟨by decide, by decide, reserve_postcondition 80 (some fresh_zero) (by decide) (by decide)⟩

/-- C16. Strategy toggle: `m_toggle_offer` changes best-fit to first-fit and
first-fit to best-fit, applying it twice restores the strategy, and it leaves
the memory, hence the partition and the free list, unchanged. -/
theorem toggle_offer_flips (h : Heap) :
    (h.get_offer = Offer.m_get_best_fit →
      (m_toggle_offer h).get_offer = Offer.m_get_first_fit) ∧
    (h.get_offer = Offer.m_get_first_fit →
      (m_toggle_offer h).get_offer = Offer.m_get_best_fit) ∧
    (m_toggle_offer (m_toggle_offer h)).get_offer = h.get_offer ∧
    (m_toggle_offer h).mem = h.mem ∧
    (∀ M_SIZE fuel, m_print M_SIZE fuel (m_toggle_offer h).mem = m_print M_SIZE fuel h.mem) ∧
    (∀ fuel, free_list fuel (m_toggle_offer h).mem = free_list fuel h.mem) := by
  have hmem : (m_toggle_offer h).mem = h.mem := by
    unfold m_toggle_offer
    split_ifs <;> rfl
  refine ⟨?_, ?_, ?_, hmem, fun _ _ => by rw [hmem], fun _ => by rw [hmem]⟩
  · intro hb
    simp [m_toggle_offer, hb]
  · intro hf
    simp [m_toggle_offer, hf]
  · cases hg : h.get_offer <;> simp [m_toggle_offer, hg]

/-! ## Coalescing twice -/

/-- C19. Coalescing orders the list and is idempotent: from every state whose
reserve is partitioned into blocks `bs` (each of at least `sizeof(bloc)`
bytes, so that no two headers overlap, with sizes which sum to `M_SIZE`), the
free list which `m_aggregate` builds is in strictly decreasing address order,
the blocks of the partition it leaves are again of at least `sizeof(bloc)`
bytes, and a second `m_aggregate` right after the first returns and leaves the
partition and the free list (content and order) as the first run left them. -/
theorem aggregate_idempotent (M_SIZE : Nat) (m : Mem) (bs : List Blk)
    (hM : M_SIZE ≤ SIZE_MAX) (hp : Ret (fun fuel => m_print M_SIZE fuel m) bs)
    (hmin : ∀ b ∈ bs, sizeof_bloc ≤ b.size) (hsum : (bs.map Blk.size).sum = M_SIZE)
    (hs : (m freeblocs).available = true) :
    ∃ m₁ m₂ bs₁ fl₁, Ret (fun fuel => m_aggregate M_SIZE fuel m) m₁ ∧
      Ret (fun fuel => m_print M_SIZE fuel m₁) bs₁ ∧
      Ret (fun fuel => free_list fuel m₁) fl₁ ∧
      fl₁.Pairwise (fun p q => p.region = Region.reserve ∧ q.region = Region.reserve ∧
        q.off < p.off) ∧
      (∀ b ∈ bs₁, sizeof_bloc ≤ b.size) ∧
      Ret (fun fuel => m_aggregate M_SIZE fuel m₁) m₂ ∧
      Ret (fun fuel => m_print M_SIZE fuel m₂) bs₁ ∧
      Ret (fun fuel => free_list fuel m₂) fl₁ := by
  have hnz : ∀ b ∈ bs, b.size ≠ 0 := fun b hb => by
    have := hmin b hb
    have h24 : sizeof_bloc = 24 := rfl
    omega
  obtain ⟨n, hn⟩ := hp.exists_fuel
  have hw : Walk m M_SIZE 0 bs :=
    Walk.of_print (hn n (le_refl _)) hnz (by simpa using hsum)
  obtain ⟨m₁, hret₁, g₁⟩ := aggregate_spec hM hw hs
  obtain ⟨m₂, hret₂, g₂⟩ := aggregate_spec hM g₁.walk g₁.head
  rw [spec_coalesce_idem] at g₂
  refine ⟨m₁, m₂, _, _, hret₁, g₁.print_ret, g₁.free_list_ret, ?_, fun c hc => ?_, hret₂,
    g₂.print_ret, g₂.free_list_ret⟩
  · rw [List.pairwise_reverse]
    exact (Walk.avail_ptrs_sorted g₁.walk).imp (fun h => ⟨h.2.1, h.1, h.2.2⟩)
  · obtain ⟨b, hb, hle⟩ := spec_coalesce_size_ge bs c hc
    exact le_trans (hmin b hb) hle

theorem aggregate_idempotent_witness :
    128 ≤ SIZE_MAX ∧
    m_print 128 6 (after 128 [Op.alloc 6 0, Op.alloc 6 0, Op.alloc 6 0, Op.alloc 6 0,
      Op.free (some (blk 48)), Op.free (some (blk 120))] (reserved 128)).1.mem
      = some [⟨0, 32, true⟩, ⟨32, 24, true⟩, ⟨56, 24, false⟩, ⟨80, 24, false⟩, ⟨104, 24, true⟩] ∧
    (∀ b ∈ ([⟨0, 32, true⟩, ⟨32, 24, true⟩, ⟨56, 24, false⟩, ⟨80, 24, false⟩, ⟨104, 24, true⟩]
      : List Blk), sizeof_bloc ≤ b.size) ∧
    (([⟨0, 32, true⟩, ⟨32, 24, true⟩, ⟨56, 24, false⟩, ⟨80, 24, false⟩, ⟨104, 24, true⟩]
      : List Blk).map Blk.size).sum = 128 ∧
    ((after 128 [Op.alloc 6 0, Op.alloc 6 0, Op.alloc 6 0, Op.alloc 6 0,
      Op.free (some (blk 48)), Op.free (some (blk 120))] (reserved 128)).1.mem
      freeblocs).available = true ∧
    free_list 6 (after 128 [Op.alloc 6 0, Op.alloc 6 0, Op.alloc 6 0, Op.alloc 6 0,
      Op.free (some (blk 48)), Op.free (some (blk 120))] (reserved 128)).1.mem
      = some [blk 104, blk 32, blk 0] ∧
    (m_aggregate 128 6 (after 128 [Op.alloc 6 0, Op.alloc 6 0, Op.alloc 6 0, Op.alloc 6 0,
      Op.free (some (blk 48)), Op.free (some (blk 120))] (reserved 128)).1.mem).bind
      (fun m => m_print 128 6 m)
      = some [⟨0, 56, true⟩, ⟨56, 24, false⟩, ⟨80, 24, false⟩, ⟨104, 24, true⟩] ∧
    (m_aggregate 128 6 (after 128 [Op.alloc 6 0, Op.alloc 6 0, Op.alloc 6 0, Op.alloc 6 0,
      Op.free (some (blk 48)), Op.free (some (blk 120))] (reserved 128)).1.mem).bind
      (fun m => free_list 6 m) = some [blk 104, blk 0] ∧
    ((m_aggregate 128 6 (after 128 [Op.alloc 6 0, Op.alloc 6 0, Op.alloc 6 0, Op.alloc 6 0,
      Op.free (some (blk 48)), Op.free (some (blk 120))] (reserved 128)).1.mem).bind
      (fun m => m_aggregate 128 6 m)).bind (fun m => m_print 128 6 m)
      = some [⟨0, 56, true⟩, ⟨56, 24, false⟩, ⟨80, 24, false⟩, ⟨104, 24, true⟩] ∧
    ((m_aggregate 128 6 (after 128 [Op.alloc 6 0, Op.alloc 6 0, Op.alloc 6 0, Op.alloc 6 0,
      Op.free (some (blk 48)), Op.free (some (blk 120))] (reserved 128)).1.mem).bind
      (fun m => m_aggregate 128 6 m)).bind (fun m => free_list 6 m)
      = some [blk 104, blk 0] ∧
    ∃ m₁ m₂ bs₁ fl₁, Ret (fun fuel => m_aggregate 128 fuel
      (after 128 [Op.alloc 6 0, Op.alloc 6 0, Op.alloc 6 0, Op.alloc 6 0,
      Op.free (some (blk 48)), Op.free (some (blk 120))] (reserved 128)).1.mem) m₁ ∧
      Ret (fun fuel => m_print 128 fuel m₁) bs₁ ∧
      Ret (fun fuel => free_list fuel m₁) fl₁ ∧
      fl₁.Pairwise (fun p q => p.region = Region.reserve ∧ q.region = Region.reserve ∧
        q.off < p.off) ∧
      (∀ b ∈ bs₁, sizeof_bloc ≤ b.size) ∧
      Ret (fun fuel => m_aggregate 128 fuel m₁) m₂ ∧
      Ret (fun fuel => m_print 128 fuel m₂) bs₁ ∧
      Ret (fun fuel => free_list fuel m₂) fl₁ :=
  ⟨by decide, by decide, by decide, by decide, by decide, by decide, by decide, by decide,
    by decide, by decide,
    aggregate_idempotent 128
      (after 128 [Op.alloc 6 0, Op.alloc 6 0, Op.alloc 6 0, Op.alloc 6 0,
      Op.free (some (blk 48)), Op.free (some (blk 120))] (reserved 128)).1.mem
      [⟨0, 32, true⟩, ⟨32, 24, true⟩, ⟨56, 24, false⟩, ⟨80, 24, false⟩, ⟨104, 24, true⟩]
      (by decide)
      ⟨6, fun fuel => Walk.print (by decide : Walk
        (after 128 [Op.alloc 6 0, Op.alloc 6 0, Op.alloc 6 0, Op.alloc 6 0,
      Op.free (some (blk 48)), Op.free (some (blk 120))] (reserved 128)).1.mem
        128 0 [⟨0, 32, true⟩, ⟨32, 24, true⟩, ⟨56, 24, false⟩, ⟨80, 24, false⟩, ⟨104, 24, true⟩])
        fuel⟩
      (by decide) (by decide) (by decide)⟩

/-! ## The minimum size of a block -/

/-- C14. Minimum block size invariant: when `M_SIZE` is at least
`sizeof(bloc)`, in every reachable configuration every block of the partition,
available or not, has a size of at least
`sizeof(bloc) = BLOC_INFOS_SIZE + BLOC_DATAS_SIZE_MIN`, so that the link
`u.next`, written at the data offset when the block is freed, lies inside the
block; in particular a successful `m_alloc(0)` carves a block of size at least
`sizeof(bloc)`. -/
theorem minimum_block_size (M_SIZE : Nat) (c : Config) (h24 : sizeof_bloc ≤ M_SIZE)
    (hM : M_SIZE ≤ SIZE_MAX) (hr : Reach M_SIZE c) :
    sizeof_bloc = BLOC_INFOS_SIZE + BLOC_DATAS_SIZE_MIN ∧
    (∃ bs, Ret (fun fuel => m_print M_SIZE fuel c.1.mem) bs ∧
      ∀ b ∈ bs, sizeof_bloc ≤ b.size ∧ offsetof_u + sizeof_bloc_ptr ≤ b.size) ∧
    (∀ fuel a h', m_alloc M_SIZE fuel 0 c.1 = some (some a, h') →
      ∃ bs' b, Ret (fun fuel => m_print M_SIZE fuel h'.mem) bs' ∧ b ∈ bs' ∧
        b.avail = false ∧ bloc_get_data_ptr (blk b.off) = a ∧ sizeof_bloc ≤ b.size) := by
  refine ⟨by decide, ?_, ?_⟩
  · obtain ⟨bs, fl, g, -, hmin⟩ := hr.min_size h24 hM
    exact ⟨bs, g.print_ret, fun b hb => ⟨hmin b hb, hmin b hb⟩⟩
  · intro fuel a h' ha
    have hstep : exec M_SIZE (Op.alloc fuel 0) c = some (h', a :: c.2) := by
      obtain ⟨h, live⟩ := c
      simp only [exec]
      simp only at ha
      rw [ha]
    obtain ⟨bs', fl', g', hl', hmin'⟩ := (Reach.step _ _ _ hr hstep).min_size h24 hM
    obtain ⟨b, hb, hba, e⟩ := hl'.2 a (by simp)
    exact ⟨bs', b, g'.print_ret, hb, hba, e.symm, hmin' b hb⟩

theorem minimum_block_size_witness :
    sizeof_bloc ≤ 80 ∧ 80 ≤ SIZE_MAX ∧
    Reach 80 (after 80 [Op.alloc 5 0, Op.alloc 5 1, Op.free (some (blk 72)), Op.alloc 5 40,
      Op.alloc 5 0] (reserved 80)) ∧
    m_print 80 5 (after 80 [Op.alloc 5 0, Op.alloc 5 1, Op.free (some (blk 72)),
      Op.alloc 5 40, Op.alloc 5 0] (reserved 80)).1.mem
      = some [⟨0, 32, true⟩, ⟨32, 24, false⟩, ⟨56, 24, false⟩] ∧
    (sizeof_bloc = BLOC_INFOS_SIZE + BLOC_DATAS_SIZE_MIN ∧
    (∃ bs, Ret (fun fuel => m_print 80 fuel (after 80 [Op.alloc 5 0, Op.alloc 5 1,
        Op.free (some (blk 72)), Op.alloc 5 40, Op.alloc 5 0] (reserved 80)).1.mem) bs ∧
      ∀ b ∈ bs, sizeof_bloc ≤ b.size ∧ offsetof_u + sizeof_bloc_ptr ≤ b.size) ∧
    (∀ fuel a h', m_alloc 80 fuel 0 (after 80 [Op.alloc 5 0, Op.alloc 5 1,
        Op.free (some (blk 72)), Op.alloc 5 40, Op.alloc 5 0] (reserved 80)).1
        = some (some a, h') →
      ∃ bs' b, Ret (fun fuel => m_print 80 fuel h'.mem) bs' ∧ b ∈ bs' ∧
        b.avail = false ∧ bloc_get_data_ptr (blk b.off) = a ∧ sizeof_bloc ≤ b.size)) :=
  ⟨by decide, by decide, Reach.after_reach _ (Reach.reserved_reach 80) (by decide), by decide,
    minimum_block_size 80 _ (by decide) (by decide)
      (Reach.after_reach _ (Reach.reserved_reach 80) (by decide))⟩

/-! ## The scan of the reserve -/

/-- C17. The scan of the reserve terminates in bounds: in a reachable
configuration the address-order loops of `m_aggregate` return with every
amount of fuel above `M_SIZE` (the initial value of the measure `e - p`),
every access they make through `p` and `q` is to the header at the start of a
block of the partition, at an offset strictly below `M_SIZE`, and the outer
loop ends with its cursor exactly at offset `M_SIZE`; the traced function
computes the same memory as `m_aggregate`.  The walk of `m_print` visits the
same block starts. -/
theorem aggregate_scan_in_bounds (M_SIZE : Nat) (c : Config) (hM : M_SIZE ≤ SIZE_MAX)
    (hr : Reach M_SIZE c) :
    ∃ bs m' t, Ret (fun fuel => m_print M_SIZE fuel c.1.mem) bs ∧
      (∀ fuel, M_SIZE + 1 ≤ fuel →
        m_aggregate_trace M_SIZE fuel c.1.mem = some (m', ⟨Region.reserve, M_SIZE⟩, t)) ∧
      (∀ fuel, (m_aggregate_trace M_SIZE fuel c.1.mem).map (fun r => r.1)
        = m_aggregate M_SIZE fuel c.1.mem) ∧
      (∀ r ∈ t, ∃ b ∈ bs, r = ⟨Region.reserve, b.off⟩ ∧ b.off < M_SIZE) ∧
      (∀ b ∈ bs, b.off < M_SIZE) := by
  rcases hr.invariant hM with ⟨-, bs, fl, g, -⟩ | ⟨rfl, -⟩
  · obtain ⟨m', t, hk, ht⟩ := aggregate_trace_spec hM g.walk g.head
    have hlt : ∀ b ∈ bs, b.off < M_SIZE := by
      intro b hb
      have := Walk.bounds g.walk b hb
      omega
    refine ⟨bs, m', t, g.print_ret, hk, fun fuel => aggregate_trace_refines _ _ _,
      fun r hr' => ?_, hlt⟩
    obtain ⟨b, hb, e⟩ := ht r hr'
    exact ⟨b, hb, e, hlt b hb⟩
  · exact ⟨[], _, [], print_zero _, fun fuel hf => aggregate_trace_zero _ fuel (by omega),
      fun fuel => aggregate_trace_refines _ _ _, by simp, by simp⟩

theorem aggregate_scan_in_bounds_witness :
    80 ≤ SIZE_MAX ∧
    Reach 80 (after 80 [Op.alloc 5 0, Op.alloc 5 0, Op.alloc 5 0, Op.free (some (blk 72)),
      Op.free (some (blk 48))] (reserved 80)) ∧
    m_print 80 5 (after 80 [Op.alloc 5 0, Op.alloc 5 0, Op.alloc 5 0,
      Op.free (some (blk 72)), Op.free (some (blk 48))] (reserved 80)).1.mem
      = some [⟨0, 32, false⟩, ⟨32, 24, true⟩, ⟨56, 24, true⟩] ∧
    (m_aggregate_trace 80 5 (after 80 [Op.alloc 5 0, Op.alloc 5 0, Op.alloc 5 0,
      Op.free (some (blk 72)), Op.free (some (blk 48))] (reserved 80)).1.mem).map
        (fun r => r.2)
      = some (blk 80, [blk 0, blk 0, blk 32, blk 32, blk 56, blk 32, blk 56, blk 32, blk 56,
          blk 32]) ∧
    ∃ bs m' t, Ret (fun fuel => m_print 80 fuel (after 80 [Op.alloc 5 0, Op.alloc 5 0,
        Op.alloc 5 0, Op.free (some (blk 72)), Op.free (some (blk 48))]
        (reserved 80)).1.mem) bs ∧
      (∀ fuel, 80 + 1 ≤ fuel →
        m_aggregate_trace 80 fuel (after 80 [Op.alloc 5 0, Op.alloc 5 0, Op.alloc 5 0,
          Op.free (some (blk 72)), Op.free (some (blk 48))] (reserved 80)).1.mem
          = some (m', ⟨Region.reserve, 80⟩, t)) ∧
      (∀ fuel, (m_aggregate_trace 80 fuel (after 80 [Op.alloc 5 0, Op.alloc 5 0,
          Op.alloc 5 0, Op.free (some (blk 72)), Op.free (some (blk 48))]
          (reserved 80)).1.mem).map (fun r => r.1)
        = m_aggregate 80 fuel (after 80 [Op.alloc 5 0, Op.alloc 5 0, Op.alloc 5 0,
          Op.free (some (blk 72)), Op.free (some (blk 48))] (reserved 80)).1.mem) ∧
      (∀ r ∈ t, ∃ b ∈ bs, r = ⟨Region.reserve, b.off⟩ ∧ b.off < 80) ∧
      (∀ b ∈ bs, b.off < 80) :=
  ⟨by decide, Reach.after_reach _ (Reach.reserved_reach 80) (by decide), by decide, by decide,
    aggregate_scan_in_bounds 80 _ (by decide)
      (Reach.after_reach _ (Reach.reserved_reach 80) (by decide))⟩


/-! ## Allocating again what was just freed -/

/-- C18. Allocate, free, allocate returns to the same place: in a reachable
configuration, whichever strategy is selected, if `m_alloc(n)` returns a
non-null address `a` and leaves the heap `h1`, then `m_free(a)` followed
immediately by `m_alloc(n)` returns the same address `a`, and the heap it
leaves has the same partition into blocks with the same availability flags,
the same free list in the same order and the same strategy as `h1`. -/
theorem realloc_same_place (M_SIZE : Nat) (c : Config) (fuel n : Nat) (a : Ptr) (h1 : Heap)
    (hM : M_SIZE ≤ SIZE_MAX) (hr : Reach M_SIZE c)
    (ha : m_alloc M_SIZE fuel n c.1 = some (some a, h1)) :
    ∃ h3 bs fl, Ret (fun fuel => m_alloc M_SIZE fuel n (m_free (some a) h1)) (some a, h3) ∧
      Ret (fun fuel => m_print M_SIZE fuel h1.mem) bs ∧
      Ret (fun fuel => m_print M_SIZE fuel h3.mem) bs ∧
      Ret (fun fuel => free_list fuel h1.mem) fl ∧
      Ret (fun fuel => free_list fuel h3.mem) fl ∧
      h3.get_offer = h1.get_offer := by
  have hov1 : ¬ n > SIZE_MAX - BLOC_INFOS_SIZE := by
    intro hlt
    simp [m_alloc, hlt] at ha
  have hov2 : ¬ n > size_sub M_SIZE BLOC_INFOS_SIZE := by
    intro hlt
    simp [m_alloc, hov1, hlt] at ha
  rcases hr.invariant hM with ⟨-, bs, fl, g, -⟩ | ⟨rfl, hi⟩
  · -- the block carved by the first call, which no free block fits more tightly
    have hcarved : ∃ bs' fl' P X Q, Good M_SIZE h1.mem bs' fl' ∧ bs' = P ++ X :: Q ∧
        X.avail = false ∧ a = blk (X.off + offsetof_u) ∧ m_alloc_size n ≤ X.size ∧
        X.size - m_alloc_size n < sizeof_bloc ∧
        (h1.get_offer = Offer.m_get_best_fit → ∀ y ∈ fl',
          ¬ (m_alloc_size n ≤ (h1.mem y).size ∧
            (h1.mem y).size - m_alloc_size n < X.size - m_alloc_size n)) := by
      obtain ⟨m1, r1, bs1, fl1, hoff, g1, -, -, hnone, hsome⟩ := g.alloc_effect hM hov1 hov2
      obtain ⟨m1s, bs1s, fl1s, g1s, hoffs⟩ := g.alloc_offer_scan hM (m_alloc_size n)
      obtain ⟨k, hk⟩ := hoffs.exists_fuel
      have e := hoff.unique (hk k (le_refl _))
      simp only [Prod.mk.injEq] at e
      obtain ⟨rfl, hscan⟩ := e
      obtain ⟨rfl, rfl⟩ := g1s.blocks_unique g1
      cases r1 with
      | none =>
        have := (hnone rfl).unique ha
        simp at this
      | some p =>
        obtain ⟨pre, b, post, m', hbs1, rfl, hba, hsz, hwhole, hsplit⟩ := hsome p rfl
        by_cases hc : b.size - m_alloc_size n < sizeof_bloc
        · obtain ⟨hret, g'⟩ := hwhole hc
          have := hret.unique ha
          simp only [Prod.mk.injEq, Option.some.injEq] at this
          obtain ⟨rfl, rfl⟩ := this
          refine ⟨_, _, pre, ⟨b.off, b.size, false⟩, post, g', rfl, rfl, rfl, hsz, hc, ?_⟩
          intro ho y hy hcond
          have hy1 : y ∈ fl1s := List.mem_of_mem_erase hy
          obtain ⟨c', hc', hca', rfl, hcs', -⟩ := g'.mem_fl hy
          have hc1 : c' ∈ bs1s := by
            rw [hbs1]
            rcases List.mem_append.1 hc' with hc' | hc'
            · exact List.mem_append_left _ hc'
            · rcases List.mem_cons.1 hc' with rfl | hc'
              · simp at hca'
              · exact List.mem_append_right _ (List.mem_cons_of_mem _ hc')
          have hb1 : b ∈ bs1s := by rw [hbs1]; simp
          obtain ⟨hs1, hM1⟩ := g1.size_of_mem hc1
          obtain ⟨hsb, hMb⟩ := g1.size_of_mem hb1
          have ho' : c.1.get_offer = Offer.m_get_best_fit := ho
          rw [ho'] at hscan
          simp only [get_offer_scan] at hscan
          rw [hcs'] at hcond
          simp only at hcond
          rcases best_fit_scan_spec _ _ _ _ hscan with ⟨h0, -⟩ | ⟨l1, l2, e, -, -, q3, q4⟩
          · cases h0
          · have hle : size_sub (m1s (blk b.off)).size (m_alloc_size n)
                ≤ size_sub (m1s (blk c'.off)).size (m_alloc_size n) := by
              rw [e] at hy1
              rcases List.mem_append.1 hy1 with hy1 | hy1
              · exact le_of_lt (q3 _ hy1 (by rw [hs1]; exact hcond.1))
              · rcases List.mem_cons.1 hy1 with h | hy1
                · rw [h]
                · exact q4 _ hy1 (by rw [hs1]; exact hcond.1)
            rw [hs1, hsb, size_sub_eq hsz (le_trans hMb hM),
              size_sub_eq hcond.1 (le_trans hM1 hM)] at hle
            omega
        · obtain ⟨hret, g'⟩ := hsplit (by omega)
          have := hret.unique ha
          simp only [Prod.mk.injEq, Option.some.injEq] at this
          obtain ⟨rfl, rfl⟩ := this
          refine ⟨_, _, pre ++ [⟨b.off, b.size - m_alloc_size n, true⟩],
            ⟨b.off + (b.size - m_alloc_size n), m_alloc_size n, false⟩, post, g', by simp,
            rfl, rfl, le_refl _, ?_, ?_⟩
          · simp only [Nat.sub_self]; decide
          · intro _ y _ hcond
            simp only [Nat.sub_self] at hcond
            omega
    obtain ⟨bs', fl', P, X, Q, g', hbs', hXa, rfl, hsz, hlt, hmin⟩ := hcarved
    obtain ⟨m3, hret, g3⟩ := g'.free_alloc_same hM hbs' hXa hov1 hov2 hsz hlt hmin
    exact ⟨⟨m3, h1.get_offer⟩, bs', fl', hret, g'.print_ret, g3.print_ret, g'.free_list_ret,
      g3.free_list_ret, rfl⟩
  · have := (hi.alloc_zero hov1 hov2).unique ha
    simp at this

theorem realloc_same_place_witness :
    80 ≤ SIZE_MAX ∧
    Reach 80 (after 80 [Op.alloc 5 0, Op.alloc 5 0, Op.alloc 5 0, Op.free (some (blk 72)),
      Op.free (some (blk 16))] (reserved 80)) ∧
    (after 80 [Op.alloc 5 0, Op.alloc 5 0, Op.alloc 5 0, Op.free (some (blk 72)),
      Op.free (some (blk 16))] (reserved 80)).1.get_offer = Offer.m_get_best_fit ∧
    free_list 5 (after 80 [Op.alloc 5 0, Op.alloc 5 0, Op.alloc 5 0, Op.free (some (blk 72)),
      Op.free (some (blk 16))] (reserved 80)).1.mem = some [blk 0, blk 56] ∧
    (m_alloc 80 5 0 (after 80 [Op.alloc 5 0, Op.alloc 5 0, Op.alloc 5 0,
      Op.free (some (blk 72)), Op.free (some (blk 16))] (reserved 80)).1).map Prod.fst
      = some (some (blk 72)) ∧
    (m_alloc 80 5 0 (m_free (some (blk 72)) (after 80 [Op.alloc 5 0, Op.alloc 5 0,
      Op.alloc 5 0, Op.free (some (blk 72)), Op.free (some (blk 16)),
      Op.alloc 5 0] (reserved 80)).1)).map Prod.fst = some (some (blk 72)) ∧
    ∃ h3 bs fl, Ret (fun fuel => m_alloc 80 fuel 0 (m_free (some (blk 72))
        (after 80 [Op.alloc 5 0, Op.alloc 5 0, Op.alloc 5 0, Op.free (some (blk 72)),
          Op.free (some (blk 16)), Op.alloc 5 0] (reserved 80)).1))
        (some (blk 72), h3) ∧
      Ret (fun fuel => m_print 80 fuel (after 80 [Op.alloc 5 0, Op.alloc 5 0, Op.alloc 5 0,
        Op.free (some (blk 72)), Op.free (some (blk 16)), Op.alloc 5 0]
        (reserved 80)).1.mem) bs ∧
      Ret (fun fuel => m_print 80 fuel h3.mem) bs ∧
      Ret (fun fuel => free_list fuel (after 80 [Op.alloc 5 0, Op.alloc 5 0, Op.alloc 5 0,
        Op.free (some (blk 72)), Op.free (some (blk 16)), Op.alloc 5 0]
        (reserved 80)).1.mem) fl ∧
      Ret (fun fuel => free_list fuel h3.mem) fl ∧
      h3.get_offer = (after 80 [Op.alloc 5 0, Op.alloc 5 0, Op.alloc 5 0,
        Op.free (some (blk 72)), Op.free (some (blk 16)), Op.alloc 5 0]
        (reserved 80)).1.get_offer :=
  ⟨by decide, Reach.after_reach _ (Reach.reserved_reach 80) (by decide), by decide, by decide,
    by decide, by decide,
    realloc_same_place 80 (after 80 [Op.alloc 5 0, Op.alloc 5 0, Op.alloc 5 0,
      Op.free (some (blk 72)), Op.free (some (blk 16))] (reserved 80)) 5 0 (blk 72)
      (after 80 [Op.alloc 5 0, Op.alloc 5 0, Op.alloc 5 0, Op.free (some (blk 72)),
        Op.free (some (blk 16)), Op.alloc 5 0] (reserved 80)).1 (by decide)
      (Reach.after_reach _ (Reach.reserved_reach 80) (by decide)) rfl⟩


/-! ## Success does not depend on the strategy -/

/-- C20. Success does not depend on the strategy: from the memory of a
reachable configuration, for every `s`, `m_alloc(s)` returns with first-fit
selected and returns with best-fit selected, and the first returns null
exactly when the second does. The two searches themselves agree: on every
memory whose free list is `fl`, for every request size, `m_get_first_fit`
finds a block exactly when `m_get_best_fit` does, a request of zero in front
of a block of size `SIZE_MAX` apart (`m_alloc` never asks for less than
`sizeof(bloc)`). -/
theorem success_strategy_independent (M_SIZE : Nat) (c : Config) (s : Nat)
    (hM : M_SIZE ≤ SIZE_MAX) (hr : Reach M_SIZE c) :
    (∃ r1 h1 r2 h2,
      Ret (fun fuel => m_alloc M_SIZE fuel s ⟨c.1.mem, Offer.m_get_first_fit⟩) (r1, h1) ∧
      Ret (fun fuel => m_alloc M_SIZE fuel s ⟨c.1.mem, Offer.m_get_best_fit⟩) (r2, h2) ∧
      (r1 = none ↔ r2 = none)) ∧
    (∀ (m : Mem) (fl : List Ptr) (size : Nat), Ret (fun fuel => free_list fuel m) fl →
      (∀ p ∈ fl, bloc_get_size m p ≤ SIZE_MAX) →
      (∀ p ∈ fl, ¬ (size = 0 ∧ bloc_get_size m p = SIZE_MAX)) →
      ∃ q1 q2, Ret (fun fuel => m_get_first_fit fuel m size) q1 ∧
        Ret (fun fuel => m_get_best_fit fuel m size) q2 ∧ (q1 = none ↔ q2 = none)) := by
  constructor
  · by_cases h1 : s > SIZE_MAX - BLOC_INFOS_SIZE
    · exact ⟨none, ⟨c.1.mem, Offer.m_get_first_fit⟩, none, ⟨c.1.mem, Offer.m_get_best_fit⟩,
        ⟨0, fun fuel => by simp [m_alloc, h1]⟩, ⟨0, fun fuel => by simp [m_alloc, h1]⟩,
        Iff.rfl⟩
    by_cases h2 : s > size_sub M_SIZE BLOC_INFOS_SIZE
    · exact ⟨none, ⟨c.1.mem, Offer.m_get_first_fit⟩, none, ⟨c.1.mem, Offer.m_get_best_fit⟩,
        ⟨0, fun fuel => by simp [m_alloc, h1, h2]⟩,
        ⟨0, fun fuel => by simp [m_alloc, h1, h2]⟩, Iff.rfl⟩
    rcases hr.invariant hM with ⟨-, bs, fl, g, -⟩ | ⟨rfl, hi⟩
    · obtain ⟨r1, h1', hret1, hiff1⟩ :=
        @Good.alloc_none_iff M_SIZE ⟨c.1.mem, Offer.m_get_first_fit⟩ bs fl g hM s h1 h2
      obtain ⟨r2, h2', hret2, hiff2⟩ :=
        @Good.alloc_none_iff M_SIZE ⟨c.1.mem, Offer.m_get_best_fit⟩ bs fl g hM s h1 h2
      exact ⟨r1, h1', r2, h2', hret1, hret2, hiff1.trans hiff2.symm⟩
    · have hi1 : Inv0 (⟨c.1.mem, Offer.m_get_first_fit⟩, c.2) := hi
      have hi2 : Inv0 (⟨c.1.mem, Offer.m_get_best_fit⟩, c.2) := hi
      exact ⟨none, _, none, _, hi1.alloc_zero h1 h2, hi2.alloc_zero h1 h2, Iff.rfl⟩
  · intro m fl size hfl hsz hedge
    have hc := chain_of_free_list hfl
    refine ⟨_, _, Chain.first_fit size hc, Chain.best_fit size SIZE_MAX none hc, ?_⟩
    rw [List.find?_eq_none, best_fit_scan_none]
    constructor
    · intro h p hp hq
      have := h p hp
      simp only [decide_eq_true_eq] at this
      exact this hq.1
    · intro h p hp
      simp only [decide_eq_true_eq]
      intro hle
      refine h p hp ⟨hle, ?_⟩
      have h3 := hsz p hp
      have h4 := hedge p hp
      simp only [bloc_get_size] at h3 h4
      rw [size_sub_eq hle h3]
      omega

theorem success_strategy_independent_witness :
    80 ≤ SIZE_MAX ∧
    Reach 80 (after 80 [Op.alloc 5 0, Op.alloc 5 0, Op.alloc 5 0, Op.free (some (blk 72)),
      Op.free (some (blk 16))] (reserved 80)) ∧
    (m_alloc 80 5 0 ⟨(after 80 [Op.alloc 5 0, Op.alloc 5 0, Op.alloc 5 0,
      Op.free (some (blk 72)), Op.free (some (blk 16))] (reserved 80)).1.mem,
      Offer.m_get_first_fit⟩).map Prod.fst = some (some (blk 16)) ∧
    (m_alloc 80 5 0 ⟨(after 80 [Op.alloc 5 0, Op.alloc 5 0, Op.alloc 5 0,
      Op.free (some (blk 72)), Op.free (some (blk 16))] (reserved 80)).1.mem,
      Offer.m_get_best_fit⟩).map Prod.fst = some (some (blk 72)) ∧
    ((∃ r1 h1 r2 h2,
      Ret (fun fuel => m_alloc 80 fuel 0 ⟨(after 80 [Op.alloc 5 0, Op.alloc 5 0, Op.alloc 5 0,
        Op.free (some (blk 72)), Op.free (some (blk 16))] (reserved 80)).1.mem,
        Offer.m_get_first_fit⟩) (r1, h1) ∧
      Ret (fun fuel => m_alloc 80 fuel 0 ⟨(after 80 [Op.alloc 5 0, Op.alloc 5 0, Op.alloc 5 0,
        Op.free (some (blk 72)), Op.free (some (blk 16))] (reserved 80)).1.mem,
        Offer.m_get_best_fit⟩) (r2, h2) ∧
      (r1 = none ↔ r2 = none)) ∧
    (∀ (m : Mem) (fl : List Ptr) (size : Nat), Ret (fun fuel => free_list fuel m) fl →
      (∀ p ∈ fl, bloc_get_size m p ≤ SIZE_MAX) →
      (∀ p ∈ fl, ¬ (size = 0 ∧ bloc_get_size m p = SIZE_MAX)) →
      ∃ q1 q2, Ret (fun fuel => m_get_first_fit fuel m size) q1 ∧
        Ret (fun fuel => m_get_best_fit fuel m size) q2 ∧ (q1 = none ↔ q2 = none))) :=
  ⟨by decide, Reach.after_reach _ (Reach.reserved_reach 80) (by decide), by decide, by decide,
    success_strategy_independent 80 _ 0 (by decide)
      (Reach.after_reach _ (Reach.reserved_reach 80) (by decide))⟩


end MemoryHeap
